import Mathlib

/-!
# Red-black tree dictionary (`RB_tree_model.c`): model and verification

The C program keeps its nodes in malloc'ed records linked by `father`, `son_l`, `son_r`
pointers, a global `root`, and one shared sentinel node.  The embedding below is a
component-wise memory model: a pointer is a natural number (an address) and every
field of `struct node` is a map from addresses to field values, so that `p->father`
is `st.father p` and an assignment `p->father = q` is a point update of that map.
Loops are structural recursions on a fuel argument and return `none` when the fuel
runs out, so that "the call returns" is always an explicit statement.
-/

namespace RBTreeModel

/-- The macro `length`: the number of bytes of a key. -/
def length : Nat := 32

/-- The macro `numOfWords`. -/
def numOfWords : Nat := 100

/-- Program memory: one map per field of `struct node`, the global `root`, the
allocation frontier of `malloc` (addresses below `next` are allocated, nothing is
ever freed by the program) and `rot`, a ghost counter of the calls of
`leftRotation`/`rightRotation` that no code reads.  `key p` is the content of the
`length` bytes at `p->key`; a `char` is modelled by its integer value.  For the
sentinel, which is allocated with `malloc(sizeof(node))`, these bytes lie outside
its allocation and `key sentinel` stands for whatever memory holds there. -/
structure Mem where
  father : Nat → Nat
  son_l : Nat → Nat
  son_r : Nat → Nat
  color : Nat → Bool
  key : Nat → List Int
  root : Nat
  next : Nat
  rot : Nat

/-- Assignment `p->father = v`. -/
def Mem.setFather (st : Mem) (p v : Nat) : Mem :=
  { st with father := Function.update st.father p v }

/-- Assignment `p->son_l = v`. -/
def Mem.setSonL (st : Mem) (p v : Nat) : Mem :=
  { st with son_l := Function.update st.son_l p v }

/-- Assignment `p->son_r = v`. -/
def Mem.setSonR (st : Mem) (p v : Nat) : Mem :=
  { st with son_r := Function.update st.son_r p v }

/-- Assignment `p->color = v`. -/
def Mem.setColor (st : Mem) (p : Nat) (v : Bool) : Mem :=
  { st with color := Function.update st.color p v }

/-- The call `memcpy(p->key, src, length)`. -/
def Mem.setKey (st : Mem) (p : Nat) (src : List Int) : Mem :=
  { st with key := Function.update st.key p (src.take length) }

/-- Assignment `root = v`. -/
def Mem.setRoot (st : Mem) (v : Nat) : Mem :=
  { st with root := v }

/-- Ghost step: one more rotation was called. -/
def Mem.countRotation (st : Mem) : Mem :=
  { st with rot := st.rot + 1 }

/-- A call of `malloc`: the fresh address and the memory with the frontier moved. The
fields of the new record keep whatever the memory held there. -/
def Mem.malloc (st : Mem) : Nat × Mem :=
  (st.next, { st with next := st.next + 1 })

/-- Source `initializeSentinel`: allocates the sentinel, links it to itself and colours
it black; returns the memory and the sentinel. The key bytes are not written. -/
def initializeSentinel (st : Mem) : Mem × Nat :=
  let (sentinel, st) := st.malloc
  let st := st.setFather sentinel sentinel
  let st := st.setSonL sentinel sentinel
  let st := st.setSonR sentinel sentinel
  let st := st.setColor sentinel false
  (st, sentinel)

/-- The loop of `stringCompare` from index `i` with `n` iterations left. -/
def stringCompareFrom (s1 s2 : List Int) : Nat → Nat → Int
  | _, 0 => 0
  | i, n + 1 =>
    if s1.getD i 0 < s2.getD i 0 then -1
    else if s1.getD i 0 > s2.getD i 0 then 1
    else stringCompareFrom s1 s2 (i + 1) n

/-- Source `stringCompare`: compares the first `length` bytes. -/
def stringCompare (s1 s2 : List Int) : Int :=
  stringCompareFrom s1 s2 0 length

/-- Source `minimum`. -/
def minimum : Nat → Mem → Nat → Nat → Option Nat
  | 0, _, _, _ => none
  | fuel + 1, st, temp, sentinel =>
    if st.son_l temp ≠ sentinel then minimum fuel st (st.son_l temp) sentinel
    else some temp

/-- Source `maximum`. -/
def maximum : Nat → Mem → Nat → Nat → Option Nat
  | 0, _, _, _ => none
  | fuel + 1, st, temp, sentinel =>
    if st.son_r temp ≠ sentinel then maximum fuel st (st.son_r temp) sentinel
    else some temp

/-- The upward loop of `successor`. -/
def successorLoop : Nat → Mem → Nat → Nat → Nat → Option Nat
  | 0, _, _, _, _ => none
  | fuel + 1, st, givenNode, temp, sentinel =>
    if temp ≠ sentinel ∧ st.son_r temp = givenNode then
      successorLoop fuel st temp (st.father temp) sentinel
    else some temp

/-- Source `successor`. -/
def successor (fuel : Nat) (st : Mem) (givenNode sentinel : Nat) : Option Nat :=
  if st.son_r givenNode ≠ sentinel then minimum fuel st (st.son_r givenNode) sentinel
  else successorLoop fuel st givenNode (st.father givenNode) sentinel

/-- The loop of `printTreeWithColours`; `n` is the fuel handed to `successor`. The
result is the list of the printed lines, a key with `true` for RED, `false` for BLACK. -/
def printLoop (n : Nat) : Nat → Mem → Nat → Nat → Nat → Option (List (List Int × Bool))
  | 0, _, _, _, _ => none
  | fuel + 1, st, handle, upper_bound, sentinel =>
    if handle ≠ upper_bound then
      match successor n st handle sentinel with
      | none => none
      | some nxt =>
        match printLoop n fuel st nxt upper_bound sentinel with
        | none => none
        | some out => some ((st.key handle, st.color handle) :: out)
    else some [(st.key handle, st.color handle)]

/-- Source `printTreeWithColours`, returning what it prints. -/
def printTreeWithColours (fuel : Nat) (st : Mem) (nodo sentinel : Nat) :
    Option (List (List Int × Bool)) :=
  match minimum fuel st nodo sentinel, maximum fuel st nodo sentinel with
  | some handle, some upper_bound => printLoop fuel fuel st handle upper_bound sentinel
  | _, _ => none

/-- Source `leftRotation`. -/
def leftRotation (st : Mem) (centerOfRotation sentinel : Nat) : Mem :=
  let temp := st.son_r centerOfRotation
  let st := st.setSonR centerOfRotation (st.son_l temp)
  let st := if st.son_l temp ≠ sentinel then st.setFather (st.son_l temp) centerOfRotation else st
  let st := st.setFather temp (st.father centerOfRotation)
  let st :=
    if st.father centerOfRotation = sentinel then st.setRoot temp
    else if centerOfRotation = st.son_l (st.father centerOfRotation) then
      st.setSonL (st.father centerOfRotation) temp
    else st.setSonR (st.father centerOfRotation) temp
  let st := st.setSonL temp centerOfRotation
  let st := st.setFather centerOfRotation temp
  st.countRotation

/-- Source `rightRotation`. -/
def rightRotation (st : Mem) (centerOfRotation sentinel : Nat) : Mem :=
  let temp := st.son_l centerOfRotation
  let st := st.setSonL centerOfRotation (st.son_r temp)
  let st := if st.son_r temp ≠ sentinel then st.setFather (st.son_r temp) centerOfRotation else st
  let st := st.setFather temp (st.father centerOfRotation)
  let st :=
    if st.father centerOfRotation = sentinel then st.setRoot temp
    else if centerOfRotation = st.son_r (st.father centerOfRotation) then
      st.setSonR (st.father centerOfRotation) temp
    else st.setSonL (st.father centerOfRotation) temp
  let st := st.setSonR temp centerOfRotation
  let st := st.setFather centerOfRotation temp
  st.countRotation

/-- One iteration of the loop of `balancingRBtree` (the loop condition holds): the new
memory and the new value of `givenNode`. -/
def balancingStep (st : Mem) (givenNode sentinel : Nat) : Mem × Nat :=
  if st.father givenNode = st.son_l (st.father (st.father givenNode)) then
    let temp := st.son_r (st.father (st.father givenNode))
    if st.color temp = true then
      let st := st.setColor (st.father givenNode) false
      let st := st.setColor temp false
      let st := st.setColor (st.father (st.father givenNode)) true
      (st, st.father (st.father givenNode))
    else
      if givenNode = st.son_r (st.father givenNode) then
        let givenNode := st.father givenNode
        (leftRotation st givenNode sentinel, givenNode)
      else
        let st := st.setColor (st.father givenNode) false
        let st := st.setColor (st.father (st.father givenNode)) true
        (rightRotation st (st.father (st.father givenNode)) sentinel, givenNode)
  else
    let temp := st.son_l (st.father (st.father givenNode))
    if st.color temp = true then
      let st := st.setColor (st.father givenNode) false
      let st := st.setColor temp false
      let st := st.setColor (st.father (st.father givenNode)) true
      (st, st.father (st.father givenNode))
    else
      if givenNode = st.son_l (st.father givenNode) then
        let givenNode := st.father givenNode
        (rightRotation st givenNode sentinel, givenNode)
      else
        let st := st.setColor (st.father givenNode) false
        let st := st.setColor (st.father (st.father givenNode)) true
        (leftRotation st (st.father (st.father givenNode)) sentinel, givenNode)

/-- Source `balancingRBtree`. -/
def balancingRBtree : Nat → Mem → Nat → Nat → Option Mem
  | 0, _, _, _ => none
  | fuel + 1, st, givenNode, sentinel =>
    if st.color (st.father givenNode) = true then
      balancingRBtree fuel (balancingStep st givenNode sentinel).1
        (balancingStep st givenNode sentinel).2 sentinel
    else some (st.setColor st.root false)

/-- The descent loop of `insertElement`; returns the final `pred` (on exit `curr` is
the sentinel). -/
def insertLoop : Nat → Mem → Nat → Nat → Nat → Nat → Option Nat
  | 0, _, _, _, _, _ => none
  | fuel + 1, st, nodo, pred, curr, sentinel =>
    if curr ≠ sentinel then
      if stringCompare (st.key nodo) (st.key curr) < 0 then
        insertLoop fuel st nodo curr (st.son_l curr) sentinel
      else insertLoop fuel st nodo curr (st.son_r curr) sentinel
    else some pred

/-- The part of `insertElement` between the descent loop and the call of
`balancingRBtree`: links the new node below `pred`. -/
def insertAttach (st : Mem) (nodo pred sentinel : Nat) : Mem :=
  let st := st.setFather nodo pred
  let st :=
    if pred = sentinel then
      let st := st.setRoot nodo
      st.setFather st.root sentinel
    else if stringCompare (st.key nodo) (st.key pred) < 0 then st.setSonL pred nodo
    else st.setSonR pred nodo
  let st := st.setSonL nodo sentinel
  let st := st.setSonR nodo sentinel
  st.setColor nodo true

/-- Source `insertElement`. -/
def insertElement (fuel : Nat) (st : Mem) (toBeInserted : List Int) (sentinel : Nat) :
    Option Mem :=
  let (nodo, st) := st.malloc
  let st := st.setColor nodo true
  let st := st.setKey nodo toBeInserted
  match insertLoop fuel st nodo sentinel st.root sentinel with
  | none => none
  | some pred => balancingRBtree fuel (insertAttach st nodo pred sentinel) nodo sentinel

/-- In `reparationRBtree`, `nodo` a left child: the block `if (temp->color == true)`,
the case of a red sibling. Returns the memory and `temp`. -/
def reparationLeftRed (st : Mem) (nodo sentinel temp : Nat) : Mem × Nat :=
  if st.color temp = true then
    let st := st.setColor temp false
    let st := st.setColor (st.father nodo) true
    let st := leftRotation st (st.father nodo) sentinel
    (st, st.son_r (st.father nodo))
  else (st, temp)

/-- In `reparationRBtree`, `nodo` a left child: the `if`/`else` that follows, the cases of
a black sibling. Returns the memory and the new `nodo`. -/
def reparationLeftBlack (st : Mem) (nodo sentinel temp : Nat) : Mem × Nat :=
  if st.color (st.son_l temp) = false ∧ st.color (st.son_r temp) = false then
    let st := st.setColor temp true
    (st, st.father nodo)
  else
    let (st, temp) :=
      if st.color (st.son_r temp) = false then
        let st := st.setColor (st.son_l temp) false
        let st := st.setColor temp true
        let st := rightRotation st temp sentinel
        (st, st.son_r (st.father nodo))
      else (st, temp)
    let st := st.setColor temp (st.color (st.father nodo))
    let st := st.setColor (st.father nodo) false
    let st := st.setColor (st.son_r temp) false
    let st := leftRotation st (st.father nodo) sentinel
    (st, st.root)

/-- In `reparationRBtree`, `nodo` a right child: the block `if (temp->color == true)`. -/
def reparationRightRed (st : Mem) (nodo sentinel temp : Nat) : Mem × Nat :=
  if st.color temp = true then
    let st := st.setColor temp false
    let st := st.setColor (st.father nodo) true
    let st := rightRotation st (st.father nodo) sentinel
    (st, st.son_l (st.father nodo))
  else (st, temp)

/-- In `reparationRBtree`, `nodo` a right child: the `if`/`else` that follows. -/
def reparationRightBlack (st : Mem) (nodo sentinel temp : Nat) : Mem × Nat :=
  if st.color (st.son_l temp) = false ∧ st.color (st.son_r temp) = false then
    let st := st.setColor temp true
    (st, st.father nodo)
  else
    let (st, temp) :=
      if st.color (st.son_l temp) = false then
        let st := st.setColor (st.son_r temp) false
        let st := st.setColor temp true
        let st := leftRotation st temp sentinel
        (st, st.son_l (st.father nodo))
      else (st, temp)
    let st := st.setColor temp (st.color (st.father nodo))
    let st := st.setColor (st.father nodo) false
    let st := st.setColor (st.son_l temp) false
    let st := rightRotation st (st.father nodo) sentinel
    (st, st.root)

/-- One iteration of the loop of `reparationRBtree` (the loop condition holds): the new
memory and the new value of `nodo`. When `nodo` is neither child of its father the body
does nothing. -/
def reparationStep (st : Mem) (nodo sentinel : Nat) : Mem × Nat :=
  if nodo = st.son_l (st.father nodo) then
    let temp := st.son_r (st.father nodo)
    let (st, temp) := reparationLeftRed st nodo sentinel temp
    reparationLeftBlack st nodo sentinel temp
  else if nodo = st.son_r (st.father nodo) then
    let temp := st.son_l (st.father nodo)
    let (st, temp) := reparationRightRed st nodo sentinel temp
    reparationRightBlack st nodo sentinel temp
  else (st, nodo)

/-- Source `reparationRBtree`. -/
def reparationRBtree : Nat → Mem → Nat → Nat → Option Mem
  | 0, _, _, _ => none
  | fuel + 1, st, nodo, sentinel =>
    if nodo ≠ st.root ∧ st.color nodo = false then
      reparationRBtree fuel (reparationStep st nodo sentinel).1
        (reparationStep st nodo sentinel).2 sentinel
    else some (st.setColor nodo false)

/-- Source `substituteSubtree`. -/
def substituteSubtree (st : Mem) (node1 node2 sentinel : Nat) : Mem :=
  let st :=
    if st.father node1 = sentinel then st.setRoot node2
    else if node1 = st.son_l (st.father node1) then st.setSonL (st.father node1) node2
    else st.setSonR (st.father node1) node2
  st.setFather node2 (st.father node1)

/-- The part of `deleteNode` before the final test of `old_color`: the memory after the
unlinking, `temp2` and `old_color`. -/
def deleteUnlink (fuel : Nat) (st : Mem) (nodeToBeDeleted sentinel : Nat) :
    Option (Mem × Nat × Bool) :=
  let temp1 := nodeToBeDeleted
  let old_color := st.color temp1
  if st.son_l nodeToBeDeleted = sentinel then
    let temp2 := st.son_r nodeToBeDeleted
    some (substituteSubtree st nodeToBeDeleted (st.son_r nodeToBeDeleted) sentinel,
      temp2, old_color)
  else if st.son_r nodeToBeDeleted = sentinel then
    let temp2 := st.son_l nodeToBeDeleted
    some (substituteSubtree st nodeToBeDeleted (st.son_l nodeToBeDeleted) sentinel,
      temp2, old_color)
  else
    match minimum fuel st (st.son_r nodeToBeDeleted) sentinel with
    | none => none
    | some temp1 =>
      let old_color := st.color temp1
      let temp2 := st.son_r temp1
      let st :=
        if st.father temp1 = nodeToBeDeleted then st.setFather temp2 temp1
        else
          let st := substituteSubtree st temp1 (st.son_r temp1) sentinel
          let st := st.setSonR temp1 (st.son_r nodeToBeDeleted)
          st.setFather (st.son_r temp1) temp1
      let st := substituteSubtree st nodeToBeDeleted temp1 sentinel
      let st := st.setSonL temp1 (st.son_l nodeToBeDeleted)
      let st := st.setFather (st.son_l temp1) temp1
      let st := st.setColor temp1 (st.color nodeToBeDeleted)
      some (st, temp2, old_color)

/-- Source `deleteNode`. -/
def deleteNode (fuel : Nat) (st : Mem) (nodeToBeDeleted sentinel : Nat) : Option Mem :=
  match deleteUnlink fuel st nodeToBeDeleted sentinel with
  | none => none
  | some (st, temp2, old_color) =>
    if old_color = false then reparationRBtree fuel st temp2 sentinel else some st

/-- The deletion condition of `reduceTree` on the first key byte: one of `a e i o u`. -/
def isVowel (c : Int) : Bool :=
  c == 97 || c == 101 || c == 105 || c == 111 || c == 117

/-- The loop of `reduceTree`; `n` is the fuel handed to the calls inside. The flags `del`
and `end` of the source are folded into the control flow: the first branch is the
iteration that deletes and restarts, the second the one that sets `end`. -/
def reduceLoop (n : Nat) : Nat → Mem → Nat → Nat → Nat → Option Mem
  | 0, _, _, _, _ => none
  | fuel + 1, st, handle, upper_bound, sentinel =>
    if isVowel ((st.key handle).getD 0 0) = true then
      match deleteNode n st handle sentinel with
      | none => none
      | some st =>
        match minimum n st st.root sentinel, maximum n st st.root sentinel with
        | some handle, some upper_bound => reduceLoop n fuel st handle upper_bound sentinel
        | _, _ => none
    else if handle = upper_bound then some st
    else
      match successor n st handle sentinel with
      | none => none
      | some handle => reduceLoop n fuel st handle upper_bound sentinel

/-- Source `reduceTree`. -/
def reduceTree (fuel : Nat) (st : Mem) (sentinel : Nat) : Option Mem :=
  match minimum fuel st st.root sentinel, maximum fuel st st.root sentinel with
  | some handle, some upper_bound => reduceLoop fuel fuel st handle upper_bound sentinel
  | _, _ => none

/-- The start of `main`: a memory in which only the sentinel is allocated and `root` is
the sentinel. The argument is the memory before, whose content is arbitrary. -/
def emptyTree (st : Mem) : Mem × Nat :=
  let (st, sentinel) := initializeSentinel st
  (st.setRoot sentinel, sentinel)

/-- A sequence of `insertElement` calls, as in the loop of `main`. -/
def insertAll (fuel : Nat) : Mem → List (List Int) → Nat → Option Mem
  | st, [], _ => some st
  | st, k :: ks, sentinel =>
    match insertElement fuel st k sentinel with
    | none => none
    | some st => insertAll fuel st ks sentinel

/-! ## The tree a memory holds -/

/-- A binary tree of node records: address, colour (`true` is red), key, subtrees.
`nil` stands for a link to the sentinel. -/
inductive Tree where
  | nil : Tree
  | node (a : Nat) (c : Bool) (k : List Int) (l r : Tree) : Tree
  deriving DecidableEq

/-- The tree found in memory below pointer `p`, following `son_l` and `son_r` down to
the sentinel. -/
def readTree : Nat → Mem → Nat → Nat → Option Tree
  | 0, _, _, _ => none
  | fuel + 1, st, p, sentinel =>
    if p = sentinel then some Tree.nil
    else
      match readTree fuel st (st.son_l p) sentinel, readTree fuel st (st.son_r p) sentinel with
      | some l, some r => some (Tree.node p (st.color p) (st.key p) l r)
      | _, _ => none

namespace Tree

/-- The pointer that links to a tree: the address of its root node, the sentinel for
`nil`. -/
def ptr (sentinel : Nat) : Tree → Nat
  | nil => sentinel
  | node a _ _ _ _ => a

/-- The colour of the root node; `nil` (the sentinel) is black. -/
def color : Tree → Bool
  | nil => false
  | node _ c _ _ _ => c

/-- The in-order sequence of nodes as pairs of address and key. -/
def nodes : Tree → List (Nat × List Int)
  | nil => []
  | node a _ k l r => l.nodes ++ (a, k) :: r.nodes

/-- The in-order sequence of node addresses. -/
def addrs : Tree → List Nat
  | nil => []
  | node a _ _ l r => l.addrs ++ a :: r.addrs

/-- The in-order sequence of keys. -/
def keys : Tree → List (List Int)
  | nil => []
  | node _ _ k l r => l.keys ++ k :: r.keys

/-- The in-order sequence of printed entries: key and colour. -/
def entries : Tree → List (List Int × Bool)
  | nil => []
  | node _ c k l r => l.entries ++ (k, c) :: r.entries

/-- No red node has a red child. -/
def noRedRed : Tree → Prop
  | nil => True
  | node _ c _ l r => (c = true → l.color = false ∧ r.color = false) ∧ l.noRedRed ∧ r.noRedRed

/-- For every path from the root down to a sentinel link, the number of black nodes on
it. -/
def blackCounts : Tree → List Nat
  | nil => [0]
  | node _ c _ l r => (l.blackCounts ++ r.blackCounts).map (fun n => n + if c then 0 else 1)

/-- Every path from the root down to the sentinel passes through the same number of
black nodes. -/
def pathsEqual (t : Tree) : Prop :=
  ∀ m ∈ t.blackCounts, ∀ n ∈ t.blackCounts, m = n

/-- The red-black invariants 2 to 4: black root, no red node with a red child, equal
black count on all paths. -/
def RedBlack (t : Tree) : Prop :=
  t.color = false ∧ t.noRedRed ∧ t.pathsEqual

/-- The in-order key sequence is non-decreasing under `stringCompare`. -/
def Ordered (t : Tree) : Prop :=
  List.Chain' (fun k1 k2 => stringCompare k1 k2 ≤ 0) t.keys

/-- The search-tree property, node by node: every key of the left subtree compares
`≤` the key of the node, every key of the right subtree compares `≥` it. -/
def SearchTree : Tree → Prop
  | nil => True
  | node _ _ k l r =>
    (∀ x ∈ l.keys, stringCompare x k ≤ 0) ∧ (∀ x ∈ r.keys, stringCompare x k ≥ 0) ∧
      l.SearchTree ∧ r.SearchTree

instance decNoRedRed : (t : Tree) → Decidable t.noRedRed
  | nil => isTrue trivial
  | node _ c _ l r =>
    have := decNoRedRed l
    have := decNoRedRed r
    inferInstanceAs
      (Decidable ((c = true → l.color = false ∧ r.color = false) ∧ l.noRedRed ∧ r.noRedRed))

instance decPathsEqual (t : Tree) : Decidable t.pathsEqual :=
  inferInstanceAs (Decidable (∀ m ∈ t.blackCounts, ∀ n ∈ t.blackCounts, m = n))

instance decRedBlack (t : Tree) : Decidable t.RedBlack :=
  inferInstanceAs (Decidable (t.color = false ∧ t.noRedRed ∧ t.pathsEqual))

instance decOrdered (t : Tree) : Decidable t.Ordered :=
  inferInstanceAs (Decidable (List.Chain' (fun k1 k2 => stringCompare k1 k2 ≤ 0) t.keys))

end Tree

/-! ## The concrete scenario of `main` -/

/-- A word zero-padded to `length` bytes. -/
def pad (cs : List Int) : List Int :=
  cs ++ List.replicate (length - cs.length) 0

/-- A memory before the program starts, with `g` in every key byte area: `g` is what a
read of the bytes behind the sentinel record finds. -/
def blankMem (g : List Int) : Mem :=
  ⟨fun _ => 0, fun _ => 0, fun _ => 0, fun _ => false, fun _ => g, 0, 0, 0⟩

/-- The word `banana`. -/
def banana : List Int := pad [98, 97, 110, 97, 110, 97]

/-- The word `apple`. -/
def apple : List Int := pad [97, 112, 112, 108, 101]

/-- The word `cherry`. -/
def cherry : List Int := pad [99, 104, 101, 114, 114, 121]

/-- The word `egg`. -/
def egg : List Int := pad [101, 103, 103]

/-- The word `fig`. -/
def fig : List Int := pad [102, 105, 103]

/-- The memory after inserting the five words into the empty tree. -/
def scenarioInserted : Option Mem :=
  insertAll 8 (emptyTree (blankMem [])).1 [banana, apple, cherry, egg, fig]
    (emptyTree (blankMem [])).2

/-- The memory after `reduceTree` on the five-word tree. -/
def scenarioReduced : Option Mem :=
  scenarioInserted.bind (fun st => reduceTree 8 st (emptyTree (blankMem [])).2)

/-! ## Trees in memory: the representation relation -/

/-- One step of a downward path: the node passed (address, colour, key), on which side
the path goes on, and the subtree on the other side. `left` means the path continues
into the left child, `r` being the right subtree. -/
inductive Frame where
  | left (a : Nat) (c : Bool) (k : List Int) (r : Tree) : Frame
  | right (a : Nat) (c : Bool) (k : List Int) (l : Tree) : Frame

namespace Frame

/-- The address of the node of a frame. -/
def addr : Frame → Nat
  | left a _ _ _ => a
  | right a _ _ _ => a

/-- The colour of the node of a frame. -/
def color : Frame → Bool
  | left _ c _ _ => c
  | right _ c _ _ => c

/-- The subtree on the other side of the path. -/
def sibling : Frame → Tree
  | left _ _ _ r => r
  | right _ _ _ l => l

/-- The node of the frame with `t` as the child on the path. -/
def fill : Frame → Tree → Tree
  | left a c k r, t => Tree.node a c k t r
  | right a c k l, t => Tree.node a c k l t

end Frame

/-- The tree around a position, given as the path from the position up to the root
(nearest node first), with `t` put at the position. -/
def plug : List Frame → Tree → Tree
  | [], t => t
  | f :: fs, t => plug fs (f.fill t)

/-- The `father` pointer of the position of a path: the nearest node, or the sentinel
at the root. -/
def pathPtr (sentinel : Nat) : List Frame → Nat
  | [] => sentinel
  | f :: _ => f.addr

/-- The colour of the father of the position; black at the root (the sentinel). -/
def pathColor : List Frame → Bool
  | [] => false
  | f :: _ => f.color

/-- The pointer to the root of the whole tree when `x` points to the position. -/
def rootPtr : List Frame → Nat → Nat
  | [], x => x
  | f :: fs, _ => rootPtr fs f.addr

/-- The in-order nodes that come before the position of a path. -/
def nodesBefore : List Frame → List (Nat × List Int)
  | [] => []
  | Frame.left _ _ _ _ :: fs => nodesBefore fs
  | Frame.right a _ k l :: fs => nodesBefore fs ++ (l.nodes ++ [(a, k)])

/-- The in-order nodes that come after the position of a path. -/
def nodesAfter : List Frame → List (Nat × List Int)
  | [] => []
  | Frame.left a _ k r :: fs => ((a, k) :: r.nodes) ++ nodesAfter fs
  | Frame.right _ _ _ _ :: fs => nodesAfter fs

/-- The records of memory `st` hold the tree `t` below a node (or the sentinel) `p`:
every node of `t` has the fields the tree says, the `father` of the root being `p`. -/
def TreeAt (st : Mem) (sentinel : Nat) : Nat → Tree → Prop
  | _, Tree.nil => True
  | p, Tree.node a c k l r =>
    st.father a = p ∧ st.son_l a = l.ptr sentinel ∧ st.son_r a = r.ptr sentinel ∧
      st.color a = c ∧ st.key a = k ∧ TreeAt st sentinel a l ∧ TreeAt st sentinel a r

/-- Memory `st` with sentinel `sentinel` holds the tree `t`: `root` points to it, the
records are those of `t` with consistent `father` links, no record is used twice, all
records are allocated and differ from the sentinel, and the sentinel is black with
`son_l` and `son_r` pointing to itself (its `father` is not constrained: the deletion
code writes it). -/
structure Rep (st : Mem) (sentinel : Nat) (t : Tree) : Prop where
  root : st.root = t.ptr sentinel
  tree : TreeAt st sentinel sentinel t
  nodup : t.addrs.Nodup
  sentinel_not_mem : sentinel ∉ t.addrs
  sentinel_alloc : sentinel < st.next
  alloc : ∀ a ∈ t.addrs, a < st.next
  sentinel_color : st.color sentinel = false
  sentinel_left : st.son_l sentinel = sentinel
  sentinel_right : st.son_r sentinel = sentinel

/-- The addresses of the nodes on a path and in the subtrees beside it. -/
def pathAddrs : List Frame → List Nat
  | [] => []
  | f :: fs => f.addr :: (f.sibling.addrs ++ pathAddrs fs)

/-- The records of memory `st` hold the nodes of a path and the subtrees beside it,
when `x` is the pointer stored at the position of the path. -/
def PathAt (st : Mem) (sentinel : Nat) : Nat → List Frame → Prop
  | _, [] => True
  | x, Frame.left a c k r :: fs =>
    st.father a = pathPtr sentinel fs ∧ st.son_l a = x ∧ st.son_r a = r.ptr sentinel ∧
      st.color a = c ∧ st.key a = k ∧ TreeAt st sentinel a r ∧ PathAt st sentinel a fs
  | x, Frame.right a c k l :: fs =>
    st.father a = pathPtr sentinel fs ∧ st.son_l a = l.ptr sentinel ∧ st.son_r a = x ∧
      st.color a = c ∧ st.key a = k ∧ TreeAt st sentinel a l ∧ PathAt st sentinel a fs

/-- The representation relation seen from a position: memory `st` holds the tree
`plug fs t`, stated separately for the subtree `t` at the position and for the path
`fs` around it. -/
structure Zip (st : Mem) (sentinel : Nat) (fs : List Frame) (t : Tree) : Prop where
  root : st.root = rootPtr fs (t.ptr sentinel)
  path : PathAt st sentinel (t.ptr sentinel) fs
  tree : TreeAt st sentinel (pathPtr sentinel fs) t
  nodup : (t.addrs ++ pathAddrs fs).Nodup
  sentinel_not_mem : sentinel ∉ t.addrs ++ pathAddrs fs
  sentinel_alloc : sentinel < st.next
  alloc : ∀ a ∈ t.addrs ++ pathAddrs fs, a < st.next
  sentinel_color : st.color sentinel = false
  sentinel_left : st.son_l sentinel = sentinel
  sentinel_right : st.son_r sentinel = sentinel

/-! ## Invariants of a tree and of the path around a position -/

namespace Tree

/-- The number of black nodes on the leftmost path down to the sentinel. -/
def bh : Tree → Nat
  | nil => 0
  | node _ c _ l _ => l.bh + if c then 0 else 1

/-- In every node the two subtrees have the same black height. -/
def balanced : Tree → Prop
  | nil => True
  | node _ _ _ l r => l.bh = r.bh ∧ l.balanced ∧ r.balanced

/-- The tree with its root node coloured black: the effect of `root->color = false`. -/
def blacken : Tree → Tree
  | nil => nil
  | node a _ k l r => node a false k l r

end Tree

/-- The key of the node of a frame. -/
def Frame.key : Frame → List Int
  | Frame.left _ _ k _ => k
  | Frame.right _ _ k _ => k

/-- The colour of the root of the whole tree when `c` is the colour at the position. -/
def rootColor : List Frame → Bool → Bool
  | [], c => c
  | f :: fs, _ => rootColor fs f.color

/-- Black heights along a path fit: a subtree of black height `n` at the position makes
the whole tree balanced. -/
def PathBal : List Frame → Nat → Prop
  | [], _ => True
  | f :: fs, n =>
    f.sibling.balanced ∧ f.sibling.bh = n ∧ PathBal fs (n + if f.color then 0 else 1)

/-- No red node of a path has a red child, the child at the position not counted. -/
def PathNoRR : List Frame → Prop
  | [] => True
  | f :: fs =>
    f.sibling.noRedRed ∧ (f.color = true → f.sibling.color = false ∧ pathColor fs = false) ∧
      PathNoRR fs

/-- The path that the descent loop of `insertElement` takes in `t` for the key `k`,
put in front of `fs`: left on `<`, otherwise right. -/
def insPath (k : List Int) : Tree → List Frame → List Frame
  | Tree.nil, fs => fs
  | Tree.node a c ka l r, fs =>
    if stringCompare k ka < 0 then insPath k l (Frame.left a c ka r :: fs)
    else insPath k r (Frame.right a c ka l :: fs)

/-- Every turn of a path is the one the descent for `k` takes: left where `k` compares
`<` the key of the node, right otherwise. -/
def PathFor (k : List Int) : List Frame → Prop
  | [] => True
  | Frame.left _ _ ka _ :: fs => stringCompare k ka < 0 ∧ PathFor k fs
  | Frame.right _ _ ka _ :: fs => ¬ stringCompare k ka < 0 ∧ PathFor k fs

/-! ## Search, and concrete memories for the deletion claims -/

/-- Modelled from the spec: `search(key)`, which the source does not have: "descend from
root comparing as in insertion; returns the first node whose key compares equal, or
not found". The result is `some none` for not-found, `none` when the fuel runs out. -/
def search : Nat → Mem → List Int → Nat → Nat → Option (Option Nat)
  | 0, _, _, _, _ => none
  | fuel + 1, st, key, curr, sentinel =>
    if curr = sentinel then some none
    else if stringCompare key (st.key curr) = 0 then some (some curr)
    else if stringCompare key (st.key curr) < 0 then search fuel st key (st.son_l curr) sentinel
    else search fuel st key (st.son_r curr) sentinel

/-- The memory after inserting the five words into the empty tree. -/
def fiveWords : Mem := scenarioInserted.getD (blankMem [])

/-- The tree of the five words. -/
def fiveWordsTree : Tree :=
  Tree.node 1 false banana (Tree.node 2 false apple Tree.nil Tree.nil)
    (Tree.node 4 false egg (Tree.node 3 true cherry Tree.nil Tree.nil)
      (Tree.node 5 true fig Tree.nil Tree.nil))

/-- The memory after inserting the word `apple` into the empty tree, in a memory where
the bytes behind the sentinel record hold `'a'`. -/
def oneVowel : Mem :=
  (insertElement 2 (emptyTree (blankMem [97])).1 apple (emptyTree (blankMem [97])).2).getD
    (blankMem [])

/-- The memory after inserting the word `banana` twice into the empty tree. -/
def twoBananas : Mem :=
  (insertAll 3 (emptyTree (blankMem [])).1 [banana, banana] (emptyTree (blankMem [])).2).getD
    (blankMem [])

/-- The tree of the two equal words: the second one is the right child of the first. -/
def twoBananasTree : Tree :=
  Tree.node 1 false banana Tree.nil (Tree.node 2 true banana Tree.nil Tree.nil)

/-- The node that follows the position of a path when nothing follows inside the
position: the nearest node that the path leaves to the left, or the sentinel. -/
def pathNext (sentinel : Nat) : List Frame → Nat
  | [] => sentinel
  | Frame.left a _ _ _ :: _ => a
  | Frame.right _ _ _ _ :: fs => pathNext sentinel fs

/-- What every call keeps: the memory holds a red-black tree, and when the tree is empty
the `father` link of the sentinel points to the sentinel. -/
def Inv (st : Mem) (sentinel : Nat) : Prop :=
  ∃ T, Rep st sentinel T ∧ T.RedBlack ∧ (T = Tree.nil → st.father sentinel = sentinel)

/-- The memories reachable from the freshly initialised empty tree `emptyTree m` by calls
that return: `insertElement` of any key, `deleteNode` of a node of the tree that the
memory holds, and `reduceTree`. -/
inductive Reachable (m : Mem) : Mem → Prop
  | init : Reachable m (emptyTree m).1
  | insert {st st' : Mem} (fuel : Nat) (k : List Int) : Reachable m st →
      insertElement fuel st k (emptyTree m).2 = some st' → Reachable m st'
  | delete {st st' : Mem} (fuel n : Nat) (T : Tree) : Reachable m st →
      Rep st (emptyTree m).2 T → n ∈ T.addrs →
      deleteNode fuel st n (emptyTree m).2 = some st' → Reachable m st'
  | reduce {st st' : Mem} (fuel : Nat) : Reachable m st →
      reduceTree fuel st (emptyTree m).2 = some st' → Reachable m st'

/-- The memory after deleting the only node of the one-word tree `oneVowel`. -/
def emptied : Mem := (deleteNode 1 oneVowel 1 0).getD (blankMem [])

/-- The memory after `reduceTree` on the tree of the five words. -/
def threeWords : Mem := scenarioReduced.getD (blankMem [])

/-- An empty tree (the root is the sentinel, which is linked to itself and black) in a
memory where the byte read at `sentinel->key[0]` is a vowel. -/
structure EmptyVowel (st : Mem) (sentinel : Nat) : Prop where
  root : st.root = sentinel
  left : st.son_l sentinel = sentinel
  right : st.son_r sentinel = sentinel
  up : st.father sentinel = sentinel
  black : st.color sentinel = false
  vowel : isVowel ((st.key sentinel).getD 0 0) = true

/-! # Lemmas and theorems -/

/-! ## Field-wise reading of the assignments -/

@[simp] theorem Mem.setFather_father (st : Mem) (p v : Nat) :
    (st.setFather p v).father = Function.update st.father p v := rfl

@[simp] theorem Mem.setFather_son_l (st : Mem) (p v : Nat) :
    (st.setFather p v).son_l = st.son_l := rfl

@[simp] theorem Mem.setFather_son_r (st : Mem) (p v : Nat) :
    (st.setFather p v).son_r = st.son_r := rfl

@[simp] theorem Mem.setFather_color (st : Mem) (p v : Nat) :
    (st.setFather p v).color = st.color := rfl

@[simp] theorem Mem.setFather_key (st : Mem) (p v : Nat) :
    (st.setFather p v).key = st.key := rfl

@[simp] theorem Mem.setFather_root (st : Mem) (p v : Nat) :
    (st.setFather p v).root = st.root := rfl

@[simp] theorem Mem.setFather_next (st : Mem) (p v : Nat) :
    (st.setFather p v).next = st.next := rfl

@[simp] theorem Mem.setFather_rot (st : Mem) (p v : Nat) :
    (st.setFather p v).rot = st.rot := rfl

@[simp] theorem Mem.setSonL_father (st : Mem) (p v : Nat) :
    (st.setSonL p v).father = st.father := rfl

@[simp] theorem Mem.setSonL_son_l (st : Mem) (p v : Nat) :
    (st.setSonL p v).son_l = Function.update st.son_l p v := rfl

@[simp] theorem Mem.setSonL_son_r (st : Mem) (p v : Nat) :
    (st.setSonL p v).son_r = st.son_r := rfl

@[simp] theorem Mem.setSonL_color (st : Mem) (p v : Nat) :
    (st.setSonL p v).color = st.color := rfl

@[simp] theorem Mem.setSonL_key (st : Mem) (p v : Nat) :
    (st.setSonL p v).key = st.key := rfl

@[simp] theorem Mem.setSonL_root (st : Mem) (p v : Nat) :
    (st.setSonL p v).root = st.root := rfl

@[simp] theorem Mem.setSonL_next (st : Mem) (p v : Nat) :
    (st.setSonL p v).next = st.next := rfl

@[simp] theorem Mem.setSonL_rot (st : Mem) (p v : Nat) :
    (st.setSonL p v).rot = st.rot := rfl

@[simp] theorem Mem.setSonR_father (st : Mem) (p v : Nat) :
    (st.setSonR p v).father = st.father := rfl

@[simp] theorem Mem.setSonR_son_l (st : Mem) (p v : Nat) :
    (st.setSonR p v).son_l = st.son_l := rfl

@[simp] theorem Mem.setSonR_son_r (st : Mem) (p v : Nat) :
    (st.setSonR p v).son_r = Function.update st.son_r p v := rfl

@[simp] theorem Mem.setSonR_color (st : Mem) (p v : Nat) :
    (st.setSonR p v).color = st.color := rfl

@[simp] theorem Mem.setSonR_key (st : Mem) (p v : Nat) :
    (st.setSonR p v).key = st.key := rfl

@[simp] theorem Mem.setSonR_root (st : Mem) (p v : Nat) :
    (st.setSonR p v).root = st.root := rfl

@[simp] theorem Mem.setSonR_next (st : Mem) (p v : Nat) :
    (st.setSonR p v).next = st.next := rfl

@[simp] theorem Mem.setSonR_rot (st : Mem) (p v : Nat) :
    (st.setSonR p v).rot = st.rot := rfl

@[simp] theorem Mem.setColor_father (st : Mem) (p : Nat) (v : Bool) :
    (st.setColor p v).father = st.father := rfl

@[simp] theorem Mem.setColor_son_l (st : Mem) (p : Nat) (v : Bool) :
    (st.setColor p v).son_l = st.son_l := rfl

@[simp] theorem Mem.setColor_son_r (st : Mem) (p : Nat) (v : Bool) :
    (st.setColor p v).son_r = st.son_r := rfl

@[simp] theorem Mem.setColor_color (st : Mem) (p : Nat) (v : Bool) :
    (st.setColor p v).color = Function.update st.color p v := rfl

@[simp] theorem Mem.setColor_key (st : Mem) (p : Nat) (v : Bool) :
    (st.setColor p v).key = st.key := rfl

@[simp] theorem Mem.setColor_root (st : Mem) (p : Nat) (v : Bool) :
    (st.setColor p v).root = st.root := rfl

@[simp] theorem Mem.setColor_next (st : Mem) (p : Nat) (v : Bool) :
    (st.setColor p v).next = st.next := rfl

@[simp] theorem Mem.setColor_rot (st : Mem) (p : Nat) (v : Bool) :
    (st.setColor p v).rot = st.rot := rfl

@[simp] theorem Mem.setKey_father (st : Mem) (p : Nat) (v : List Int) :
    (st.setKey p v).father = st.father := rfl

@[simp] theorem Mem.setKey_son_l (st : Mem) (p : Nat) (v : List Int) :
    (st.setKey p v).son_l = st.son_l := rfl

@[simp] theorem Mem.setKey_son_r (st : Mem) (p : Nat) (v : List Int) :
    (st.setKey p v).son_r = st.son_r := rfl

@[simp] theorem Mem.setKey_color (st : Mem) (p : Nat) (v : List Int) :
    (st.setKey p v).color = st.color := rfl

@[simp] theorem Mem.setKey_key (st : Mem) (p : Nat) (v : List Int) :
    (st.setKey p v).key = Function.update st.key p (v.take length) := rfl

@[simp] theorem Mem.setKey_root (st : Mem) (p : Nat) (v : List Int) :
    (st.setKey p v).root = st.root := rfl

@[simp] theorem Mem.setKey_next (st : Mem) (p : Nat) (v : List Int) :
    (st.setKey p v).next = st.next := rfl

@[simp] theorem Mem.setKey_rot (st : Mem) (p : Nat) (v : List Int) :
    (st.setKey p v).rot = st.rot := rfl

@[simp] theorem Mem.setRoot_father (st : Mem) (v : Nat) :
    (st.setRoot v).father = st.father := rfl

@[simp] theorem Mem.setRoot_son_l (st : Mem) (v : Nat) :
    (st.setRoot v).son_l = st.son_l := rfl

@[simp] theorem Mem.setRoot_son_r (st : Mem) (v : Nat) :
    (st.setRoot v).son_r = st.son_r := rfl

@[simp] theorem Mem.setRoot_color (st : Mem) (v : Nat) :
    (st.setRoot v).color = st.color := rfl

@[simp] theorem Mem.setRoot_key (st : Mem) (v : Nat) :
    (st.setRoot v).key = st.key := rfl

@[simp] theorem Mem.setRoot_root (st : Mem) (v : Nat) :
    (st.setRoot v).root = v := rfl

@[simp] theorem Mem.setRoot_next (st : Mem) (v : Nat) :
    (st.setRoot v).next = st.next := rfl

@[simp] theorem Mem.setRoot_rot (st : Mem) (v : Nat) :
    (st.setRoot v).rot = st.rot := rfl

@[simp] theorem Mem.malloc_father (st : Mem) : st.malloc.2.father = st.father := rfl

@[simp] theorem Mem.malloc_son_l (st : Mem) : st.malloc.2.son_l = st.son_l := rfl

@[simp] theorem Mem.malloc_son_r (st : Mem) : st.malloc.2.son_r = st.son_r := rfl

@[simp] theorem Mem.malloc_color (st : Mem) : st.malloc.2.color = st.color := rfl

@[simp] theorem Mem.malloc_key (st : Mem) : st.malloc.2.key = st.key := rfl

@[simp] theorem Mem.malloc_root (st : Mem) : st.malloc.2.root = st.root := rfl

@[simp] theorem Mem.malloc_next (st : Mem) : st.malloc.2.next = st.next + 1 := rfl

@[simp] theorem Mem.malloc_rot (st : Mem) : st.malloc.2.rot = st.rot := rfl

@[simp] theorem Mem.countRotation_father (st : Mem) : st.countRotation.father = st.father := rfl

@[simp] theorem Mem.countRotation_son_l (st : Mem) : st.countRotation.son_l = st.son_l := rfl

@[simp] theorem Mem.countRotation_son_r (st : Mem) : st.countRotation.son_r = st.son_r := rfl

@[simp] theorem Mem.countRotation_color (st : Mem) : st.countRotation.color = st.color := rfl

@[simp] theorem Mem.countRotation_key (st : Mem) : st.countRotation.key = st.key := rfl

@[simp] theorem Mem.countRotation_root (st : Mem) : st.countRotation.root = st.root := rfl

@[simp] theorem Mem.countRotation_next (st : Mem) : st.countRotation.next = st.next := rfl

@[simp] theorem Mem.countRotation_rot (st : Mem) : st.countRotation.rot = st.rot + 1 := rfl

@[simp] theorem Mem.malloc_fst (st : Mem) : st.malloc.1 = st.next := rfl

/-! ## Trees, paths and the representation relation -/

@[simp] theorem Tree.ptr_nil (s : Nat) : Tree.nil.ptr s = s := rfl
@[simp] theorem Tree.ptr_node (s a : Nat) (c : Bool) (k : List Int) (l r : Tree) :
    (Tree.node a c k l r).ptr s = a := rfl
@[simp] theorem Tree.color_nil : Tree.nil.color = false := rfl
@[simp] theorem Tree.color_node (a : Nat) (c : Bool) (k : List Int) (l r : Tree) :
    (Tree.node a c k l r).color = c := rfl
@[simp] theorem Tree.nodes_nil : Tree.nil.nodes = [] := rfl
@[simp] theorem Tree.nodes_node (a : Nat) (c : Bool) (k : List Int) (l r : Tree) :
    (Tree.node a c k l r).nodes = l.nodes ++ (a, k) :: r.nodes := rfl
@[simp] theorem Tree.addrs_nil : Tree.nil.addrs = [] := rfl
@[simp] theorem Tree.addrs_node (a : Nat) (c : Bool) (k : List Int) (l r : Tree) :
    (Tree.node a c k l r).addrs = l.addrs ++ a :: r.addrs := rfl
@[simp] theorem Tree.keys_nil : Tree.nil.keys = [] := rfl
@[simp] theorem Tree.keys_node (a : Nat) (c : Bool) (k : List Int) (l r : Tree) :
    (Tree.node a c k l r).keys = l.keys ++ k :: r.keys := rfl
@[simp] theorem Frame.fill_left (a : Nat) (c : Bool) (k : List Int) (r t : Tree) :
    (Frame.left a c k r).fill t = Tree.node a c k t r := rfl
@[simp] theorem Frame.fill_right (a : Nat) (c : Bool) (k : List Int) (l t : Tree) :
    (Frame.right a c k l).fill t = Tree.node a c k l t := rfl
@[simp] theorem Frame.addr_left (a : Nat) (c : Bool) (k : List Int) (r : Tree) :
    (Frame.left a c k r).addr = a := rfl
@[simp] theorem Frame.addr_right (a : Nat) (c : Bool) (k : List Int) (l : Tree) :
    (Frame.right a c k l).addr = a := rfl
@[simp] theorem Frame.color_left (a : Nat) (c : Bool) (k : List Int) (r : Tree) :
    (Frame.left a c k r).color = c := rfl
@[simp] theorem Frame.color_right (a : Nat) (c : Bool) (k : List Int) (l : Tree) :
    (Frame.right a c k l).color = c := rfl
@[simp] theorem Frame.sibling_left (a : Nat) (c : Bool) (k : List Int) (r : Tree) :
    (Frame.left a c k r).sibling = r := rfl
@[simp] theorem Frame.sibling_right (a : Nat) (c : Bool) (k : List Int) (l : Tree) :
    (Frame.right a c k l).sibling = l := rfl
@[simp] theorem plug_nil (t : Tree) : plug [] t = t := rfl
@[simp] theorem plug_cons (f : Frame) (fs : List Frame) (t : Tree) :
    plug (f :: fs) t = plug fs (f.fill t) := rfl
@[simp] theorem pathPtr_nil (s : Nat) : pathPtr s [] = s := rfl
@[simp] theorem pathPtr_cons (s : Nat) (f : Frame) (fs : List Frame) :
    pathPtr s (f :: fs) = f.addr := rfl
@[simp] theorem pathColor_nil : pathColor [] = false := rfl
@[simp] theorem pathColor_cons (f : Frame) (fs : List Frame) :
    pathColor (f :: fs) = f.color := rfl
@[simp] theorem rootPtr_nil (x : Nat) : rootPtr [] x = x := rfl
@[simp] theorem rootPtr_cons (f : Frame) (fs : List Frame) (x : Nat) :
    rootPtr (f :: fs) x = rootPtr fs f.addr := rfl
@[simp] theorem pathAddrs_nil : pathAddrs [] = [] := rfl
@[simp] theorem pathAddrs_cons (f : Frame) (fs : List Frame) :
    pathAddrs (f :: fs) = f.addr :: (f.sibling.addrs ++ pathAddrs fs) := rfl
@[simp] theorem treeAt_nil (st : Mem) (s p : Nat) : TreeAt st s p Tree.nil := trivial
@[simp] theorem treeAt_node (st : Mem) (s p a : Nat) (c : Bool) (k : List Int) (l r : Tree) :
    TreeAt st s p (Tree.node a c k l r) ↔
      (st.father a = p ∧ st.son_l a = l.ptr s ∧ st.son_r a = r.ptr s ∧
        st.color a = c ∧ st.key a = k ∧ TreeAt st s a l ∧ TreeAt st s a r) := Iff.rfl
@[simp] theorem pathAt_nil (st : Mem) (s x : Nat) : PathAt st s x [] := trivial
@[simp] theorem pathAt_left (st : Mem) (s x a : Nat) (c : Bool) (k : List Int) (r : Tree)
    (fs : List Frame) :
    PathAt st s x (Frame.left a c k r :: fs) ↔
      (st.father a = pathPtr s fs ∧ st.son_l a = x ∧ st.son_r a = r.ptr s ∧
        st.color a = c ∧ st.key a = k ∧ TreeAt st s a r ∧ PathAt st s a fs) := Iff.rfl
@[simp] theorem pathAt_right (st : Mem) (s x a : Nat) (c : Bool) (k : List Int) (l : Tree)
    (fs : List Frame) :
    PathAt st s x (Frame.right a c k l :: fs) ↔
      (st.father a = pathPtr s fs ∧ st.son_l a = l.ptr s ∧ st.son_r a = x ∧
        st.color a = c ∧ st.key a = k ∧ TreeAt st s a l ∧ PathAt st s a fs) := Iff.rfl

theorem Tree.addrs_eq_map (t : Tree) : t.addrs = t.nodes.map Prod.fst := by
  induction t with
  | nil => rfl
  | node a c k l r ihl ihr => simp [ihl, ihr]

theorem Tree.keys_eq_map (t : Tree) : t.keys = t.nodes.map Prod.snd := by
  induction t with
  | nil => rfl
  | node a c k l r ihl ihr => simp [ihl, ihr]

theorem nodes_plug (fs : List Frame) (t : Tree) :
    (plug fs t).nodes = nodesBefore fs ++ t.nodes ++ nodesAfter fs := by
  induction fs generalizing t with
  | nil => simp [nodesBefore, nodesAfter]
  | cons f fs ih =>
    cases f <;> simp [ih, nodesBefore, nodesAfter]

theorem ptr_plug (s : Nat) (fs : List Frame) (t : Tree) :
    (plug fs t).ptr s = rootPtr fs (t.ptr s) := by
  induction fs generalizing t with
  | nil => rfl
  | cons f fs ih => cases f <;> simp [ih]

theorem addrs_plug_perm (fs : List Frame) (t : Tree) :
    List.Perm (plug fs t).addrs (t.addrs ++ pathAddrs fs) := by
  induction fs generalizing t with
  | nil => simp
  | cons f fs ih =>
    refine (ih _).trans ?_
    rw [List.perm_iff_count]
    intro x
    cases f
    · simp [List.count_append, List.count_cons]
    · simp [List.count_append, List.count_cons]
      omega

theorem treeAt_plug (st : Mem) (s : Nat) (fs : List Frame) (t : Tree) :
    TreeAt st s s (plug fs t) ↔ PathAt st s (t.ptr s) fs ∧ TreeAt st s (pathPtr s fs) t := by
  induction fs generalizing t with
  | nil => simp
  | cons f fs ih =>
    cases f
    all_goals
      simp only [plug_cons, Frame.fill_left, Frame.fill_right, ih, treeAt_node,
        pathAt_left, pathAt_right, pathPtr_cons, Tree.ptr_node, Frame.addr_left,
        Frame.addr_right]
      tauto

theorem rep_plug_iff (st : Mem) (s : Nat) (fs : List Frame) (t : Tree) :
    Rep st s (plug fs t) ↔ Zip st s fs t := by
  have hp := addrs_plug_perm fs t
  constructor
  · intro h
    have ht := (treeAt_plug st s fs t).1 h.tree
    exact ⟨by rw [← ptr_plug]; exact h.root, ht.1, ht.2, hp.nodup_iff.1 h.nodup,
      fun hm => h.sentinel_not_mem (hp.mem_iff.2 hm), h.sentinel_alloc,
      fun a ha => h.alloc a (hp.mem_iff.2 ha), h.sentinel_color, h.sentinel_left,
      h.sentinel_right⟩
  · intro h
    exact ⟨by rw [ptr_plug]; exact h.root, (treeAt_plug st s fs t).2 ⟨h.path, h.tree⟩,
      hp.nodup_iff.2 h.nodup, fun hm => h.sentinel_not_mem (hp.mem_iff.1 hm), h.sentinel_alloc,
      fun a ha => h.alloc a (hp.mem_iff.1 ha), h.sentinel_color, h.sentinel_left,
      h.sentinel_right⟩

theorem zip_nil_iff (st : Mem) (s : Nat) (t : Tree) : Zip st s [] t ↔ Rep st s t := by
  rw [← rep_plug_iff]; rfl

theorem zip_cons_iff (st : Mem) (s : Nat) (f : Frame) (fs : List Frame) (t : Tree) :
    Zip st s (f :: fs) t ↔ Zip st s fs (f.fill t) := by
  rw [← rep_plug_iff, ← rep_plug_iff]; rfl

/-! ## Memory changes that leave a tree or a path alone -/

theorem TreeAt.agree {st st' : Mem} {s p : Nat} {t : Tree} (h : TreeAt st s p t)
    (hag : ∀ a ∈ t.addrs, st'.father a = st.father a ∧ st'.son_l a = st.son_l a ∧
      st'.son_r a = st.son_r a ∧ st'.color a = st.color a ∧ st'.key a = st.key a) :
    TreeAt st' s p t := by
  induction t generalizing p with
  | nil => trivial
  | node a c k l r ihl ihr =>
    simp only [treeAt_node] at h ⊢
    obtain ⟨h1, h2, h3, h4, h5, h6, h7⟩ := h
    obtain ⟨g1, g2, g3, g4, g5⟩ := hag a (by simp)
    refine ⟨g1.trans h1, g2.trans h2, g3.trans h3, g4.trans h4, g5.trans h5, ?_, ?_⟩
    · exact ihl h6 (fun b hb => hag b (by simp [hb]))
    · exact ihr h7 (fun b hb => hag b (by simp [hb]))

theorem PathAt.agreePath {st st' : Mem} {s x : Nat} {fs : List Frame} (h : PathAt st s x fs)
    (hag : ∀ a ∈ pathAddrs fs, st'.father a = st.father a ∧ st'.son_l a = st.son_l a ∧
      st'.son_r a = st.son_r a ∧ st'.color a = st.color a ∧ st'.key a = st.key a) :
    PathAt st' s x fs := by
  induction fs generalizing x with
  | nil => trivial
  | cons f fs ih =>
    cases f with
    | left a c k r =>
      simp only [pathAt_left] at h ⊢
      obtain ⟨h1, h2, h3, h4, h5, h6, h7⟩ := h
      obtain ⟨g1, g2, g3, g4, g5⟩ := hag a (by simp)
      refine ⟨g1.trans h1, g2.trans h2, g3.trans h3, g4.trans h4, g5.trans h5, ?_, ?_⟩
      · exact h6.agree (fun b hb => hag b (by simp [hb]))
      · exact ih h7 (fun b hb => hag b (by simp [hb]))
    | right a c k l =>
      simp only [pathAt_right] at h ⊢
      obtain ⟨h1, h2, h3, h4, h5, h6, h7⟩ := h
      obtain ⟨g1, g2, g3, g4, g5⟩ := hag a (by simp)
      refine ⟨g1.trans h1, g2.trans h2, g3.trans h3, g4.trans h4, g5.trans h5, ?_, ?_⟩
      · exact h6.agree (fun b hb => hag b (by simp [hb]))
      · exact ih h7 (fun b hb => hag b (by simp [hb]))

/-- Recolouring the node at the position. -/
theorem Zip.setColor {st : Mem} {s : Nat} {fs : List Frame} {a : Nat} {c : Bool} {k : List Int}
    {l r : Tree} (h : Zip st s fs (Tree.node a c k l r)) (c' : Bool) :
    Zip (st.setColor a c') s fs (Tree.node a c' k l r) := by
  have hnd := h.nodup
  have hs := h.sentinel_not_mem
  simp only [Tree.addrs_node, List.append_assoc, List.cons_append, List.nodup_append,
    List.nodup_cons, List.mem_append, List.mem_cons, not_or] at hnd hs
  have ht := h.tree
  simp only [treeAt_node] at ht
  obtain ⟨h1, h2, h3, h4, h5, h6, h7⟩ := ht
  refine ⟨h.root, ?_, ?_, h.nodup, h.sentinel_not_mem, h.sentinel_alloc, h.alloc, ?_,
    h.sentinel_left, h.sentinel_right⟩
  · refine h.path.agreePath (fun b hb => ?_)
    have : b ≠ a := by rintro rfl; simp_all
    simp [Function.update_noteq this]
  · simp only [treeAt_node, Mem.setColor_father, Mem.setColor_son_l, Mem.setColor_son_r,
      Mem.setColor_color, Mem.setColor_key, Function.update_same]
    refine ⟨h1, h2, h3, trivial, h5, ?_, ?_⟩
    · refine h6.agree (fun b hb => ?_)
      have : b ≠ a := by rintro rfl; simp_all
      simp [Function.update_noteq this]
    · refine h7.agree (fun b hb => ?_)
      have : b ≠ a := by rintro rfl; simp_all
      simp [Function.update_noteq this]
  · have : s ≠ a := by rintro rfl; simp_all
    simp [Function.update_noteq this, h.sentinel_color]

/-! ## The rotations, field by field -/

/-- Two memories agree on the node fields outside the addresses `W`; then they agree on
every list of addresses disjoint from `W`. -/
theorem agree_of_disjoint {st st' : Mem} {W : List Nat}
    (hW : ∀ a, a ∉ W → st'.father a = st.father a ∧ st'.son_l a = st.son_l a ∧
      st'.son_r a = st.son_r a ∧ st'.color a = st.color a ∧ st'.key a = st.key a)
    {l : List Nat} (hd : ∀ a ∈ W, a ∉ l) :
    ∀ a ∈ l, st'.father a = st.father a ∧ st'.son_l a = st.son_l a ∧
      st'.son_r a = st.son_r a ∧ st'.color a = st.color a ∧ st'.key a = st.key a :=
  fun a ha => hW a (fun hw => hd a hw ha)

/-- Frame of `leftRotation`: only the records of the centre, its right child, that
child's left child and the centre's father are written. -/
theorem leftRotation_agree (st : Mem) (x s : Nat) :
    ∀ a, a ∉ [x, st.son_r x, st.son_l (st.son_r x), st.father x] →
      (leftRotation st x s).father a = st.father a ∧ (leftRotation st x s).son_l a = st.son_l a ∧
      (leftRotation st x s).son_r a = st.son_r a ∧ (leftRotation st x s).color a = st.color a ∧
      (leftRotation st x s).key a = st.key a := by
  intro a ha
  simp only [List.mem_cons, List.mem_singleton, not_or, List.not_mem_nil, or_false] at ha
  obtain ⟨h1, h2, h3, h4⟩ := ha
  simp only [leftRotation]
  split_ifs <;> simp [Function.update_apply, h1, h2, h3, h4]
  all_goals
    intro e
    exfalso
    split_ifs at e
    exacts [h1 e, h4 e]

/-- The fields written by `leftRotation`, for a centre `x` with right child `y`, whose left
child is `b`, below the father `p` (`b` and `p` may be the sentinel). -/
theorem leftRotation_fields (st : Mem) (x s : Nat) {y b p : Nat}
    (hy : st.son_r x = y) (hb : st.son_l y = b) (hp : st.father x = p)
    (hxy : x ≠ y) (hxs : x ≠ s) (hys : y ≠ s) (hbx : b ≠ x) (hby : b ≠ y)
    (hpx : p ≠ x) (hpy : p ≠ y) (hpb : p = b → p = s) :
    ((leftRotation st x s).father x = y ∧ (leftRotation st x s).son_l x = st.son_l x ∧
      (leftRotation st x s).son_r x = b ∧ (leftRotation st x s).color x = st.color x ∧
      (leftRotation st x s).key x = st.key x) ∧
    ((leftRotation st x s).father y = p ∧ (leftRotation st x s).son_l y = x ∧
      (leftRotation st x s).son_r y = st.son_r y ∧ (leftRotation st x s).color y = st.color y ∧
      (leftRotation st x s).key y = st.key y) ∧
    (b ≠ s → (leftRotation st x s).father b = x ∧ (leftRotation st x s).son_l b = st.son_l b ∧
      (leftRotation st x s).son_r b = st.son_r b ∧ (leftRotation st x s).color b = st.color b ∧
      (leftRotation st x s).key b = st.key b) ∧
    (p ≠ s → (leftRotation st x s).father p = st.father p ∧
      (leftRotation st x s).son_l p = (if st.son_l p = x then y else st.son_l p) ∧
      (leftRotation st x s).son_r p = (if st.son_l p = x then st.son_r p else y) ∧
      (leftRotation st x s).color p = st.color p ∧ (leftRotation st x s).key p = st.key p) ∧
    (leftRotation st x s).root = (if p = s then y else st.root) ∧
    ((leftRotation st x s).father s = st.father s ∧ (leftRotation st x s).son_l s = st.son_l s ∧
      (leftRotation st x s).son_r s = st.son_r s ∧ (leftRotation st x s).color s = st.color s ∧
      (leftRotation st x s).key s = st.key s) ∧
    (leftRotation st x s).next = st.next ∧ (leftRotation st x s).rot = st.rot + 1 := by
  have hyx := hxy.symm
  have hsx := hxs.symm
  have hsy := hys.symm
  have hxb := hbx.symm
  have hyb := hby.symm
  have hxp := hpx.symm
  have hyp := hpy.symm
  by_cases hbs : b = s <;> by_cases hps : p = s <;> by_cases hl : st.son_l p = x
  all_goals
    have hl' : x = st.son_l p ↔ st.son_l p = x := eq_comm
    simp [leftRotation, hy, hb, hp, Function.update_apply, hxy, hyx, hxs, hsx, hys, hsy, hbx, hxb,
      hby, hyb, hpx, hxp, hpy, hyp, hbs, hps, hl, hl']
  all_goals omega


/-- Frame of `rightRotation`: only the records of the centre, its left child, that
child's right child and the centre's father are written. -/
theorem rightRotation_agree (st : Mem) (x s : Nat) :
    ∀ a, a ∉ [x, st.son_l x, st.son_r (st.son_l x), st.father x] →
      (rightRotation st x s).father a = st.father a ∧ (rightRotation st x s).son_l a = st.son_l a ∧
      (rightRotation st x s).son_r a = st.son_r a ∧ (rightRotation st x s).color a = st.color a ∧
      (rightRotation st x s).key a = st.key a := by
  intro a ha
  simp only [List.mem_cons, List.mem_singleton, not_or, List.not_mem_nil, or_false] at ha
  obtain ⟨h1, h2, h3, h4⟩ := ha
  simp only [rightRotation]
  split_ifs <;> simp [Function.update_apply, h1, h2, h3, h4]
  all_goals
    intro e
    exfalso
    split_ifs at e
    exacts [h1 e, h4 e]

/-- The fields written by `rightRotation`, for a centre `x` with left child `y`, whose left
child is `b`, below the father `p` (`b` and `p` may be the sentinel). -/
theorem rightRotation_fields (st : Mem) (x s : Nat) {y b p : Nat}
    (hy : st.son_l x = y) (hb : st.son_r y = b) (hp : st.father x = p)
    (hxy : x ≠ y) (hxs : x ≠ s) (hys : y ≠ s) (hbx : b ≠ x) (hby : b ≠ y)
    (hpx : p ≠ x) (hpy : p ≠ y) (hpb : p = b → p = s) :
    ((rightRotation st x s).father x = y ∧ (rightRotation st x s).son_r x = st.son_r x ∧
      (rightRotation st x s).son_l x = b ∧ (rightRotation st x s).color x = st.color x ∧
      (rightRotation st x s).key x = st.key x) ∧
    ((rightRotation st x s).father y = p ∧ (rightRotation st x s).son_r y = x ∧
      (rightRotation st x s).son_l y = st.son_l y ∧ (rightRotation st x s).color y = st.color y ∧
      (rightRotation st x s).key y = st.key y) ∧
    (b ≠ s → (rightRotation st x s).father b = x ∧ (rightRotation st x s).son_r b = st.son_r b ∧
      (rightRotation st x s).son_l b = st.son_l b ∧ (rightRotation st x s).color b = st.color b ∧
      (rightRotation st x s).key b = st.key b) ∧
    (p ≠ s → (rightRotation st x s).father p = st.father p ∧
      (rightRotation st x s).son_r p = (if st.son_r p = x then y else st.son_r p) ∧
      (rightRotation st x s).son_l p = (if st.son_r p = x then st.son_l p else y) ∧
      (rightRotation st x s).color p = st.color p ∧ (rightRotation st x s).key p = st.key p) ∧
    (rightRotation st x s).root = (if p = s then y else st.root) ∧
    ((rightRotation st x s).father s = st.father s ∧ (rightRotation st x s).son_r s = st.son_r s ∧
      (rightRotation st x s).son_l s = st.son_l s ∧ (rightRotation st x s).color s = st.color s ∧
      (rightRotation st x s).key s = st.key s) ∧
    (rightRotation st x s).next = st.next ∧ (rightRotation st x s).rot = st.rot + 1 := by
  have hyx := hxy.symm
  have hsx := hxs.symm
  have hsy := hys.symm
  have hxb := hbx.symm
  have hyb := hby.symm
  have hxp := hpx.symm
  have hyp := hpy.symm
  by_cases hbs : b = s <;> by_cases hps : p = s <;> by_cases hl : st.son_r p = x
  all_goals
    have hl' : x = st.son_r p ↔ st.son_r p = x := eq_comm
    simp [rightRotation, hy, hb, hp, Function.update_apply, hxy, hyx, hxs, hsx, hys, hsy, hbx, hxb,
      hby, hyb, hpx, hxp, hpy, hyp, hbs, hps, hl, hl']
  all_goals omega


theorem Tree.ptr_not_mem {s : Nat} {l : List Nat} (t : Tree) (hs : s ∉ l)
    (hd : ∀ a ∈ t.addrs, a ∉ l) : t.ptr s ∉ l := by
  cases t with
  | nil => exact hs
  | node a c k tl tr => exact hd a (by simp)

theorem pathPtr_not_mem {s : Nat} {l : List Nat} (fs : List Frame) (hs : s ∉ l)
    (hd : ∀ a ∈ pathAddrs fs, a ∉ l) : pathPtr s fs ∉ l := by
  cases fs with
  | nil => exact hs
  | cons f fs => exact hd f.addr (by simp)

theorem Tree.ptr_ne {s x : Nat} (t : Tree) (hs : s ≠ x) (hx : x ∉ t.addrs) : t.ptr s ≠ x := by
  have := Tree.ptr_not_mem (s := s) (l := [x]) t (by simpa using hs)
    (fun a ha => by simp only [List.mem_singleton]; rintro rfl; exact hx ha)
  simpa using this

theorem pathPtr_ne {s x : Nat} (fs : List Frame) (hs : s ≠ x) (hx : x ∉ pathAddrs fs) :
    pathPtr s fs ≠ x := by
  have := pathPtr_not_mem (s := s) (l := [x]) fs (by simpa using hs)
    (fun a ha => by simp only [List.mem_singleton]; rintro rfl; exact hx ha)
  simpa using this

theorem four_not_mem {l : List Nat} {a b c d : Nat} (ha : a ∉ l) (hb : b ∉ l) (hc : c ∉ l)
    (hd : d ∉ l) : ∀ z ∈ [a, b, c, d], z ∉ l := by
  intro z hz
  simp only [List.mem_cons, List.mem_singleton, List.not_mem_nil, or_false] at hz
  rcases hz with rfl | rfl | rfl | rfl <;> assumption

/-- The pointer facts that a left rotation at the position relies on. -/
theorem Zip.rotateLeft_ptrs {st : Mem} {s : Nat} {fs : List Frame} {x y : Nat} {cx cy : Bool}
    {kx ky : List Int} {A B C : Tree}
    (h : Zip st s fs (Tree.node x cx kx A (Tree.node y cy ky B C))) :
    st.son_r x = y ∧ st.son_l y = B.ptr s ∧ st.father x = pathPtr s fs ∧ x ≠ y ∧ x ≠ s ∧ y ≠ s ∧
      B.ptr s ≠ x ∧ B.ptr s ≠ y ∧ pathPtr s fs ≠ x ∧ pathPtr s fs ≠ y ∧
      (pathPtr s fs = B.ptr s → pathPtr s fs = s) := by
  have hnd := h.nodup
  have hs := h.sentinel_not_mem
  have ht := h.tree
  simp only [Tree.addrs_node, List.append_assoc, List.cons_append, List.nodup_append,
    List.nodup_cons, List.mem_append, List.mem_cons, not_or, List.disjoint_cons_right,
    List.disjoint_append_right, List.disjoint_cons_left, List.disjoint_append_left] at hnd hs
  simp only [treeAt_node, Tree.ptr_node] at ht
  obtain ⟨t1, t2, t3, t4, t5, hA, u1, u2, u3, u4, u5, hB, hC⟩ := ht
  obtain ⟨ndA, ⟨⟨xB, xy, xC, xP⟩, ndB, ⟨⟨yC, yP⟩, ndC, ndP, dCP⟩, yB, dBC, dBP⟩, xA, dAB, yA, dAC,
    dAP⟩ := hnd
  obtain ⟨sA, sx, sB, sy, sC, sP⟩ := hs
  refine ⟨t3, u2, t1, xy, Ne.symm sx, Ne.symm sy, Tree.ptr_ne B sx xB, Tree.ptr_ne B sy yB,
    pathPtr_ne fs sx xP, pathPtr_ne fs sy yP, ?_⟩
  intro e
  by_contra hne
  have h1 : pathPtr s fs ∈ pathAddrs fs := by
    cases fs with
    | nil => exact absurd rfl hne
    | cons f fs => simp
  have h2 : B.ptr s ∈ B.addrs := by
    cases B with
    | nil => exact absurd e hne
    | node b cb kb Bl Br => simp
  exact dBP h2 (e ▸ h1)

/-- A left rotation at the position, seen on the tree. -/
theorem Zip.rotateLeft {st : Mem} {s : Nat} {fs : List Frame} {x y : Nat} {cx cy : Bool}
    {kx ky : List Int} {A B C : Tree}
    (h : Zip st s fs (Tree.node x cx kx A (Tree.node y cy ky B C))) :
    Zip (leftRotation st x s) s fs (Tree.node y cy ky (Tree.node x cx kx A B) C) := by
  have hag := leftRotation_agree st x s
  have hnd := h.nodup
  have hs := h.sentinel_not_mem
  have ht := h.tree
  simp only [Tree.addrs_node, List.append_assoc, List.cons_append, List.nodup_append,
    List.nodup_cons, List.mem_append, List.mem_cons, not_or, List.disjoint_cons_right,
    List.disjoint_append_right, List.disjoint_cons_left, List.disjoint_append_left] at hnd hs
  simp only [treeAt_node, Tree.ptr_node] at ht
  obtain ⟨t1, t2, t3, t4, t5, hA, u1, u2, u3, u4, u5, hB, hC⟩ := ht
  obtain ⟨ndA, ⟨⟨xB, xy, xC, xP⟩, ndB, ⟨⟨yC, yP⟩, ndC, ndP, dCP⟩, yB, dBC, dBP⟩, xA, dAB, yA, dAC,
    dAP⟩ := hnd
  obtain ⟨sA, sx, sB, sy, sC, sP⟩ := hs
  obtain ⟨q1, q2, q3, q4, q5, q6, hbx, hby, hpx, hpy, hpb⟩ := h.rotateLeft_ptrs
  obtain ⟨⟨x1, x2, x3, x4, x5⟩, ⟨y1, y2, y3, y4, y5⟩, hb, hp, hroot, ⟨s1, s2, s3, s4, s5⟩, hnext,
    hrot⟩ := leftRotation_fields st x s q1 q2 q3 q4 q5 q6 hbx hby hpx hpy hpb
  rw [t3, u2, t1] at hag
  refine ⟨?_, ?_, ?_, ?_, ?_, by rw [hnext]; exact h.sentinel_alloc, ?_, s4.trans h.sentinel_color,
    s2.trans h.sentinel_left, s3.trans h.sentinel_right⟩
  · -- root
    rw [hroot, h.root]
    cases fs with
    | nil => simp
    | cons f fs' =>
      have : f.addr ≠ s := fun e => sP (by simp [e])
      simp [this]
  · -- path
    have hpath := h.path
    cases fs with
    | nil => trivial
    | cons f fs' =>
      have hps : f.addr ≠ s := fun e => sP (by simp [e])
      obtain ⟨p1, p2, p3, p4, p5⟩ := hp hps
      simp only [pathAddrs_cons, List.nodup_cons, List.mem_append, not_or, List.nodup_append,
        List.mem_cons] at ndP xP yP sP
      simp only [pathPtr_cons] at p1 p2 p3 p4 p5 hag
      have dBP' : ∀ a ∈ B.addrs, a ∉ pathAddrs (f :: fs') := fun a ha hP => dBP ha hP
      simp only [pathAddrs_cons, List.mem_cons, List.mem_append, not_or] at dBP'
      cases f with
      | left p cp kp R =>
        simp only [pathAt_left, Tree.ptr_node, Frame.addr_left, Frame.sibling_left] at *
        obtain ⟨q1, q2, q3, q4, q5, hR, hP⟩ := hpath
        refine ⟨p1.trans q1, by rw [p2, q2]; simp, by rw [p3, q2]; simpa using q3, p4.trans q4,
          p5.trans q5, ?_, ?_⟩
        · exact hR.agree (agree_of_disjoint hag (four_not_mem xP.2.1 yP.2.1
            (Tree.ptr_not_mem B sP.2.1 (fun a ha => (dBP' a ha).2.1)) ndP.1.1))
        · exact hP.agreePath (agree_of_disjoint hag (four_not_mem xP.2.2 yP.2.2
            (Tree.ptr_not_mem B sP.2.2 (fun a ha => (dBP' a ha).2.2)) ndP.1.2))
      | right p cp kp L =>
        simp only [pathAt_right, Tree.ptr_node, Frame.addr_right, Frame.sibling_right] at *
        obtain ⟨q1, q2, q3, q4, q5, hL, hP⟩ := hpath
        have hne : st.son_l p ≠ x := by rw [q2]; exact Tree.ptr_ne L sx xP.2.1
        refine ⟨p1.trans q1, by rw [p2, if_neg hne]; exact q2, by rw [p3, if_neg hne], p4.trans q4,
          p5.trans q5, ?_, ?_⟩
        · exact hL.agree (agree_of_disjoint hag (four_not_mem xP.2.1 yP.2.1
            (Tree.ptr_not_mem B sP.2.1 (fun a ha => (dBP' a ha).2.1)) ndP.1.1))
        · exact hP.agreePath (agree_of_disjoint hag (four_not_mem xP.2.2 yP.2.2
            (Tree.ptr_not_mem B sP.2.2 (fun a ha => (dBP' a ha).2.2)) ndP.1.2))
  · -- tree
    simp only [treeAt_node, Tree.ptr_node]
    refine ⟨y1, y2, y3.trans u3, y4.trans u4, y5.trans u5, ⟨x1, x2.trans t2, x3, x4.trans t4,
      x5.trans t5, ?_, ?_⟩, ?_⟩
    · exact hA.agree (agree_of_disjoint hag (four_not_mem xA yA
        (Tree.ptr_not_mem B sA (fun a ha hA' => dAB hA' ha))
        (pathPtr_not_mem fs sA (fun a ha hA' => dAP hA' ha))))
    · cases B with
      | nil => trivial
      | node b cb kb Bl Br =>
        simp only [Tree.addrs_node, List.mem_append, List.mem_cons, not_or, List.nodup_append,
          List.nodup_cons, Tree.ptr_node, treeAt_node, List.disjoint_cons_right,
          List.disjoint_append_right, List.disjoint_cons_left, List.disjoint_append_left]
          at ndB xB yB sB dBP hB hb ⊢
        obtain ⟨b1, b2, b3, b4, b5⟩ := hb (Ne.symm sB.2.1)
        obtain ⟨v1, v2, v3, v4, v5, hBl, hBr⟩ := hB
        refine ⟨b1, b2.trans v2, b3.trans v3, b4.trans v4, b5.trans v5, ?_, ?_⟩
        · exact hBl.agree (agree_of_disjoint hag (four_not_mem xB.1 yB.1 ndB.2.2.1
            (pathPtr_not_mem fs sB.1 (fun a ha hB' => dBP.1 hB' ha))))
        · exact hBr.agree (agree_of_disjoint hag (four_not_mem xB.2.2 yB.2.2 ndB.2.1.1
            (pathPtr_not_mem fs sB.2.2 (fun a ha hB' => dBP.2.2 hB' ha))))
    · exact hC.agree (agree_of_disjoint hag (four_not_mem xC yC
        (Tree.ptr_not_mem B sC (fun a ha hC' => dBC ha hC'))
        (pathPtr_not_mem fs sC (fun a ha hC' => dCP hC' ha))))
  · have := h.nodup
    simpa using this
  · have := h.sentinel_not_mem
    simpa using this
  · have := h.alloc
    rw [hnext]
    simpa using this

/-- The pointer facts that a right rotation at the position relies on. -/
theorem Zip.rotateRight_ptrs {st : Mem} {s : Nat} {fs : List Frame} {x y : Nat} {cx cy : Bool}
    {kx ky : List Int} {A B C : Tree}
    (h : Zip st s fs (Tree.node x cx kx (Tree.node y cy ky A B) C)) :
    st.son_l x = y ∧ st.son_r y = B.ptr s ∧ st.father x = pathPtr s fs ∧ x ≠ y ∧ x ≠ s ∧ y ≠ s ∧
      B.ptr s ≠ x ∧ B.ptr s ≠ y ∧ pathPtr s fs ≠ x ∧ pathPtr s fs ≠ y ∧
      (pathPtr s fs = B.ptr s → pathPtr s fs = s) := by
  have hnd := h.nodup
  have hs := h.sentinel_not_mem
  have ht := h.tree
  simp only [Tree.addrs_node, List.append_assoc, List.cons_append, List.nodup_append,
    List.nodup_cons, List.mem_append, List.mem_cons, not_or, List.disjoint_cons_right,
    List.disjoint_append_right, List.disjoint_cons_left, List.disjoint_append_left] at hnd hs
  simp only [treeAt_node, Tree.ptr_node] at ht
  obtain ⟨t1, t2, t3, t4, t5, ⟨u1, u2, u3, u4, u5, hA, hB⟩, hC⟩ := ht
  obtain ⟨ndA, ⟨⟨yB, yx, yC, yP⟩, ndB, ⟨⟨xC, xP⟩, ndC, ndP, dCP⟩, xB, dBC, dBP⟩, yA, dAB, xA, dAC,
    dAP⟩ := hnd
  obtain ⟨sA, sy, sB, sx, sC, sP⟩ := hs
  refine ⟨t2, u3, t1, Ne.symm yx, Ne.symm sx, Ne.symm sy, Tree.ptr_ne B sx xB, Tree.ptr_ne B sy yB,
    pathPtr_ne fs sx xP, pathPtr_ne fs sy yP, ?_⟩
  intro e
  by_contra hne
  have h1 : pathPtr s fs ∈ pathAddrs fs := by
    cases fs with
    | nil => exact absurd rfl hne
    | cons f fs => simp
  have h2 : B.ptr s ∈ B.addrs := by
    cases B with
    | nil => exact absurd e hne
    | node b cb kb Bl Br => simp
  exact dBP h2 (e ▸ h1)

/-- A right rotation at the position, seen on the tree. -/
theorem Zip.rotateRight {st : Mem} {s : Nat} {fs : List Frame} {x y : Nat} {cx cy : Bool}
    {kx ky : List Int} {A B C : Tree}
    (h : Zip st s fs (Tree.node x cx kx (Tree.node y cy ky A B) C)) :
    Zip (rightRotation st x s) s fs (Tree.node y cy ky A (Tree.node x cx kx B C)) := by
  have hag := rightRotation_agree st x s
  have hnd := h.nodup
  have hs := h.sentinel_not_mem
  have ht := h.tree
  simp only [Tree.addrs_node, List.append_assoc, List.cons_append, List.nodup_append,
    List.nodup_cons, List.mem_append, List.mem_cons, not_or, List.disjoint_cons_right,
    List.disjoint_append_right, List.disjoint_cons_left, List.disjoint_append_left] at hnd hs
  simp only [treeAt_node, Tree.ptr_node] at ht
  obtain ⟨t1, t2, t3, t4, t5, ⟨u1, u2, u3, u4, u5, hA, hB⟩, hC⟩ := ht
  obtain ⟨ndA, ⟨⟨yB, yx, yC, yP⟩, ndB, ⟨⟨xC, xP⟩, ndC, ndP, dCP⟩, xB, dBC, dBP⟩, yA, dAB, xA, dAC,
    dAP⟩ := hnd
  obtain ⟨sA, sy, sB, sx, sC, sP⟩ := hs
  obtain ⟨q1, q2, q3, q4, q5, q6, hbx, hby, hpx, hpy, hpb⟩ := h.rotateRight_ptrs
  obtain ⟨⟨x1, x2, x3, x4, x5⟩, ⟨y1, y2, y3, y4, y5⟩, hb, hp, hroot, ⟨s1, s2, s3, s4, s5⟩, hnext,
    hrot⟩ := rightRotation_fields st x s q1 q2 q3 q4 q5 q6 hbx hby hpx hpy hpb
  rw [t2, u3, t1] at hag
  refine ⟨?_, ?_, ?_, ?_, ?_, by rw [hnext]; exact h.sentinel_alloc, ?_, s4.trans h.sentinel_color,
    s3.trans h.sentinel_left, s2.trans h.sentinel_right⟩
  · -- root
    rw [hroot, h.root]
    cases fs with
    | nil => simp
    | cons f fs' =>
      have : f.addr ≠ s := fun e => sP (by simp [e])
      simp [this]
  · -- path
    have hpath := h.path
    cases fs with
    | nil => trivial
    | cons f fs' =>
      have hps : f.addr ≠ s := fun e => sP (by simp [e])
      obtain ⟨p1, p2, p3, p4, p5⟩ := hp hps
      simp only [pathAddrs_cons, List.nodup_cons, List.mem_append, not_or, List.nodup_append,
        List.mem_cons] at ndP xP yP sP
      simp only [pathPtr_cons] at p1 p2 p3 p4 p5 hag
      have dBP' : ∀ a ∈ B.addrs, a ∉ pathAddrs (f :: fs') := fun a ha hP => dBP ha hP
      simp only [pathAddrs_cons, List.mem_cons, List.mem_append, not_or] at dBP'
      cases f with
      | left p cp kp R =>
        simp only [pathAt_left, Tree.ptr_node, Frame.addr_left, Frame.sibling_left] at *
        obtain ⟨q1, q2, q3, q4, q5, hR, hP⟩ := hpath
        have hne : st.son_r p ≠ x := by rw [q3]; exact Tree.ptr_ne R sx xP.2.1
        refine ⟨p1.trans q1, by rw [p3, if_neg hne], by rw [p2, if_neg hne]; exact q3, p4.trans q4,
          p5.trans q5, ?_, ?_⟩
        · exact hR.agree (agree_of_disjoint hag (four_not_mem xP.2.1 yP.2.1
            (Tree.ptr_not_mem B sP.2.1 (fun a ha => (dBP' a ha).2.1)) ndP.1.1))
        · exact hP.agreePath (agree_of_disjoint hag (four_not_mem xP.2.2 yP.2.2
            (Tree.ptr_not_mem B sP.2.2 (fun a ha => (dBP' a ha).2.2)) ndP.1.2))
      | right p cp kp L =>
        simp only [pathAt_right, Tree.ptr_node, Frame.addr_right, Frame.sibling_right] at *
        obtain ⟨q1, q2, q3, q4, q5, hL, hP⟩ := hpath
        refine ⟨p1.trans q1, by rw [p3, q3]; simpa using q2, by rw [p2, q3]; simp, p4.trans q4,
          p5.trans q5, ?_, ?_⟩
        · exact hL.agree (agree_of_disjoint hag (four_not_mem xP.2.1 yP.2.1
            (Tree.ptr_not_mem B sP.2.1 (fun a ha => (dBP' a ha).2.1)) ndP.1.1))
        · exact hP.agreePath (agree_of_disjoint hag (four_not_mem xP.2.2 yP.2.2
            (Tree.ptr_not_mem B sP.2.2 (fun a ha => (dBP' a ha).2.2)) ndP.1.2))
  · -- tree
    simp only [treeAt_node, Tree.ptr_node]
    refine ⟨y1, y3.trans u2, y2, y4.trans u4, y5.trans u5, ?_, x1, x3, x2.trans t3, x4.trans t4,
      x5.trans t5, ?_, ?_⟩
    · exact hA.agree (agree_of_disjoint hag (four_not_mem xA yA
        (Tree.ptr_not_mem B sA (fun a ha hA' => dAB hA' ha))
        (pathPtr_not_mem fs sA (fun a ha hA' => dAP hA' ha))))
    · cases B with
      | nil => trivial
      | node b cb kb Bl Br =>
        simp only [Tree.addrs_node, List.mem_append, List.mem_cons, not_or, List.nodup_append,
          List.nodup_cons, Tree.ptr_node, treeAt_node, List.disjoint_cons_right,
          List.disjoint_append_right, List.disjoint_cons_left, List.disjoint_append_left]
          at ndB xB yB sB dBP hB hb ⊢
        obtain ⟨b1, b2, b3, b4, b5⟩ := hb (Ne.symm sB.2.1)
        obtain ⟨v1, v2, v3, v4, v5, hBl, hBr⟩ := hB
        refine ⟨b1, b3.trans v2, b2.trans v3, b4.trans v4, b5.trans v5, ?_, ?_⟩
        · exact hBl.agree (agree_of_disjoint hag (four_not_mem xB.1 yB.1 ndB.2.2.1
            (pathPtr_not_mem fs sB.1 (fun a ha hB' => dBP.1 hB' ha))))
        · exact hBr.agree (agree_of_disjoint hag (four_not_mem xB.2.2 yB.2.2 ndB.2.1.1
            (pathPtr_not_mem fs sB.2.2 (fun a ha hB' => dBP.2.2 hB' ha))))
    · exact hC.agree (agree_of_disjoint hag (four_not_mem xC yC
        (Tree.ptr_not_mem B sC (fun a ha hC' => dBC ha hC'))
        (pathPtr_not_mem fs sC (fun a ha hC' => dCP hC' ha))))
  · have := h.nodup
    simpa using this
  · have := h.sentinel_not_mem
    simpa using this
  · have := h.alloc
    rw [hnext]
    simpa using this

/-! ## Invariants through `plug` -/

@[simp] theorem Tree.bh_nil : Tree.nil.bh = 0 := rfl
@[simp] theorem Tree.bh_node (a : Nat) (c : Bool) (k : List Int) (l r : Tree) :
    (Tree.node a c k l r).bh = l.bh + if c then 0 else 1 := rfl
@[simp] theorem Tree.balanced_nil : Tree.nil.balanced := trivial
@[simp] theorem Tree.balanced_node (a : Nat) (c : Bool) (k : List Int) (l r : Tree) :
    (Tree.node a c k l r).balanced ↔ (l.bh = r.bh ∧ l.balanced ∧ r.balanced) := Iff.rfl
@[simp] theorem Tree.noRedRed_nil : Tree.nil.noRedRed := trivial
@[simp] theorem Tree.noRedRed_node (a : Nat) (c : Bool) (k : List Int) (l r : Tree) :
    (Tree.node a c k l r).noRedRed ↔
      ((c = true → l.color = false ∧ r.color = false) ∧ l.noRedRed ∧ r.noRedRed) := Iff.rfl
@[simp] theorem Tree.blacken_nil : Tree.nil.blacken = Tree.nil := rfl
@[simp] theorem Tree.blacken_node (a : Nat) (c : Bool) (k : List Int) (l r : Tree) :
    (Tree.node a c k l r).blacken = Tree.node a false k l r := rfl
@[simp] theorem Frame.key_left (a : Nat) (c : Bool) (k : List Int) (r : Tree) :
    (Frame.left a c k r).key = k := rfl
@[simp] theorem Frame.key_right (a : Nat) (c : Bool) (k : List Int) (l : Tree) :
    (Frame.right a c k l).key = k := rfl
@[simp] theorem rootColor_nil (c : Bool) : rootColor [] c = c := rfl
@[simp] theorem rootColor_cons (f : Frame) (fs : List Frame) (c : Bool) :
    rootColor (f :: fs) c = rootColor fs f.color := rfl
@[simp] theorem pathBal_nil (n : Nat) : PathBal [] n := trivial
@[simp] theorem pathBal_cons (f : Frame) (fs : List Frame) (n : Nat) :
    PathBal (f :: fs) n ↔
      (f.sibling.balanced ∧ f.sibling.bh = n ∧ PathBal fs (n + if f.color then 0 else 1)) :=
  Iff.rfl
@[simp] theorem pathNoRR_nil : PathNoRR [] := trivial
@[simp] theorem pathNoRR_cons (f : Frame) (fs : List Frame) :
    PathNoRR (f :: fs) ↔
      (f.sibling.noRedRed ∧ (f.color = true → f.sibling.color = false ∧ pathColor fs = false) ∧
        PathNoRR fs) := Iff.rfl

theorem color_plug (fs : List Frame) (t : Tree) : (plug fs t).color = rootColor fs t.color := by
  induction fs generalizing t with
  | nil => rfl
  | cons f fs ih => cases f <;> simp [ih]

theorem balanced_plug (fs : List Frame) (t : Tree) :
    (plug fs t).balanced ↔ t.balanced ∧ PathBal fs t.bh := by
  induction fs generalizing t with
  | nil => simp
  | cons f fs ih =>
    cases f with
    | left a c k r =>
      simp only [plug_cons, Frame.fill_left, ih, Tree.balanced_node, Tree.bh_node, pathBal_cons,
        Frame.sibling_left, Frame.color_left]
      constructor
      · rintro ⟨⟨h1, h2, h3⟩, h4⟩
        exact ⟨h2, h3, h1.symm, h4⟩
      · rintro ⟨h2, h3, h1, h4⟩
        exact ⟨⟨h1.symm, h2, h3⟩, h4⟩
    | right a c k l =>
      simp only [plug_cons, Frame.fill_right, ih, Tree.balanced_node, Tree.bh_node, pathBal_cons,
        Frame.sibling_right, Frame.color_right]
      constructor
      · rintro ⟨⟨h1, h2, h3⟩, h4⟩
        exact ⟨h3, h2, h1, h1 ▸ h4⟩
      · rintro ⟨h3, h2, h1, h4⟩
        exact ⟨⟨h1, h2, h3⟩, h1 ▸ h4⟩

theorem noRedRed_plug (fs : List Frame) (t : Tree) :
    (plug fs t).noRedRed ↔
      t.noRedRed ∧ PathNoRR fs ∧ (pathColor fs = true → t.color = false) := by
  induction fs generalizing t with
  | nil => simp
  | cons f fs ih =>
    cases f with
    | left a c k r =>
      simp only [plug_cons, Frame.fill_left, ih, Tree.noRedRed_node, pathNoRR_cons,
        Frame.sibling_left, Frame.color_left, pathColor_cons, Tree.color_node,
        ← Bool.not_eq_true]
      tauto
    | right a c k l =>
      simp only [plug_cons, Frame.fill_right, ih, Tree.noRedRed_node, pathNoRR_cons,
        Frame.sibling_right, Frame.color_right, pathColor_cons, Tree.color_node,
        ← Bool.not_eq_true]
      tauto

theorem Tree.bh_mem_blackCounts (t : Tree) : t.bh ∈ t.blackCounts := by
  induction t with
  | nil => simp [Tree.blackCounts]
  | node a c k l r ihl ihr =>
    simp only [Tree.blackCounts, List.mem_map, List.mem_append, Tree.bh_node]
    exact ⟨l.bh, Or.inl ihl, rfl⟩

theorem Tree.balanced_iff_blackCounts (t : Tree) :
    t.balanced ↔ ∀ n ∈ t.blackCounts, n = t.bh := by
  induction t with
  | nil => simp [Tree.blackCounts]
  | node a c k l r ihl ihr =>
    simp only [Tree.balanced_node, Tree.blackCounts, List.mem_map, List.mem_append, Tree.bh_node,
      ihl, ihr]
    constructor
    · rintro ⟨h1, h2, h3⟩ n ⟨m, hm | hm, rfl⟩
      · rw [h2 m hm]
      · rw [h3 m hm, h1]
    · intro h
      have hr : r.bh = l.bh := by
        have := h _ ⟨r.bh, Or.inr r.bh_mem_blackCounts, rfl⟩
        omega
      refine ⟨hr.symm, fun n hn => ?_, fun n hn => ?_⟩
      · have := h _ ⟨n, Or.inl hn, rfl⟩
        omega
      · have := h _ ⟨n, Or.inr hn, rfl⟩
        omega

/-- Equal black counts on all paths is the same as equal black heights of the two
subtrees of every node. -/
theorem Tree.pathsEqual_iff (t : Tree) : t.pathsEqual ↔ t.balanced := by
  rw [Tree.balanced_iff_blackCounts]
  constructor
  · intro h n hn
    exact h n hn _ t.bh_mem_blackCounts
  · intro h m hm n hn
    rw [h m hm, h n hn]

theorem Tree.redBlack_iff (t : Tree) :
    t.RedBlack ↔ t.color = false ∧ t.noRedRed ∧ t.balanced := by
  simp only [Tree.RedBlack, Tree.pathsEqual_iff]

theorem Tree.blacken_redBlack (t : Tree) (h1 : t.noRedRed) (h2 : t.balanced) :
    t.blacken.RedBlack := by
  rw [Tree.redBlack_iff]
  cases t with
  | nil => simp
  | node a c k l r =>
    simp only [Tree.noRedRed_node, Tree.balanced_node] at h1 h2
    simp [h1.2, h2]

theorem Tree.blacken_nodes (t : Tree) : t.blacken.nodes = t.nodes := by
  cases t <;> rfl

theorem Tree.blacken_of_black (t : Tree) (h : t.color = false) : t.blacken = t := by
  cases t with
  | nil => rfl
  | node a c k l r =>
    simp only [Tree.color_node] at h
    simp [h]

/-! ## Reading memory through the representation relation -/

theorem TreeAt.color_ptr {st : Mem} {s p : Nat} {t : Tree} (h : TreeAt st s p t)
    (hs : st.color s = false) : st.color (t.ptr s) = t.color := by
  cases t with
  | nil => simpa using hs
  | node a c k l r =>
    simp only [treeAt_node] at h
    simpa using h.2.2.2.1

theorem Zip.color_pathPtr {st : Mem} {s : Nat} {fs : List Frame} {t : Tree} (h : Zip st s fs t) :
    st.color (pathPtr s fs) = pathColor fs := by
  have hp := h.path
  cases fs with
  | nil => simpa using h.sentinel_color
  | cons f fs =>
    cases f with
    | left a c k r =>
      simp only [pathAt_left] at hp
      simpa using hp.2.2.2.1
    | right a c k l =>
      simp only [pathAt_right] at hp
      simpa using hp.2.2.2.1

theorem Zip.father_ptr {st : Mem} {s : Nat} {fs : List Frame} {a : Nat} {c : Bool} {k : List Int}
    {l r : Tree} (h : Zip st s fs (Tree.node a c k l r)) : st.father a = pathPtr s fs := by
  have ht := h.tree
  simp only [treeAt_node] at ht
  exact ht.1

/-- Going down to the left child of the node at the position. -/
theorem Zip.down_left {st : Mem} {s : Nat} {fs : List Frame} {a : Nat} {c : Bool} {k : List Int}
    {l r : Tree} (h : Zip st s fs (Tree.node a c k l r)) : Zip st s (Frame.left a c k r :: fs) l :=
  (zip_cons_iff st s (Frame.left a c k r) fs l).2 h

/-- Going down to the right child of the node at the position. -/
theorem Zip.down_right {st : Mem} {s : Nat} {fs : List Frame} {a : Nat} {c : Bool} {k : List Int}
    {l r : Tree} (h : Zip st s fs (Tree.node a c k l r)) : Zip st s (Frame.right a c k l :: fs) r :=
  (zip_cons_iff st s (Frame.right a c k l) fs r).2 h

/-- Going up from a left child. -/
theorem Zip.up_left {st : Mem} {s : Nat} {fs : List Frame} {a : Nat} {c : Bool} {k : List Int}
    {l r : Tree} (h : Zip st s (Frame.left a c k r :: fs) l) : Zip st s fs (Tree.node a c k l r) :=
  (zip_cons_iff st s (Frame.left a c k r) fs l).1 h

/-- Going up from a right child. -/
theorem Zip.up_right {st : Mem} {s : Nat} {fs : List Frame} {a : Nat} {c : Bool} {k : List Int}
    {l r : Tree} (h : Zip st s (Frame.right a c k l :: fs) r) : Zip st s fs (Tree.node a c k l r) :=
  (zip_cons_iff st s (Frame.right a c k l) fs r).1 h

theorem Zip.rep {st : Mem} {s : Nat} {fs : List Frame} {t : Tree} (h : Zip st s fs t) :
    Rep st s (plug fs t) := (rep_plug_iff st s fs t).2 h

theorem Rep.zip {st : Mem} {s : Nat} {t : Tree} (h : Rep st s t) : Zip st s [] t :=
  (zip_nil_iff st s t).2 h

/-- The last statement of both fix-up loops on the root: `root->color = false`. -/
theorem Rep.blacken {st : Mem} {s : Nat} {t : Tree} (h : Rep st s t) :
    Rep (st.setColor st.root false) s t.blacken := by
  cases t with
  | nil =>
    have hr : st.root = s := h.root
    rw [hr]
    exact ⟨h.root, trivial, h.nodup, h.sentinel_not_mem, h.sentinel_alloc, h.alloc, by simp,
      h.sentinel_left, h.sentinel_right⟩
  | node a c k l r =>
    have hr : st.root = a := h.root
    rw [hr]
    exact (h.zip.setColor false).rep

/-! ## The cases of the loop of `balancingRBtree` -/

/-- Red uncle, father on the left of the grandfather: recolouring. -/
theorem balancingStep_red_left {st : Mem} {s : Nat} {fs : List Frame} {z g p u : Nat}
    {kg kp ku : List Int} {pl pr ul ur : Tree}
    (h : Zip st s fs (Tree.node g false kg (Tree.node p true kp pl pr) (Tree.node u true ku ul ur)))
    (hz : st.father z = p) :
    ∃ st', balancingStep st z s = (st', g) ∧ st'.next = st.next ∧ st'.rot = st.rot ∧
      Zip st' s fs (Tree.node g true kg (Tree.node p false kp pl pr) (Tree.node u false ku ul ur)) := by
  have h1 := h.down_left
  have h2 := h.down_right
  have hpg : st.father p = g := h1.father_ptr
  have hgl : st.son_l g = p := by
    have := h.tree
    simp only [treeAt_node, Tree.ptr_node] at this
    exact this.2.1
  have hgr : st.son_r g = u := by
    have := h.tree
    simp only [treeAt_node, Tree.ptr_node] at this
    exact this.2.2.1
  have hcu : st.color u = true := by
    have := h2.tree
    simp only [treeAt_node] at this
    exact this.2.2.2.1
  refine ⟨((st.setColor p false).setColor u false).setColor g true, ?_, rfl, rfl, ?_⟩
  · simp [balancingStep, hz, hpg, hgl, hgr, hcu]
  · exact ((h1.setColor false).up_left.down_right.setColor false).up_right.setColor true

@[simp] theorem leftRotation_next (st : Mem) (x s : Nat) : (leftRotation st x s).next = st.next := by
  simp only [leftRotation]
  split_ifs <;> rfl

@[simp] theorem leftRotation_rot (st : Mem) (x s : Nat) :
    (leftRotation st x s).rot = st.rot + 1 := by
  simp only [leftRotation]
  split_ifs <;> rfl

@[simp] theorem rightRotation_next (st : Mem) (x s : Nat) :
    (rightRotation st x s).next = st.next := by
  simp only [rightRotation]
  split_ifs <;> rfl

@[simp] theorem rightRotation_rot (st : Mem) (x s : Nat) :
    (rightRotation st x s).rot = st.rot + 1 := by
  simp only [rightRotation]
  split_ifs <;> rfl

@[simp] theorem leftRotation_key (st : Mem) (x s : Nat) : (leftRotation st x s).key = st.key := by
  simp only [leftRotation]
  split_ifs <;> rfl

@[simp] theorem rightRotation_key (st : Mem) (x s : Nat) :
    (rightRotation st x s).key = st.key := by
  simp only [rightRotation]
  split_ifs <;> rfl

@[simp] theorem leftRotation_color (st : Mem) (x s : Nat) :
    (leftRotation st x s).color = st.color := by
  simp only [leftRotation]
  split_ifs <;> rfl

@[simp] theorem rightRotation_color (st : Mem) (x s : Nat) :
    (rightRotation st x s).color = st.color := by
  simp only [rightRotation]
  split_ifs <;> rfl

/-- Red uncle, father on the right of the grandfather: recolouring. -/
theorem balancingStep_red_right {st : Mem} {s : Nat} {fs : List Frame} {z g p u : Nat}
    {kg kp ku : List Int} {pl pr ul ur : Tree}
    (h : Zip st s fs (Tree.node g false kg (Tree.node u true ku ul ur) (Tree.node p true kp pl pr)))
    (hz : st.father z = p) :
    ∃ st', balancingStep st z s = (st', g) ∧ st'.next = st.next ∧ st'.rot = st.rot ∧
      Zip st' s fs (Tree.node g true kg (Tree.node u false ku ul ur) (Tree.node p false kp pl pr)) := by
  have h1 := h.down_right
  have ht := h.tree
  have hnd := h.nodup
  simp only [treeAt_node, Tree.ptr_node] at ht
  simp only [Tree.addrs_node, List.append_assoc, List.cons_append, List.nodup_append,
    List.nodup_cons, List.mem_append, List.mem_cons, not_or] at hnd
  obtain ⟨g1, g2, g3, g4, g5, ⟨u1, u2, u3, u4, u5, hul, hur⟩, p1, p2, p3, p4, p5, hpl, hpr⟩ := ht
  have hpu : p ≠ u := by omega
  refine ⟨((st.setColor p false).setColor u false).setColor g true, ?_, rfl, rfl, ?_⟩
  · simp [balancingStep, hz, p1, g2, g3, u4, hpu]
  · exact ((h1.setColor false).up_right.down_left.setColor false).up_left.setColor true

/-- Black uncle, outer grandchild on the left: recolouring and a right rotation at the
grandfather. -/
theorem balancingStep_black_left_outer {st : Mem} {s : Nat} {fs : List Frame} {z g p : Nat}
    {cz : Bool} {kg kp kz : List Int} {zl zr pr U : Tree}
    (h : Zip st s fs
      (Tree.node g false kg (Tree.node p true kp (Tree.node z cz kz zl zr) pr) U))
    (hU : U.color = false) :
    ∃ st', balancingStep st z s = (st', z) ∧ st'.next = st.next ∧ st'.rot = st.rot + 1 ∧
      Zip st' s fs
        (Tree.node p false kp (Tree.node z cz kz zl zr) (Tree.node g true kg pr U)) := by
  have h1 := h.down_left
  have ht := h.tree
  have hnd := h.nodup
  have hs := h.sentinel_not_mem
  simp only [treeAt_node, Tree.ptr_node] at ht
  simp only [Tree.addrs_node, List.append_assoc, List.cons_append, List.nodup_append,
    List.nodup_cons, List.mem_append, List.mem_cons, not_or] at hnd hs
  obtain ⟨g1, g2, g3, g4, g5, ⟨p1, p2, p3, p4, p5, ⟨z1, z2, z3, z4, z5, hzl, hzr⟩, hpr⟩, hUt⟩ := ht
  have hcu : st.color (U.ptr s) = false := (hUt.color_ptr h.sentinel_color).trans hU
  have hzp : z ≠ pr.ptr s := (Tree.ptr_ne pr (by omega) (by tauto)).symm
  refine ⟨_, ?_, ?_, ?_, ((h1.setColor false).up_left.setColor true).rotateRight⟩
  · simp [balancingStep, z1, p1, g2, g3, hcu, p3, hzp]
  · simp
  · simp

/-- Black uncle, inner grandchild on the left: a left rotation at the father. -/
theorem balancingStep_black_left_inner {st : Mem} {s : Nat} {fs : List Frame} {z g p : Nat}
    {cz : Bool} {kg kp kz : List Int} {zl zr pl U : Tree}
    (h : Zip st s fs
      (Tree.node g false kg (Tree.node p true kp pl (Tree.node z cz kz zl zr)) U))
    (hU : U.color = false) :
    ∃ st', balancingStep st z s = (st', p) ∧ st'.next = st.next ∧ st'.rot = st.rot + 1 ∧
      Zip st' s fs
        (Tree.node g false kg (Tree.node z cz kz (Tree.node p true kp pl zl) zr) U) := by
  have h1 := h.down_left
  have ht := h.tree
  simp only [treeAt_node, Tree.ptr_node] at ht
  obtain ⟨g1, g2, g3, g4, g5, ⟨p1, p2, p3, p4, p5, hpl, z1, z2, z3, z4, z5, hzl, hzr⟩, hUt⟩ := ht
  have hcu : st.color (U.ptr s) = false := (hUt.color_ptr h.sentinel_color).trans hU
  refine ⟨_, ?_, ?_, ?_, h1.rotateLeft.up_left⟩
  · simp [balancingStep, z1, p1, g2, g3, hcu, p3]
  · simp
  · simp

/-- Black uncle, outer grandchild on the right: recolouring and a left rotation at the
grandfather. -/
theorem balancingStep_black_right_outer {st : Mem} {s : Nat} {fs : List Frame} {z g p : Nat}
    {cz : Bool} {kg kp kz : List Int} {zl zr pl U : Tree}
    (h : Zip st s fs
      (Tree.node g false kg U (Tree.node p true kp pl (Tree.node z cz kz zl zr))))
    (hU : U.color = false) :
    ∃ st', balancingStep st z s = (st', z) ∧ st'.next = st.next ∧ st'.rot = st.rot + 1 ∧
      Zip st' s fs
        (Tree.node p false kp (Tree.node g true kg U pl) (Tree.node z cz kz zl zr)) := by
  have h1 := h.down_right
  have ht := h.tree
  have hnd := h.nodup
  have hs := h.sentinel_not_mem
  simp only [treeAt_node, Tree.ptr_node] at ht
  simp only [Tree.addrs_node, List.append_assoc, List.cons_append, List.nodup_append,
    List.nodup_cons, List.mem_append, List.mem_cons, not_or, List.disjoint_cons_right,
    List.disjoint_append_right, List.disjoint_cons_left, List.disjoint_append_left] at hnd hs
  obtain ⟨g1, g2, g3, g4, g5, hUt, p1, p2, p3, p4, p5, hpl, z1, z2, z3, z4, z5, hzl, hzr⟩ := ht
  have hcu : st.color (U.ptr s) = false := (hUt.color_ptr h.sentinel_color).trans hU
  have hzp : z ≠ pl.ptr s := (Tree.ptr_ne pl (by omega) (by tauto)).symm
  have hpU : p ≠ U.ptr s := (Tree.ptr_ne U (by omega) (by tauto)).symm
  refine ⟨_, ?_, ?_, ?_, ((h1.setColor false).up_right.setColor true).rotateLeft⟩
  · simp [balancingStep, z1, p1, g2, g3, hcu, p2, hzp, hpU]
  · simp
  · simp

/-- Black uncle, inner grandchild on the right: a right rotation at the father. -/
theorem balancingStep_black_right_inner {st : Mem} {s : Nat} {fs : List Frame} {z g p : Nat}
    {cz : Bool} {kg kp kz : List Int} {zl zr pr U : Tree}
    (h : Zip st s fs
      (Tree.node g false kg U (Tree.node p true kp (Tree.node z cz kz zl zr) pr)))
    (hU : U.color = false) :
    ∃ st', balancingStep st z s = (st', p) ∧ st'.next = st.next ∧ st'.rot = st.rot + 1 ∧
      Zip st' s fs
        (Tree.node g false kg U (Tree.node z cz kz zl (Tree.node p true kp zr pr))) := by
  have h1 := h.down_right
  have ht := h.tree
  have hnd := h.nodup
  have hs := h.sentinel_not_mem
  simp only [treeAt_node, Tree.ptr_node] at ht
  simp only [Tree.addrs_node, List.append_assoc, List.cons_append, List.nodup_append,
    List.nodup_cons, List.mem_append, List.mem_cons, not_or, List.disjoint_cons_right,
    List.disjoint_append_right, List.disjoint_cons_left, List.disjoint_append_left] at hnd hs
  obtain ⟨g1, g2, g3, g4, g5, hUt, p1, p2, p3, p4, p5, ⟨z1, z2, z3, z4, z5, hzl, hzr⟩, hpr⟩ := ht
  have hcu : st.color (U.ptr s) = false := (hUt.color_ptr h.sentinel_color).trans hU
  have hpU : p ≠ U.ptr s := (Tree.ptr_ne U (by omega) (by tauto)).symm
  refine ⟨_, ?_, ?_, ?_, h1.rotateRight.up_right⟩
  · simp [balancingStep, z1, p1, g2, g3, hcu, p2, hpU]
  · simp
  · simp

/-! ## The loop of `balancingRBtree` -/

theorem balancingRBtree_continue {st st1 : Mem} {s z z1 : Nat} {fs : List Frame} {c : Bool}
    {kz : List Int} {zl zr : Tree} (h : Zip st s fs (Tree.node z c kz zl zr))
    (hc : pathColor fs = true) (hstep : balancingStep st z s = (st1, z1)) (fuel : Nat) :
    balancingRBtree (fuel + 1) st z s = balancingRBtree fuel st1 z1 s := by
  have h1 : st.color (st.father z) = true := by
    rw [h.father_ptr, h.color_pathPtr, hc]
  simp [balancingRBtree, h1, hstep]

theorem balancingRBtree_exit {st : Mem} {s z : Nat} {fs : List Frame} {c : Bool}
    {kz : List Int} {zl zr : Tree} (h : Zip st s fs (Tree.node z c kz zl zr))
    (hc : pathColor fs = false) (fuel : Nat) :
    balancingRBtree (fuel + 1) st z s = some (st.setColor st.root false) := by
  have h1 : st.color (st.father z) = false := by
    rw [h.father_ptr, h.color_pathPtr, hc]
  simp [balancingRBtree, h1]

/-- The loop ends where the father is black: the result holds the tree with a black
root, which satisfies the red-black invariants. -/
theorem balancingRBtree_finish {st : Mem} {s z : Nat} {fs : List Frame} {c : Bool}
    {kz : List Int} {zl zr : Tree} (h : Zip st s fs (Tree.node z c kz zl zr))
    (hc : pathColor fs = false) (h1 : (Tree.node z c kz zl zr).noRedRed)
    (h2 : (Tree.node z c kz zl zr).balanced) (h3 : PathBal fs (Tree.node z c kz zl zr).bh)
    (h4 : PathNoRR fs) :
    ∃ st' T, (∀ fuel, 1 ≤ fuel → balancingRBtree fuel st z s = some st') ∧ Rep st' s T ∧
      T.RedBlack ∧ T.nodes = (plug fs (Tree.node z c kz zl zr)).nodes ∧ st'.next = st.next ∧
      st'.rot = st.rot := by
  refine ⟨st.setColor st.root false, (plug fs (Tree.node z c kz zl zr)).blacken, ?_, h.rep.blacken,
    ?_, Tree.blacken_nodes _, rfl, rfl⟩
  · intro fuel hf
    obtain ⟨k, rfl⟩ := Nat.exists_eq_add_of_le' hf
    exact balancingRBtree_exit h hc k
  · apply Tree.blacken_redBlack
    · rw [noRedRed_plug]
      exact ⟨h1, h4, fun e => by simp [hc] at e⟩
    · rw [balanced_plug]
      exact ⟨h2, h3⟩

theorem nodes_plug_congr (fs : List Frame) {t t' : Tree} (h : t.nodes = t'.nodes) :
    (plug fs t).nodes = (plug fs t').nodes := by
  rw [nodes_plug, nodes_plug, h]

theorem balancingRBtree_fuel {st st1 st' : Mem} {s z z1 m : Nat} {fs : List Frame} {c : Bool}
    {kz : List Int} {zl zr : Tree} (h : Zip st s fs (Tree.node z c kz zl zr))
    (hc : pathColor fs = true) (hstep : balancingStep st z s = (st1, z1))
    (hrest : ∀ fuel, m ≤ fuel → balancingRBtree fuel st1 z1 s = some st') :
    ∀ fuel, m + 1 ≤ fuel → balancingRBtree fuel st z s = some st' := by
  intro fuel hf
  obtain ⟨k, rfl⟩ := Nat.exists_eq_add_of_le' hf
  rw [show k + (m + 1) = (k + m) + 1 from rfl, balancingRBtree_continue h hc hstep]
  exact hrest _ (by omega)

/-- The loop of `balancingRBtree`, started on a red node with black children whose
father may be red, in a tree that satisfies the invariants otherwise, ends and leaves a
red-black tree with the same in-order nodes; it rotates at most twice. -/
theorem balancingRBtree_spec (s : Nat) (n : Nat) :
    ∀ (fs : List Frame) (st : Mem) (z : Nat) (kz : List Int) (zl zr : Tree),
      fs.length ≤ n →
      Zip st s fs (Tree.node z true kz zl zr) →
      (Tree.node z true kz zl zr).noRedRed → (Tree.node z true kz zl zr).balanced →
      PathBal fs zl.bh → PathNoRR fs → rootColor fs false = false →
      ∃ m st' T, (∀ fuel, m ≤ fuel → balancingRBtree fuel st z s = some st') ∧ Rep st' s T ∧
        T.RedBlack ∧ T.nodes = (plug fs (Tree.node z true kz zl zr)).nodes ∧
        st'.next = st.next ∧ st'.rot ≤ st.rot + 2 := by
  induction n using Nat.strong_induction_on with
  | _ n ih =>
  intro fs st z kz zl zr hlen h hnr hbal hpb hpn hroot
  -- the father is black: the loop ends at once
  by_cases hc : pathColor fs = false
  · obtain ⟨st', T, h1, h2, h3, h4, h5, h6⟩ :=
      balancingRBtree_finish h hc hnr hbal (by simpa using hpb) hpn
    exact ⟨1, st', T, h1, h2, h3, h4, h5, by omega⟩
  -- the father is red, so it is not the root and the grandfather is black
  rcases fs with _ | ⟨f, _ | ⟨g, fs⟩⟩
  · simp at hc
  · simp only [rootColor_cons, rootColor_nil, pathColor_cons] at hroot hc
    exact absurd hroot hc
  simp only [pathColor_cons, Bool.not_eq_false] at hc
  simp only [pathNoRR_cons, hc, true_implies, pathColor_cons] at hpn
  obtain ⟨hfs, ⟨hfc, hgc⟩, hgs, hgimp, hpn'⟩ := hpn
  simp only [pathBal_cons, hc, hgc, if_true, add_zero] at hpb
  obtain ⟨hfb, hfh, hgb, hgh, hpb'⟩ := hpb
  simp only [rootColor_cons, hgc] at hroot
  simp only [Tree.noRedRed_node, Tree.balanced_node, true_implies] at hnr hbal
  simp only [List.length_cons] at hlen
  have hz : st.father z = f.addr := by simpa using h.father_ptr
  rcases g with ⟨g, cg, kg, U⟩ | ⟨g, cg, kg, U⟩
  · -- the father is the left child of the grandfather
    simp only [Frame.color_left, Frame.sibling_left] at hgc hgs hgb hgh hgimp hpb'
    subst hgc
    cases hU : U.color
    · -- black uncle
      rcases f with ⟨p, cp, kp, pr⟩ | ⟨p, cp, kp, pl⟩
      · -- outer grandchild: one rotation
        simp only [Frame.color_left, Frame.sibling_left, Frame.addr_left] at hc hfs hfc hfb hfh hz
        subst hc
        obtain ⟨st1, hstep, hn1, hr1, hz1⟩ := balancingStep_black_left_outer h.up_left.up_left hU
        obtain ⟨st', T, hrun, hrep, hrb, hnodes, hn2, hr2⟩ :=
          balancingRBtree_finish hz1.down_left rfl (by simp [hnr]) (by simp [hbal])
            (by simp [hfb, hgb, hfh, hgh]; simpa using hpb')
            (by simp [hfs, hgs, hfc, hU, hpn'])
        refine ⟨1 + 1, st', T, balancingRBtree_fuel h rfl hstep hrun, hrep, hrb, ?_, by omega,
          by omega⟩
        rw [hnodes]
        simp only [plug_cons, Frame.fill_left, Frame.fill_right]
        exact nodes_plug_congr fs (by simp)
      · -- inner grandchild: two rotations
        simp only [Frame.color_right, Frame.sibling_right, Frame.addr_right]
          at hc hfs hfc hfb hfh hz
        subst hc
        obtain ⟨st1, hstep, hn1, hr1, hz1⟩ := balancingStep_black_left_inner h.up_right.up_left hU
        obtain ⟨st2, hstep2, hn2, hr2, hz2⟩ := balancingStep_black_left_outer hz1 hU
        obtain ⟨st', T, hrun, hrep, hrb, hnodes, hn3, hr3⟩ :=
          balancingRBtree_finish hz2.down_left rfl (by simp [hnr, hfs, hfc])
            (by simp [hbal, hfb, hfh])
            (by have := hpb'; simp [hfb, hgb, hfh, hgh, hbal] at this ⊢; exact this)
            (by simp [hfs, hgs, hfc, hU, hpn', hnr])
        refine ⟨1 + 1 + 1, st', T,
          balancingRBtree_fuel h rfl hstep (balancingRBtree_fuel hz1.down_left.down_left rfl hstep2 hrun),
          hrep, hrb, ?_, by omega, by omega⟩
        rw [hnodes]
        simp only [plug_cons, Frame.fill_left, Frame.fill_right]
        exact nodes_plug_congr fs (by simp)
    · -- red uncle
      rcases U with _ | ⟨u, cu, ku, ul, ur⟩
      · simp at hU
      simp only [Tree.color_node] at hU
      subst hU
      simp only [Tree.noRedRed_node, Tree.balanced_node, Tree.bh_node, if_true, add_zero,
        true_implies] at hgs hgb hgh
      rcases f with ⟨p, cp, kp, pr⟩ | ⟨p, cp, kp, pl⟩
      all_goals
        simp only [Frame.color_left, Frame.sibling_left, Frame.color_right, Frame.sibling_right,
          Frame.addr_left, Frame.addr_right] at hc hfs hfc hfb hfh hz
        subst hc
        first
        | have h' := h.up_left.up_left
        | have h' := h.up_right.up_left
        obtain ⟨st1, hstep, hn1, hr1, hz1⟩ := balancingStep_red_left h' hz
        obtain ⟨m, st', T, hrun, hrep, hrb, hnodes, hn2, hr2⟩ :=
          ih fs.length (by omega) fs st1 g kg _ _ (le_refl _) hz1
            (by simp [hnr, hfs, hgs]) (by simp [hbal, hfb, hgb, hfh, hgh]; omega)
            (by simpa [hfh] using hpb') hpn' hroot
        refine ⟨m + 1, st', T, balancingRBtree_fuel h rfl hstep hrun, hrep, hrb, ?_, by omega,
          by omega⟩
        rw [hnodes]
        simp only [plug_cons, Frame.fill_left, Frame.fill_right]
        exact nodes_plug_congr fs (by simp)
  · -- the father is the right child of the grandfather
    simp only [Frame.color_right, Frame.sibling_right] at hgc hgs hgb hgh hgimp hpb'
    subst hgc
    cases hU : U.color
    · -- black uncle
      rcases f with ⟨p, cp, kp, pr⟩ | ⟨p, cp, kp, pl⟩
      · -- inner grandchild: two rotations
        simp only [Frame.color_left, Frame.sibling_left, Frame.addr_left] at hc hfs hfc hfb hfh hz
        subst hc
        obtain ⟨st1, hstep, hn1, hr1, hz1⟩ := balancingStep_black_right_inner h.up_left.up_right hU
        obtain ⟨st2, hstep2, hn2, hr2, hz2⟩ := balancingStep_black_right_outer hz1 hU
        obtain ⟨st', T, hrun, hrep, hrb, hnodes, hn3, hr3⟩ :=
          balancingRBtree_finish hz2.down_right rfl (by simp [hnr, hfs, hfc])
            (by simp [hbal, hfb, hfh])
            (by have := hpb'; simp [hfb, hgb, hfh, hgh, hbal] at this ⊢; exact this)
            (by simp [hfs, hgs, hfc, hU, hpn', hnr])
        refine ⟨1 + 1 + 1, st', T,
          balancingRBtree_fuel h rfl hstep
            (balancingRBtree_fuel hz1.down_right.down_right rfl hstep2 hrun),
          hrep, hrb, ?_, by omega, by omega⟩
        rw [hnodes]
        simp only [plug_cons, Frame.fill_left, Frame.fill_right]
        exact nodes_plug_congr fs (by simp)
      · -- outer grandchild: one rotation
        simp only [Frame.color_right, Frame.sibling_right, Frame.addr_right]
          at hc hfs hfc hfb hfh hz
        subst hc
        obtain ⟨st1, hstep, hn1, hr1, hz1⟩ :=
          balancingStep_black_right_outer h.up_right.up_right hU
        obtain ⟨st', T, hrun, hrep, hrb, hnodes, hn2, hr2⟩ :=
          balancingRBtree_finish hz1.down_right rfl (by simp [hnr]) (by simp [hbal])
            (by have := hpb'; simp [hfb, hgb, hfh, hgh, hbal] at this ⊢; exact this)
            (by simp [hfs, hgs, hfc, hU, hpn'])
        refine ⟨1 + 1, st', T, balancingRBtree_fuel h rfl hstep hrun, hrep, hrb, ?_, by omega,
          by omega⟩
        rw [hnodes]
        simp only [plug_cons, Frame.fill_left, Frame.fill_right]
        exact nodes_plug_congr fs (by simp)
    · -- red uncle
      rcases U with _ | ⟨u, cu, ku, ul, ur⟩
      · simp at hU
      simp only [Tree.color_node] at hU
      subst hU
      simp only [Tree.noRedRed_node, Tree.balanced_node, Tree.bh_node, if_true, add_zero,
        true_implies] at hgs hgb hgh
      rcases f with ⟨p, cp, kp, pr⟩ | ⟨p, cp, kp, pl⟩
      all_goals
        simp only [Frame.color_left, Frame.sibling_left, Frame.color_right, Frame.sibling_right,
          Frame.addr_left, Frame.addr_right] at hc hfs hfc hfb hfh hz
        subst hc
        first
        | have h' := h.up_left.up_right
        | have h' := h.up_right.up_right
        obtain ⟨st1, hstep, hn1, hr1, hz1⟩ := balancingStep_red_right h' hz
        obtain ⟨m, st', T, hrun, hrep, hrb, hnodes, hn2, hr2⟩ :=
          ih fs.length (by omega) fs st1 g kg _ _ (le_refl _) hz1
            (by simp [hnr, hfs, hgs]) (by simp [hbal, hfb, hgb, hfh, hgh]; omega)
            (by simpa [hgh] using hpb') hpn' hroot
        refine ⟨m + 1, st', T, balancingRBtree_fuel h rfl hstep hrun, hrep, hrb, ?_, by omega,
          by omega⟩
        rw [hnodes]
        simp only [plug_cons, Frame.fill_left, Frame.fill_right]
        exact nodes_plug_congr fs (by simp)

/-! ## `stringCompare` is a total preorder -/

theorem stringCompareFrom_swap (a b : List Int) (i n : Nat) :
    stringCompareFrom b a i n = - stringCompareFrom a b i n := by
  induction n generalizing i with
  | zero => simp [stringCompareFrom]
  | succ n ih =>
    simp only [stringCompareFrom, ih]
    split_ifs <;> omega

theorem stringCompareFrom_trans (a b c : List Int) (i n : Nat) :
    (stringCompareFrom a b i n ≤ 0 → stringCompareFrom b c i n ≤ 0 →
      stringCompareFrom a c i n ≤ 0) ∧
    (stringCompareFrom a b i n < 0 → stringCompareFrom b c i n ≤ 0 →
      stringCompareFrom a c i n < 0) ∧
    (stringCompareFrom a b i n ≤ 0 → stringCompareFrom b c i n < 0 →
      stringCompareFrom a c i n < 0) := by
  induction n generalizing i with
  | zero => simp [stringCompareFrom]
  | succ n ih =>
    have := ih (i + 1)
    simp only [stringCompareFrom]
    split_ifs <;> omega

theorem stringCompare_swap (a b : List Int) : stringCompare b a = - stringCompare a b :=
  stringCompareFrom_swap a b 0 length

theorem stringCompare_le_trans {a b c : List Int} (h1 : stringCompare a b ≤ 0)
    (h2 : stringCompare b c ≤ 0) : stringCompare a c ≤ 0 :=
  (stringCompareFrom_trans a b c 0 length).1 h1 h2

theorem stringCompare_lt_of_lt_of_le {a b c : List Int} (h1 : stringCompare a b < 0)
    (h2 : stringCompare b c ≤ 0) : stringCompare a c < 0 :=
  (stringCompareFrom_trans a b c 0 length).2.1 h1 h2

theorem stringCompare_le_iff_not_lt (a b : List Int) :
    stringCompare a b ≤ 0 ↔ ¬ stringCompare b a < 0 := by
  rw [stringCompare_swap a b]
  omega

theorem Tree.ordered_iff_pairwise (t : Tree) :
    t.Ordered ↔ t.keys.Pairwise (fun k1 k2 => stringCompare k1 k2 ≤ 0) := by
  haveI : IsTrans (List Int) (fun k1 k2 => stringCompare k1 k2 ≤ 0) :=
    ⟨fun _ _ _ h1 h2 => stringCompare_le_trans h1 h2⟩
  exact List.chain'_iff_pairwise

/-! ## The descent of `insertElement` -/

theorem plug_insPath (k : List Int) (t : Tree) (fs : List Frame) :
    plug (insPath k t fs) Tree.nil = plug fs t := by
  induction t generalizing fs with
  | nil => rfl
  | node a c ka l r ihl ihr =>
    simp only [insPath]
    split_ifs
    · rw [ihl]; rfl
    · rw [ihr]; rfl

theorem pathFor_insPath (k : List Int) (t : Tree) (fs : List Frame) (h : PathFor k fs) :
    PathFor k (insPath k t fs) := by
  induction t generalizing fs with
  | nil => exact h
  | node a c ka l r ihl ihr =>
    simp only [insPath]
    split_ifs with hlt
    · exact ihl _ ⟨hlt, h⟩
    · exact ihr _ ⟨hlt, h⟩

theorem keys_plug (fs : List Frame) (t : Tree) :
    (plug fs t).keys = (nodesBefore fs).map Prod.snd ++ t.keys ++ (nodesAfter fs).map Prod.snd := by
  rw [Tree.keys_eq_map, nodes_plug, Tree.keys_eq_map]
  simp

/-- In an ordered tree the descent for `k` ends at a position with only keys `≤ k`
before it and only keys `> k` after it. -/
theorem insPath_split (k : List Int) (t : Tree) (fs : List Frame)
    (hord : (plug fs t).keys.Pairwise (fun k1 k2 => stringCompare k1 k2 ≤ 0))
    (hb : ∀ x ∈ nodesBefore fs, stringCompare x.2 k ≤ 0)
    (ha : ∀ x ∈ nodesAfter fs, stringCompare k x.2 < 0) :
    (∀ x ∈ nodesBefore (insPath k t fs), stringCompare x.2 k ≤ 0) ∧
      (∀ x ∈ nodesAfter (insPath k t fs), stringCompare k x.2 < 0) := by
  induction t generalizing fs with
  | nil => exact ⟨hb, ha⟩
  | node a c ka l r ihl ihr =>
    have hk := hord
    rw [keys_plug] at hk
    simp only [Tree.keys_node, List.pairwise_append, List.pairwise_cons, List.mem_append,
      List.mem_cons, List.mem_map] at hk
    simp only [insPath]
    split_ifs with hlt
    · apply ihl
      · exact hord
      · exact hb
      · intro x hx
        simp only [nodesAfter, List.cons_append, List.mem_cons, List.mem_append] at hx
        rcases hx with rfl | hx | hx
        · exact hlt
        · refine stringCompare_lt_of_lt_of_le hlt ?_
          have := hk.1.2.1.2.1.1 x.2
          rw [Tree.keys_eq_map] at this
          exact this (List.mem_map_of_mem _ hx)
        · exact ha x hx
    · apply ihr
      · exact hord
      · intro x hx
        simp only [nodesBefore, List.mem_append, List.mem_singleton] at hx
        rcases hx with hx | hx | rfl
        · exact hb x hx
        · refine stringCompare_le_trans ?_ ((stringCompare_le_iff_not_lt _ _).2 hlt)
          have := hk.1.2.1.2.2 x.2
          rw [Tree.keys_eq_map] at this
          exact this (List.mem_map_of_mem _ hx) ka (Or.inl rfl)
        · exact (stringCompare_le_iff_not_lt _ _).2 hlt
      · exact ha

/-- The descent loop of `insertElement` follows `insPath` and returns its last node. -/
theorem insertLoop_spec {st : Mem} {s nodo : Nat} (t : Tree) :
    ∀ (fs : List Frame), Zip st s fs t →
      ∃ m, ∀ fuel, m ≤ fuel →
        insertLoop fuel st nodo (pathPtr s fs) (t.ptr s) s =
          some (pathPtr s (insPath (st.key nodo) t fs)) := by
  induction t with
  | nil =>
    intro fs _
    refine ⟨1, fun fuel hf => ?_⟩
    obtain ⟨k, rfl⟩ := Nat.exists_eq_add_of_le' hf
    simp [insertLoop, insPath]
  | node a c ka l r ihl ihr =>
    intro fs h
    have ht := h.tree
    have hs := h.sentinel_not_mem
    simp only [treeAt_node] at ht
    simp only [Tree.addrs_node, List.append_assoc, List.cons_append, List.mem_append,
      List.mem_cons, not_or] at hs
    obtain ⟨a1, a2, a3, a4, a5, hl, hr⟩ := ht
    have has : a ≠ s := by omega
    by_cases hlt : stringCompare (st.key nodo) ka < 0
    · obtain ⟨m, hm⟩ := ihl _ h.down_left
      refine ⟨m + 1, fun fuel hf => ?_⟩
      obtain ⟨k, rfl⟩ := Nat.exists_eq_add_of_le' hf
      have := hm (k + m) (by omega)
      simp only [pathPtr_cons, Frame.addr_left] at this
      simp [show k + (m + 1) = (k + m) + 1 from rfl, insertLoop, has, a5, hlt, a2, this, insPath]
    · obtain ⟨m, hm⟩ := ihr _ h.down_right
      refine ⟨m + 1, fun fuel hf => ?_⟩
      obtain ⟨k, rfl⟩ := Nat.exists_eq_add_of_le' hf
      have := hm (k + m) (by omega)
      simp only [pathPtr_cons, Frame.addr_right] at this
      simp [show k + (m + 1) = (k + m) + 1 from rfl, insertLoop, has, a5, hlt, a3, this, insPath]

/-- Allocating and initialising the new node does not disturb the tree. -/
theorem Rep.malloc {st : Mem} {s : Nat} {t : Tree} (h : Rep st s t) (k : List Int) :
    Rep ((st.malloc.2.setColor st.malloc.1 true).setKey st.malloc.1 k) s t := by
  have hne : ∀ a ∈ t.addrs, a ≠ st.next := fun a ha => by
    have := h.alloc a ha
    omega
  have hsn : s ≠ st.next := by
    have := h.sentinel_alloc
    omega
  refine ⟨h.root, h.tree.agree (fun a ha => ?_), h.nodup, h.sentinel_not_mem, ?_, ?_, ?_,
    h.sentinel_left, h.sentinel_right⟩
  · simp [Function.update_noteq (hne a ha)]
  · have := h.sentinel_alloc
    simp
    omega
  · intro a ha
    have := h.alloc a ha
    simp
    omega
  · simp [Function.update_noteq hsn, h.sentinel_color]

/-- Frame of the linking code of `insertElement`: only the records of the new node and
of `pred` are written. -/
theorem insertAttach_agree (st : Mem) (nodo pred s : Nat) :
    ∀ a, a ∉ [nodo, pred] →
      (insertAttach st nodo pred s).father a = st.father a ∧
      (insertAttach st nodo pred s).son_l a = st.son_l a ∧
      (insertAttach st nodo pred s).son_r a = st.son_r a ∧
      (insertAttach st nodo pred s).color a = st.color a ∧
      (insertAttach st nodo pred s).key a = st.key a := by
  intro a ha
  simp only [List.mem_cons, List.mem_singleton, not_or, List.not_mem_nil, or_false] at ha
  obtain ⟨h1, h2⟩ := ha
  simp only [insertAttach]
  split_ifs <;> simp [Function.update_apply, h1, h2]

theorem two_not_mem {l : List Nat} {a b : Nat} (ha : a ∉ l) (hb : b ∉ l) :
    ∀ z ∈ [a, b], z ∉ l := by
  intro z hz
  simp only [List.mem_cons, List.mem_singleton, List.not_mem_nil, or_false] at hz
  rcases hz with rfl | rfl <;> assumption

/-- Linking the new node at the end of the descent path puts a red leaf there. -/
theorem Zip.attach {st : Mem} {s nodo : Nat} {fs : List Frame} (h : Zip st s fs Tree.nil)
    (hn : nodo ∉ pathAddrs fs) (hns : nodo ≠ s) (hnx : nodo < st.next)
    (hfor : PathFor (st.key nodo) fs) :
    Zip (insertAttach st nodo (pathPtr s fs) s) s fs
      (Tree.node nodo true (st.key nodo) Tree.nil Tree.nil) := by
  have hag := insertAttach_agree st nodo (pathPtr s fs) s
  have hnd := h.nodup
  have hs := h.sentinel_not_mem
  have hp := h.path
  have hr := h.root
  have hal := h.alloc
  have hsn : s ≠ nodo := Ne.symm hns
  rcases fs with _ | ⟨⟨p, cp, kp, R⟩ | ⟨p, cp, kp, L⟩, fs⟩
  · refine ⟨?_, trivial, ?_, ?_, ?_, ?_, ?_, ?_, ?_, ?_⟩ <;>
      simp [insertAttach, h.sentinel_color, h.sentinel_left, h.sentinel_right, hsn, hns,
        h.sentinel_alloc, hnx]
  all_goals
    simp only [Tree.addrs_nil, List.nil_append, pathAddrs_cons, Frame.addr_left, Frame.addr_right,
      Frame.sibling_left, Frame.sibling_right, List.nodup_cons, List.mem_cons, List.mem_append,
      not_or, List.nodup_append] at hnd hs hn
    simp only [pathAt_left, pathAt_right, Tree.ptr_nil, PathFor] at hp hfor
    simp only [pathPtr_cons, Frame.addr_left, Frame.addr_right] at hag ⊢
    obtain ⟨p1, p2, p3, p4, p5, hR, hP⟩ := hp
    have hps : p ≠ s := by omega
    have hpn : p ≠ nodo := by omega
    have hnp : nodo ≠ p := by omega
    refine ⟨?_, ?_, ?_, ?_, ?_, ?_, ?_, ?_, ?_, ?_⟩
  -- the position is a left child
  · simp [insertAttach, hps, p5, hfor.1, hr]
  · simp only [pathAt_left, Tree.ptr_node]
    refine ⟨?_, ?_, ?_, ?_, ?_, hR.agree (agree_of_disjoint hag (two_not_mem ?_ ?_)),
      hP.agreePath (agree_of_disjoint hag (two_not_mem ?_ ?_))⟩
    all_goals first | tauto | simp [insertAttach, hps, p5, hfor.1, hpn, hnp, p1, p2, p3, p4]
  · simp [insertAttach, hps, p5, hfor.1, hpn, hnp]
  · simpa [List.nodup_append] using ⟨hn, hnd⟩
  · simpa using ⟨hsn, hs⟩
  · simpa [insertAttach, hps, p5, hfor.1] using h.sentinel_alloc
  · intro a ha
    have : a < st.next := by
      simp only [Tree.addrs_node, Tree.addrs_nil, List.nil_append, List.cons_append,
        List.mem_cons, pathAddrs_cons, Frame.addr_left, Frame.sibling_left] at ha
      rcases ha with rfl | ha
      · exact hnx
      · exact hal a (by simpa using ha)
    simpa [insertAttach, hps, p5, hfor.1] using this
  · simp [insertAttach, hps, p5, hfor.1, hsn, h.sentinel_color]
  · simp [insertAttach, hps, p5, hfor.1, hsn, h.sentinel_left, Ne.symm hps]
  · simp [insertAttach, hps, p5, hfor.1, hsn, h.sentinel_right]
  -- the position is a right child
  · simp [insertAttach, hps, p5, hfor.1, hr]
  · simp only [pathAt_right, Tree.ptr_node]
    refine ⟨?_, ?_, ?_, ?_, ?_, hR.agree (agree_of_disjoint hag (two_not_mem ?_ ?_)),
      hP.agreePath (agree_of_disjoint hag (two_not_mem ?_ ?_))⟩
    all_goals first | tauto | simp [insertAttach, hps, p5, hfor.1, hpn, hnp, p1, p2, p3, p4]
  · simp [insertAttach, hps, p5, hfor.1, hpn, hnp]
  · simpa [List.nodup_append] using ⟨hn, hnd⟩
  · simpa using ⟨hsn, hs⟩
  · simpa [insertAttach, hps, p5, hfor.1] using h.sentinel_alloc
  · intro a ha
    have : a < st.next := by
      simp only [Tree.addrs_node, Tree.addrs_nil, List.nil_append, List.cons_append,
        List.mem_cons, pathAddrs_cons, Frame.addr_right, Frame.sibling_right] at ha
      rcases ha with rfl | ha
      · exact hnx
      · exact hal a (by simpa using ha)
    simpa [insertAttach, hps, p5, hfor.1] using this
  · simp [insertAttach, hps, p5, hfor.1, hsn, h.sentinel_color]
  · simp [insertAttach, hps, p5, hfor.1, hsn, h.sentinel_left]
  · simp [insertAttach, hps, p5, hfor.1, hsn, h.sentinel_right, Ne.symm hps]

@[simp] theorem insertAttach_next (st : Mem) (nodo pred s : Nat) :
    (insertAttach st nodo pred s).next = st.next := by
  simp only [insertAttach]
  split_ifs <;> rfl

@[simp] theorem insertAttach_rot (st : Mem) (nodo pred s : Nat) :
    (insertAttach st nodo pred s).rot = st.rot := by
  simp only [insertAttach]
  split_ifs <;> rfl

/-- The whole of `insertElement` on a red-black tree: it returns, the result is a
red-black tree, and the in-order node sequence is the old one with the new node put in
at the end of the descent path. -/
theorem insertElement_spec {st : Mem} {s : Nat} {T : Tree} (k : List Int) (h : Rep st s T)
    (hrb : T.RedBlack) :
    ∃ m st' T', (∀ fuel, m ≤ fuel → insertElement fuel st k s = some st') ∧ Rep st' s T' ∧
      T'.RedBlack ∧
      T.nodes = nodesBefore (insPath (k.take length) T []) ++
        nodesAfter (insPath (k.take length) T []) ∧
      T'.nodes = nodesBefore (insPath (k.take length) T []) ++
        (st.next, k.take length) :: nodesAfter (insPath (k.take length) T []) ∧
      st'.next = st.next + 1 ∧ st'.rot ≤ st.rot + 2 := by
  have h1 := h.malloc k
  have hk : ((st.malloc.2.setColor st.malloc.1 true).setKey st.malloc.1 k).key st.next =
      k.take length := by simp
  have hplug := plug_insPath (k.take length) T []
  simp only [plug_nil] at hplug
  rw [Tree.redBlack_iff] at hrb
  obtain ⟨hc, hnr, hbal⟩ := hrb
  rw [← hplug] at hc hnr hbal
  rw [color_plug] at hc
  rw [noRedRed_plug] at hnr
  rw [balanced_plug] at hbal
  obtain ⟨m1, hm1⟩ := @insertLoop_spec _ s st.next T [] h1.zip
  rw [hk] at hm1
  have hz : Zip ((st.malloc.2.setColor st.malloc.1 true).setKey st.malloc.1 k) s
      (insPath (k.take length) T []) Tree.nil := by
    rw [← rep_plug_iff, hplug]
    exact h1
  have hsub : ∀ a ∈ pathAddrs (insPath (k.take length) T []), a ∈ T.addrs := by
    intro a ha
    have := (addrs_plug_perm (insPath (k.take length) T []) Tree.nil).mem_iff (a := a)
    rw [hplug] at this
    exact this.2 (by simpa using ha)
  have hat := @Zip.attach _ s st.next _ hz
    (fun hm => by have := h.alloc _ (hsub _ hm); omega)
    (by have := h.sentinel_alloc; omega) (by simp)
    (by rw [hk]; exact pathFor_insPath _ T [] trivial)
  rw [hk] at hat
  obtain ⟨m2, st', T', hrun, hrep, hrb', hnodes, hnext, hrot⟩ :=
    balancingRBtree_spec s _ _ _ _ _ _ _ (le_refl _) hat (by simp) (by simp)
      (by simpa using hbal.2) hnr.2.1 (by simpa using hc)
  refine ⟨max m1 m2, st', T', ?_, hrep, hrb', ?_, ?_, ?_, ?_⟩
  · intro fuel hf
    have e1 := hm1 fuel (le_trans (le_max_left _ _) hf)
    have e2 := hrun fuel (le_trans (le_max_right _ _) hf)
    have hroot : st.root = T.ptr s := h.root
    simp only [pathPtr_nil, Mem.malloc_fst] at e1 e2
    simp only [insertElement, Mem.malloc_fst, Mem.setKey_root, Mem.setColor_root, Mem.malloc_root,
      hroot, e1]
    exact e2
  · conv_lhs => rw [← hplug]
    rw [nodes_plug]
    simp
  · rw [hnodes, nodes_plug]
    simp
  · simpa using hnext
  · simpa using hrot

/-! ## Insertion: order, and sequences of insertions -/

theorem rep_emptyTree (m : Mem) : Rep (emptyTree m).1 (emptyTree m).2 Tree.nil := by
  refine ⟨?_, trivial, ?_, ?_, ?_, ?_, ?_, ?_, ?_⟩ <;>
    simp [emptyTree, initializeSentinel, Mem.malloc]

theorem Tree.searchTree_of_pairwise (t : Tree)
    (h : t.keys.Pairwise (fun k1 k2 => stringCompare k1 k2 ≤ 0)) : t.SearchTree := by
  induction t with
  | nil => trivial
  | node a c k l r ihl ihr =>
    simp only [Tree.keys_node, List.pairwise_append, List.pairwise_cons, List.mem_cons] at h
    obtain ⟨hl, ⟨hkr, hr⟩, hlr⟩ := h
    refine ⟨fun x hx => hlr x hx k (Or.inl rfl), fun x hx => ?_, ihl hl, ihr hr⟩
    have := hkr x hx
    rw [stringCompare_swap] at this
    omega

theorem Tree.searchTree_of_ordered (t : Tree) (h : t.Ordered) : t.SearchTree :=
  t.searchTree_of_pairwise (t.ordered_iff_pairwise.1 h)

/-- Insertion as `insertElement_spec` describes it, for an ordered tree: the result is
ordered, every node before the new one has a key `≤ k` and every node after it a key
`> k`. -/
theorem insertElement_ordered {st : Mem} {s : Nat} {T : Tree} (k : List Int) (h : Rep st s T)
    (hrb : T.RedBlack) (hord : T.Ordered) :
    ∃ m st' T' l1 l2, (∀ fuel, m ≤ fuel → insertElement fuel st k s = some st') ∧ Rep st' s T' ∧
      T'.RedBlack ∧ T'.Ordered ∧ T.nodes = l1 ++ l2 ∧
      T'.nodes = l1 ++ (st.next, k.take length) :: l2 ∧
      (∀ x ∈ l1, stringCompare x.2 (k.take length) ≤ 0) ∧
      (∀ x ∈ l2, stringCompare (k.take length) x.2 < 0) ∧
      st'.next = st.next + 1 ∧ st'.rot ≤ st.rot + 2 := by
  obtain ⟨m, st', T', hrun, hrep, hrb', hn, hn', hnext, hrot⟩ := insertElement_spec k h hrb
  rw [Tree.ordered_iff_pairwise] at hord
  have hsplit := insPath_split (k.take length) T [] (by simpa using hord) (by simp [nodesBefore])
    (by simp [nodesAfter])
  refine ⟨m, st', T', _, _, hrun, hrep, hrb', ?_, hn, hn', hsplit.1, hsplit.2, hnext, hrot⟩
  rw [Tree.ordered_iff_pairwise, Tree.keys_eq_map, hn']
  rw [Tree.keys_eq_map, hn] at hord
  simp only [List.map_append, List.map_cons, List.pairwise_append, List.pairwise_cons,
    List.mem_map, List.mem_cons] at hord ⊢
  obtain ⟨h1, h2, h3⟩ := hord
  refine ⟨h1, ⟨?_, h2⟩, ?_⟩
  · rintro a ⟨x, hx, rfl⟩
    exact le_of_lt (hsplit.2 x hx)
  · rintro a ⟨x, hx, rfl⟩ b (rfl | hb)
    · exact hsplit.1 x hx
    · exact h3 _ ⟨x, hx, rfl⟩ b hb

/-- A sequence of insertions keeps the tree red-black and ordered. -/
theorem insertAll_spec (s : Nat) (ks : List (List Int)) :
    ∀ (st : Mem) (T : Tree), Rep st s T → T.RedBlack → T.Ordered →
      ∃ m st' T', (∀ fuel, m ≤ fuel → insertAll fuel st ks s = some st') ∧ Rep st' s T' ∧
        T'.RedBlack ∧ T'.Ordered ∧ T'.keys.length = T.keys.length + ks.length := by
  induction ks with
  | nil =>
    intro st T h hrb hord
    exact ⟨0, st, T, fun _ _ => rfl, h, hrb, hord, rfl⟩
  | cons k ks ih =>
    intro st T h hrb hord
    obtain ⟨m1, st1, T1, l1, l2, hrun1, hrep1, hrb1, hord1, hn, hn1, -, -, -, -⟩ :=
      insertElement_ordered k h hrb hord
    obtain ⟨m2, st2, T2, hrun2, hrep2, hrb2, hord2, hlen⟩ := ih st1 T1 hrep1 hrb1 hord1
    refine ⟨max m1 m2, st2, T2, ?_, hrep2, hrb2, hord2, ?_⟩
    · intro fuel hf
      simp only [insertAll, hrun1 fuel (le_trans (le_max_left _ _) hf)]
      exact hrun2 fuel (le_trans (le_max_right _ _) hf)
    · rw [hlen, Tree.keys_eq_map, Tree.keys_eq_map, hn, hn1]
      simp
      omega

/-! ## Insertion: the claims -/

/-- C1: on every memory that holds a tree with the red-black invariants (the empty tree
included) and for every key, `insertElement` returns, and afterwards the memory holds a
tree whose root is black, in which no red node has a red child, and in which every path
from the root down to the sentinel passes through the same number of black nodes. -/
theorem insertElement_keeps_redBlack (st : Mem) (s : Nat) (T : Tree) (k : List Int)
    (h : Rep st s T) (hrb : T.RedBlack) :
    ∃ fuel st' T', insertElement fuel st k s = some st' ∧ Rep st' s T' ∧
      T'.color = false ∧ T'.noRedRed ∧ T'.pathsEqual := by
  obtain ⟨m, st', T', hrun, hrep, hrb', -⟩ := insertElement_spec k h hrb
  exact ⟨m, st', T', hrun m (le_refl _), hrep, hrb'.1, hrb'.2.1, hrb'.2.2⟩

/-- Witness of C1: the word `banana` inserted into the empty tree. -/
theorem insertElement_keeps_redBlack_witness :
    Rep (emptyTree (blankMem [])).1 (emptyTree (blankMem [])).2 Tree.nil ∧ Tree.nil.RedBlack ∧
      ∃ fuel st' T',
        insertElement fuel (emptyTree (blankMem [])).1 banana (emptyTree (blankMem [])).2 =
          some st' ∧
        Rep st' (emptyTree (blankMem [])).2 T' ∧ T'.color = false ∧ T'.noRedRed ∧ T'.pathsEqual :=
  ⟨rep_emptyTree _, by decide,
    insertElement_keeps_redBlack _ _ _ banana (rep_emptyTree _) (by decide)⟩

/-- C2: for every sequence of keys and every prefix of it, inserting the keys of the
prefix one after the other into the empty tree returns, and the memory then holds a tree
with one node per inserted key whose in-order key sequence is non-decreasing under
`stringCompare`; the tree is a search tree: in every node the keys of the left subtree
compare `≤` the key of the node and the keys of the right subtree compare `≥` it. -/
theorem insertAll_ordered (m : Mem) (ks : List (List Int)) (n : Nat) :
    ∃ fuel st' T',
      insertAll fuel (emptyTree m).1 (ks.take n) (emptyTree m).2 = some st' ∧
      Rep st' (emptyTree m).2 T' ∧ T'.keys.length = (ks.take n).length ∧ T'.Ordered ∧
      T'.SearchTree := by
  obtain ⟨f, st', T', hrun, hrep, -, hord, hlen⟩ :=
    insertAll_spec (emptyTree m).2 (ks.take n) (emptyTree m).1 Tree.nil (rep_emptyTree m)
      (by decide) (by decide)
  exact ⟨f, st', T', hrun f (le_refl _), hrep, by simpa using hlen, hord,
    T'.searchTree_of_ordered hord⟩

/-- C7: on a memory holding an ordered red-black tree, `insertElement` of a key `k` of
`length` bytes returns and adds exactly one node, the freshly allocated one: the in-order
node sequence afterwards is the earlier one (all nodes and keys kept, in the same order)
with the new node put in, after every node whose key compares `≤ k` (so after all keys equal
to `k`) and before every node whose key compares `> k`. Inserting `k` once more adds a
second, different node that comes after the first in the in-order sequence. -/
theorem insertElement_adds_one (st : Mem) (s : Nat) (T : Tree) (k : List Int)
    (h : Rep st s T) (hrb : T.RedBlack) (hord : T.Ordered) (hk : k.length = length) :
    ∃ fuel st' T' l1 l2, insertElement fuel st k s = some st' ∧ Rep st' s T' ∧
      T.nodes = l1 ++ l2 ∧ T'.nodes = l1 ++ (st.next, k) :: l2 ∧ st.next ∉ T.addrs ∧
      (∀ x ∈ l1, stringCompare x.2 k ≤ 0) ∧ (∀ x ∈ l2, stringCompare k x.2 < 0) ∧
      ∃ fuel2 st2 T2 l3 l4, insertElement fuel2 st' k s = some st2 ∧ Rep st2 s T2 ∧
        T'.nodes = l3 ++ l4 ∧ T2.nodes = l3 ++ (st'.next, k) :: l4 ∧ (st.next, k) ∈ l3 ∧
        st'.next ≠ st.next := by
  have hkk : k.take length = k := by rw [← hk]; exact List.take_length k
  obtain ⟨m, st', T', l1, l2, hrun, hrep, hrb', hord', hn, hn', hl1, hl2, hnext, -⟩ :=
    insertElement_ordered k h hrb hord
  obtain ⟨m2, st2, T2, l3, l4, hrun2, hrep2, -, -, hn2, hn2', hl3, hl4, -, -⟩ :=
    insertElement_ordered k hrep hrb' hord'
  rw [hkk] at hn' hl1 hl2 hn2' hl3 hl4
  refine ⟨m, st', T', l1, l2, hrun m (le_refl _), hrep, hn, hn', ?_, hl1, hl2, m2, st2, T2, l3, l4,
    hrun2 m2 (le_refl _), hrep2, hn2, hn2', ?_, by omega⟩
  · intro hmem
    have := h.alloc _ hmem
    omega
  · have hmem : (st.next, k) ∈ l3 ++ l4 := by rw [← hn2, hn']; simp
    rcases List.mem_append.1 hmem with h3 | h4
    · exact h3
    · have := hl4 _ h4
      have e := stringCompare_swap k k
      simp only at this
      omega

/-- Witness of C7: the word `banana` inserted into the empty tree. -/
theorem insertElement_adds_one_witness :
    Rep (emptyTree (blankMem [])).1 (emptyTree (blankMem [])).2 Tree.nil ∧ Tree.nil.RedBlack ∧
      Tree.nil.Ordered ∧ banana.length = length ∧
      ∃ fuel st' T' l1 l2,
        insertElement fuel (emptyTree (blankMem [])).1 banana (emptyTree (blankMem [])).2 =
          some st' ∧
        Rep st' (emptyTree (blankMem [])).2 T' ∧
        Tree.nil.nodes = l1 ++ l2 ∧ T'.nodes = l1 ++ ((emptyTree (blankMem [])).1.next, banana) :: l2 ∧
        (emptyTree (blankMem [])).1.next ∉ Tree.nil.addrs ∧
        (∀ x ∈ l1, stringCompare x.2 banana ≤ 0) ∧ (∀ x ∈ l2, stringCompare banana x.2 < 0) ∧
        ∃ fuel2 st2 T2 l3 l4,
          insertElement fuel2 st' banana (emptyTree (blankMem [])).2 = some st2 ∧
          Rep st2 (emptyTree (blankMem [])).2 T2 ∧
          T'.nodes = l3 ++ l4 ∧ T2.nodes = l3 ++ (st'.next, banana) :: l4 ∧
          ((emptyTree (blankMem [])).1.next, banana) ∈ l3 ∧
          st'.next ≠ (emptyTree (blankMem [])).1.next :=
  ⟨rep_emptyTree _, by decide, by decide, by decide,
    insertElement_adds_one _ _ _ banana (rep_emptyTree _) (by decide) (by decide) (by decide)⟩

/-! ## The concrete scenario and the empty tree -/

/-- C8: the five words `banana, apple, cherry, egg, fig`, zero-padded, inserted in that
order into the empty tree give the traversal `apple, banana, cherry, egg, fig`; then
`reduceTree` leaves the traversal `banana, cherry, fig` (all three printed BLACK), and the
tree left in memory has three nodes, a black root, no red node with a red child and the
same number of black nodes on all paths. -/
theorem scenario_five_words :
    (scenarioInserted.bind (fun st => printTreeWithColours 8 st st.root 0)) =
        some [(apple, false), (banana, false), (cherry, true), (egg, false), (fig, true)] ∧
      (scenarioReduced.bind (fun st => printTreeWithColours 8 st st.root 0)) =
        some [(banana, false), (cherry, false), (fig, false)] ∧
      (scenarioReduced.bind (fun st => readTree 8 st st.root 0)) =
        some (Tree.node 3 false cherry (Tree.node 1 false banana Tree.nil Tree.nil)
          (Tree.node 5 false fig Tree.nil Tree.nil)) ∧
      (Tree.node 3 false cherry (Tree.node 1 false banana Tree.nil Tree.nil)
        (Tree.node 5 false fig Tree.nil Tree.nil)).RedBlack := by
  decide!

theorem EmptyVowel.of_emptyTree (g : List Int) (hg : isVowel (g.getD 0 0) = true) :
    EmptyVowel (emptyTree (blankMem g)).1 (emptyTree (blankMem g)).2 := by
  constructor
  case vowel => exact hg
  all_goals simp [emptyTree, initializeSentinel, Mem.malloc, blankMem]

/-- On an empty tree with a vowel behind the sentinel, `deleteNode` of the sentinel
either runs out of fuel or leaves such a memory again. -/
theorem deleteNode_emptyVowel (n : Nat) (st : Mem) (s : Nat) (h : EmptyVowel st s) :
    deleteNode n st s s = none ∨ ∃ st2, deleteNode n st s s = some st2 ∧ EmptyVowel st2 s := by
  cases n with
  | zero =>
    left
    simp [deleteNode, deleteUnlink, h.left, h.black, reparationRBtree]
  | succ n =>
    right
    refine ⟨(substituteSubtree st s s s).setColor s false, ?_, ?_⟩
    · simp only [deleteNode, deleteUnlink, h.left, h.right, h.black, if_true, reparationRBtree,
        substituteSubtree, h.up, Mem.setRoot, Mem.setFather, ne_eq, not_true_eq_false, false_and,
        if_false]
    · constructor
      case vowel => simpa [substituteSubtree, h.up] using h.vowel
      all_goals simp [substituteSubtree, h.left, h.right, h.up, h.black]

theorem reduceLoop_emptyVowel (n fuel : Nat) (st : Mem) (s : Nat) (h : EmptyVowel st s) :
    reduceLoop n fuel st s s s = none := by
  induction fuel generalizing st with
  | zero => rfl
  | succ fuel ih =>
    rw [reduceLoop]
    simp only [h.vowel, if_true]
    rcases deleteNode_emptyVowel n st s h with h0 | ⟨st2, h2, hv⟩
    · rw [h0]
    · rw [h2]
      cases n with
      | zero => simp [minimum]
      | succ n =>
        simp only [minimum, maximum, hv.root, hv.left, hv.right, ne_eq, not_true_eq_false,
          if_false]
        exact ih st2 hv

/-- On an empty tree with a vowel behind the sentinel, `reduceTree` never returns. -/
theorem reduceTree_emptyVowel (fuel : Nat) (st : Mem) (s : Nat) (h : EmptyVowel st s) :
    reduceTree fuel st s = none := by
  cases fuel with
  | zero => simp [reduceTree, minimum]
  | succ n =>
    simp only [reduceTree, minimum, maximum, h.root, h.left, h.right, ne_eq, not_true_eq_false,
      if_false]
    exact reduceLoop_emptyVowel _ _ st s h

/-- C9, the code at the failing input: on the freshly initialised empty tree, in a memory
where the byte read at `sentinel->key[0]` is `'a'`, `reduceTree` does not return for any
amount of fuel: it reads that byte, calls `deleteNode` on the sentinel, restarts from
`minimum(root)`, which is the sentinel again, and so on. -/
theorem reduceTree_empty_diverges (fuel : Nat) :
    reduceTree fuel (emptyTree (blankMem [97])).1 (emptyTree (blankMem [97])).2 = none :=
  reduceTree_emptyVowel fuel _ _ (EmptyVowel.of_emptyTree [97] (by decide))

/-- C10, the code at the failing input: on the freshly initialised empty tree the traversal
of `printTreeWithColours` emits one entry, made of the bytes `g` found behind the sentinel
record and the colour BLACK, while the tree in memory is `nil` and has no entry. -/
theorem printTreeWithColours_empty (g : List Int) (fuel : Nat) :
    printTreeWithColours (fuel + 1) (emptyTree (blankMem g)).1 (emptyTree (blankMem g)).1.root
        (emptyTree (blankMem g)).2 = some [(g, false)] ∧
      readTree (fuel + 1) (emptyTree (blankMem g)).1 (emptyTree (blankMem g)).1.root
        (emptyTree (blankMem g)).2 = some Tree.nil ∧
      Tree.nil.entries = [] := by
  simp [printTreeWithColours, printLoop, minimum, maximum, readTree, Tree.entries,
    emptyTree, initializeSentinel, Mem.malloc, blankMem]

/-! ## The cases of the loop of `reparationRBtree` -/

theorem Zip.rotateLeft_sentinel {st : Mem} {s : Nat} {fs : List Frame} {x y : Nat} {cx cy : Bool}
    {kx ky : List Int} {A B C : Tree}
    (h : Zip st s fs (Tree.node x cx kx A (Tree.node y cy ky B C))) :
    (leftRotation st x s).father s = st.father s := by
  obtain ⟨q1, q2, q3, q4, q5, q6, hbx, hby, hpx, hpy, hpb⟩ := h.rotateLeft_ptrs
  exact (leftRotation_fields st x s q1 q2 q3 q4 q5 q6 hbx hby hpx hpy hpb).2.2.2.2.2.1.1

theorem Zip.rotateRight_sentinel {st : Mem} {s : Nat} {fs : List Frame} {x y : Nat} {cx cy : Bool}
    {kx ky : List Int} {A B C : Tree}
    (h : Zip st s fs (Tree.node x cx kx (Tree.node y cy ky A B) C)) :
    (rightRotation st x s).father s = st.father s := by
  obtain ⟨q1, q2, q3, q4, q5, q6, hbx, hby, hpx, hpy, hpb⟩ := h.rotateRight_ptrs
  exact (rightRotation_fields st x s q1 q2 q3 q4 q5 q6 hbx hby hpx hpy hpb).2.2.2.2.2.1.1

/-- The `father` link of the position: for a node it is part of the representation, for
the sentinel it is kept by whatever keeps the `father` field of the sentinel. -/
theorem Zip.father_hole {st' : Mem} {s : Nat} {fs : List Frame} {x : Tree}
    (h' : Zip st' s fs x) (st : Mem) (hs : st'.father s = st.father s) (p : Nat)
    (hx : x = Tree.nil → st.father s = p) (hp : pathPtr s fs = p) :
    st'.father (x.ptr s) = p := by
  cases x with
  | nil => simpa [hs] using hx rfl
  | node a c k l r => simpa [hp] using h'.father_ptr

/-- Red sibling on the right: recolouring and a left rotation at the father. -/
theorem reparationLeftRed_red {st : Mem} {s : Nat} {fs : List Frame} {p w : Nat}
    {kp kw : List Int} {x wl wr : Tree}
    (h : Zip st s fs (Tree.node p false kp x (Tree.node w true kw wl wr)))
    (hx : st.father (x.ptr s) = p) :
    ∃ st1, reparationLeftRed st (x.ptr s) s w = (st1, wl.ptr s) ∧
      Zip st1 s fs (Tree.node w false kw (Tree.node p true kp x wl) wr) ∧
      st1.father (x.ptr s) = p ∧ st1.next = st.next ∧ st1.rot = st.rot + 1 := by
  have ht := h.tree
  simp only [treeAt_node, Tree.ptr_node] at ht
  obtain ⟨p1, p2, p3, p4, p5, hxt, w1, w2, w3, w4, w5, hwl, hwr⟩ := ht
  have h2 := (h.down_right.setColor false).up_right.setColor true
  have h3 := h2.rotateLeft
  have hf3 : (leftRotation (((st.setColor w false).setColor p true)) p s).father (x.ptr s) = p := by
    refine h3.down_left.down_left.father_hole st ?_ p ?_ rfl
    · rw [h2.rotateLeft_sentinel]; rfl
    · intro e; simpa [e] using hx
  have hs3 : (leftRotation (((st.setColor w false).setColor p true)) p s).son_r p = wl.ptr s := by
    have := h3.down_left.tree
    simp only [treeAt_node] at this
    exact this.2.2.1
  refine ⟨_, ?_, h3, hf3, by simp, by simp⟩
  simp only [reparationLeftRed, w4, if_true, Mem.setColor_father, hx, hf3, hs3]

/-- Black sibling: the first block does nothing. -/
theorem reparationLeftRed_black {st : Mem} {s : Nat} (nodo : Nat) {fs : List Frame} {p : Nat}
    {cp : Bool} {kp : List Int} {x W : Tree} (h : Zip st s fs (Tree.node p cp kp x W)) (hW : W.color = false) :
    reparationLeftRed st nodo s (W.ptr s) = (st, W.ptr s) := by
  have ht := h.tree
  simp only [treeAt_node, Tree.ptr_node] at ht
  have hc : st.color (W.ptr s) = false := (ht.2.2.2.2.2.2.color_ptr h.sentinel_color).trans hW
  simp [reparationLeftRed, hc]

/-- Black sibling with two black children: the sibling becomes red and the position moves
up to the father. -/
theorem reparationLeftBlack_both {st : Mem} {s : Nat} {fs : List Frame} {p w : Nat} {cp : Bool}
    {kp kw : List Int} {x wl wr : Tree}
    (h : Zip st s fs (Tree.node p cp kp x (Tree.node w false kw wl wr)))
    (hx : st.father (x.ptr s) = p) (hl : wl.color = false) (hr : wr.color = false) :
    ∃ st1, reparationLeftBlack st (x.ptr s) s w = (st1, p) ∧
      Zip st1 s fs (Tree.node p cp kp x (Tree.node w true kw wl wr)) ∧
      st1.father s = st.father s ∧ st1.next = st.next ∧ st1.rot = st.rot := by
  have ht := h.tree
  simp only [treeAt_node, Tree.ptr_node] at ht
  obtain ⟨p1, p2, p3, p4, p5, hxt, w1, w2, w3, w4, w5, hwl, hwr⟩ := ht
  have hcl : st.color (wl.ptr s) = false := (hwl.color_ptr h.sentinel_color).trans hl
  have hcr : st.color (wr.ptr s) = false := (hwr.color_ptr h.sentinel_color).trans hr
  refine ⟨st.setColor w true, ?_, (h.down_right.setColor true).up_right, rfl, rfl, rfl⟩
  simp [reparationLeftBlack, w2, w3, hcl, hcr, hx]

/-- Black sibling with a red far child: recolouring and a left rotation at the father;
the loop ends. -/
theorem reparationLeftBlack_far {st : Mem} {s : Nat} {fs : List Frame} {p w r : Nat} {cp : Bool}
    {kp kw kr : List Int} {x wl c d : Tree}
    (h : Zip st s fs (Tree.node p cp kp x (Tree.node w false kw wl (Tree.node r true kr c d))))
    (hx : st.father (x.ptr s) = p) :
    ∃ st1, reparationLeftBlack st (x.ptr s) s w = (st1, st1.root) ∧
      Zip st1 s fs (Tree.node w cp kw (Tree.node p false kp x wl) (Tree.node r false kr c d)) ∧
      st1.next = st.next ∧ st1.rot = st.rot + 1 := by
  have ht := h.tree
  simp only [treeAt_node, Tree.ptr_node] at ht
  obtain ⟨p1, p2, p3, p4, p5, hxt, w1, w2, w3, w4, w5, hwl, r1, r2, r3, r4, r5, hc, hd⟩ := ht
  have h1 := ((h.down_right.setColor cp).up_right.setColor false)
  have h2 := (h1.down_right.down_right.setColor false).up_right.up_right
  refine ⟨_, ?_, h2.rotateLeft, by simp, by simp⟩
  simp [reparationLeftBlack, w2, w3, r4, hx, p4]

/-- Black sibling with a red near child and a black far child: a right rotation at the
sibling, then the case of a red far child; the loop ends. -/
theorem reparationLeftBlack_near {st : Mem} {s : Nat} {fs : List Frame} {p w l : Nat} {cp : Bool}
    {kp kw kl : List Int} {x a b wr : Tree}
    (h : Zip st s fs (Tree.node p cp kp x (Tree.node w false kw (Tree.node l true kl a b) wr)))
    (hx : st.father (x.ptr s) = p) (hr : wr.color = false) :
    ∃ st1, reparationLeftBlack st (x.ptr s) s w = (st1, st1.root) ∧
      Zip st1 s fs (Tree.node l cp kl (Tree.node p false kp x a) (Tree.node w false kw b wr)) ∧
      st1.next = st.next ∧ st1.rot = st.rot + 2 := by
  have ht := h.tree
  simp only [treeAt_node, Tree.ptr_node] at ht
  obtain ⟨p1, p2, p3, p4, p5, hxt, w1, w2, w3, w4, w5, ⟨l1, l2, l3, l4, l5, ha, hb⟩, hwr⟩ := ht
  have hcr : st.color (wr.ptr s) = false := (hwr.color_ptr h.sentinel_color).trans hr
  -- the rotation at the sibling
  have h1 := (h.down_right.down_left.setColor false).up_left.setColor true
  have h2 := h1.rotateRight
  have h3 := h2.up_right
  have hf3 : (rightRotation ((st.setColor l false).setColor w true) w s).father (x.ptr s) = p := by
    refine h3.down_left.father_hole st ?_ p ?_ rfl
    · rw [h1.rotateRight_sentinel]; rfl
    · intro e; simpa [e] using hx
  have ht3 := h3.tree
  simp only [treeAt_node, Tree.ptr_node] at ht3
  obtain ⟨q1, q2, q3, q4, q5, -, m1, m2, m3, m4, m5, -, n1, n2, n3, n4, n5, -, -⟩ := ht3
  -- the rotation at the father
  have h4 := ((h3.down_right.setColor cp).up_right.setColor false)
  have h5 := (h4.down_right.down_right.setColor false).up_right.up_right
  refine ⟨_, ?_, h5.rotateLeft, by simp, by simp⟩
  simp [reparationLeftBlack, w2, w3, l4, hcr, hx, hf3, q3, q4, m3]

/-- Red sibling on the left: recolouring and a right rotation at the father. -/
theorem reparationRightRed_red {st : Mem} {s : Nat} {fs : List Frame} {p w : Nat}
    {kp kw : List Int} {x wl wr : Tree}
    (h : Zip st s fs (Tree.node p false kp (Tree.node w true kw wl wr) x))
    (hx : st.father (x.ptr s) = p) :
    ∃ st1, reparationRightRed st (x.ptr s) s w = (st1, wr.ptr s) ∧
      Zip st1 s fs (Tree.node w false kw wl (Tree.node p true kp wr x)) ∧
      st1.father (x.ptr s) = p ∧ st1.next = st.next ∧ st1.rot = st.rot + 1 := by
  have ht := h.tree
  simp only [treeAt_node, Tree.ptr_node] at ht
  obtain ⟨p1, p2, p3, p4, p5, ⟨w1, w2, w3, w4, w5, hwl, hwr⟩, hxt⟩ := ht
  have h2 := (h.down_left.setColor false).up_left.setColor true
  have h3 := h2.rotateRight
  have hf3 : (rightRotation (((st.setColor w false).setColor p true)) p s).father (x.ptr s) = p := by
    refine h3.down_right.down_right.father_hole st ?_ p ?_ rfl
    · rw [h2.rotateRight_sentinel]; rfl
    · intro e; simpa [e] using hx
  have hs3 : (rightRotation (((st.setColor w false).setColor p true)) p s).son_l p = wr.ptr s := by
    have := h3.down_right.tree
    simp only [treeAt_node] at this
    exact this.2.1
  refine ⟨_, ?_, h3, hf3, by simp, by simp⟩
  simp only [reparationRightRed, w4, if_true, Mem.setColor_father, hx, hf3, hs3]

/-- Black sibling: the first block does nothing. -/
theorem reparationRightRed_black {st : Mem} {s : Nat} (nodo : Nat) {fs : List Frame} {p : Nat}
    {cp : Bool} {kp : List Int} {x W : Tree} (h : Zip st s fs (Tree.node p cp kp W x))
    (hW : W.color = false) :
    reparationRightRed st nodo s (W.ptr s) = (st, W.ptr s) := by
  have ht := h.tree
  simp only [treeAt_node, Tree.ptr_node] at ht
  have hc : st.color (W.ptr s) = false := (ht.2.2.2.2.2.1.color_ptr h.sentinel_color).trans hW
  simp [reparationRightRed, hc]

/-- Black sibling with two black children: the sibling becomes red and the position moves
up to the father. -/
theorem reparationRightBlack_both {st : Mem} {s : Nat} {fs : List Frame} {p w : Nat} {cp : Bool}
    {kp kw : List Int} {x wl wr : Tree}
    (h : Zip st s fs (Tree.node p cp kp (Tree.node w false kw wl wr) x))
    (hx : st.father (x.ptr s) = p) (hl : wl.color = false) (hr : wr.color = false) :
    ∃ st1, reparationRightBlack st (x.ptr s) s w = (st1, p) ∧
      Zip st1 s fs (Tree.node p cp kp (Tree.node w true kw wl wr) x) ∧
      st1.father s = st.father s ∧ st1.next = st.next ∧ st1.rot = st.rot := by
  have ht := h.tree
  simp only [treeAt_node, Tree.ptr_node] at ht
  obtain ⟨p1, p2, p3, p4, p5, ⟨w1, w2, w3, w4, w5, hwl, hwr⟩, hxt⟩ := ht
  have hcl : st.color (wl.ptr s) = false := (hwl.color_ptr h.sentinel_color).trans hl
  have hcr : st.color (wr.ptr s) = false := (hwr.color_ptr h.sentinel_color).trans hr
  refine ⟨st.setColor w true, ?_, (h.down_left.setColor true).up_left, rfl, rfl, rfl⟩
  simp [reparationRightBlack, w2, w3, hcl, hcr, hx]

/-- Black sibling with a red far child: recolouring and a right rotation at the father;
the loop ends. -/
theorem reparationRightBlack_far {st : Mem} {s : Nat} {fs : List Frame} {p w r : Nat} {cp : Bool}
    {kp kw kr : List Int} {x wr c d : Tree}
    (h : Zip st s fs (Tree.node p cp kp (Tree.node w false kw (Tree.node r true kr c d) wr) x))
    (hx : st.father (x.ptr s) = p) :
    ∃ st1, reparationRightBlack st (x.ptr s) s w = (st1, st1.root) ∧
      Zip st1 s fs (Tree.node w cp kw (Tree.node r false kr c d) (Tree.node p false kp wr x)) ∧
      st1.next = st.next ∧ st1.rot = st.rot + 1 := by
  have ht := h.tree
  simp only [treeAt_node, Tree.ptr_node] at ht
  obtain ⟨p1, p2, p3, p4, p5, ⟨w1, w2, w3, w4, w5, ⟨r1, r2, r3, r4, r5, hc, hd⟩, hwr⟩, hxt⟩ := ht
  have h1 := ((h.down_left.setColor cp).up_left.setColor false)
  have h2 := (h1.down_left.down_left.setColor false).up_left.up_left
  refine ⟨_, ?_, h2.rotateRight, by simp, by simp⟩
  simp [reparationRightBlack, w2, w3, r4, hx, p4]

/-- Black sibling with a red near child and a black far child: a left rotation at the
sibling, then the case of a red far child; the loop ends. -/
theorem reparationRightBlack_near {st : Mem} {s : Nat} {fs : List Frame} {p w l : Nat}
    {cp : Bool} {kp kw kl : List Int} {x a b wl : Tree}
    (h : Zip st s fs (Tree.node p cp kp (Tree.node w false kw wl (Tree.node l true kl a b)) x))
    (hx : st.father (x.ptr s) = p) (hl : wl.color = false) :
    ∃ st1, reparationRightBlack st (x.ptr s) s w = (st1, st1.root) ∧
      Zip st1 s fs (Tree.node l cp kl (Tree.node w false kw wl a) (Tree.node p false kp b x)) ∧
      st1.next = st.next ∧ st1.rot = st.rot + 2 := by
  have ht := h.tree
  simp only [treeAt_node, Tree.ptr_node] at ht
  obtain ⟨p1, p2, p3, p4, p5, ⟨w1, w2, w3, w4, w5, hwl, l1, l2, l3, l4, l5, ha, hb⟩, hxt⟩ := ht
  have hcl : st.color (wl.ptr s) = false := (hwl.color_ptr h.sentinel_color).trans hl
  -- the rotation at the sibling
  have h1 := (h.down_left.down_right.setColor false).up_right.setColor true
  have h2 := h1.rotateLeft
  have h3 := h2.up_left
  have hf3 : (leftRotation ((st.setColor l false).setColor w true) w s).father (x.ptr s) = p := by
    refine h3.down_right.father_hole st ?_ p ?_ rfl
    · rw [h1.rotateLeft_sentinel]; rfl
    · intro e; simpa [e] using hx
  have ht3 := h3.tree
  simp only [treeAt_node, Tree.ptr_node] at ht3
  obtain ⟨q1, q2, q3, q4, q5, ⟨m1, m2, m3, m4, m5, ⟨n1, n2, n3, n4, n5, -, -⟩, -⟩, -⟩ := ht3
  -- the rotation at the father
  have h4 := ((h3.down_left.setColor cp).up_left.setColor false)
  have h5 := (h4.down_left.down_left.setColor false).up_left.up_left
  refine ⟨_, ?_, h5.rotateRight, by simp, by simp⟩
  simp [reparationRightBlack, w2, w3, l4, hcl, hx, hf3, q2, q4, m2]

/-! ## The loop of `reparationRBtree` -/

theorem reparationStep_left {st : Mem} {s : Nat} {fs : List Frame} {p w : Nat} {cp cw : Bool}
    {kp kw : List Int} {x wl wr : Tree}
    (h : Zip st s fs (Tree.node p cp kp x (Tree.node w cw kw wl wr)))
    (hx : st.father (x.ptr s) = p) :
    reparationStep st (x.ptr s) s =
      reparationLeftBlack (reparationLeftRed st (x.ptr s) s w).1 (x.ptr s) s
        (reparationLeftRed st (x.ptr s) s w).2 := by
  have ht := h.tree
  simp only [treeAt_node, Tree.ptr_node] at ht
  simp [reparationStep, hx, ht.2.1, ht.2.2.1]

theorem reparationStep_right {st : Mem} {s : Nat} {fs : List Frame} {p w : Nat} {cp cw : Bool}
    {kp kw : List Int} {x wl wr : Tree}
    (h : Zip st s fs (Tree.node p cp kp (Tree.node w cw kw wl wr) x))
    (hx : st.father (x.ptr s) = p) :
    reparationStep st (x.ptr s) s =
      reparationRightBlack (reparationRightRed st (x.ptr s) s w).1 (x.ptr s) s
        (reparationRightRed st (x.ptr s) s w).2 := by
  have ht := h.tree
  have hnd := h.nodup
  have hs := h.sentinel_not_mem
  simp only [treeAt_node, Tree.ptr_node] at ht
  simp only [Tree.addrs_node, List.append_assoc, List.cons_append, List.nodup_append,
    List.nodup_cons, List.mem_append, List.mem_cons, not_or] at hnd hs
  have hne : x.ptr s ≠ w := Tree.ptr_ne x (by omega) (by tauto)
  simp [reparationStep, hx, ht.2.1, ht.2.2.1, hne]

theorem rootPtr_mem (fs : List Frame) (f : Frame) (x : Nat) :
    rootPtr (f :: fs) x ∈ pathAddrs (f :: fs) := by
  induction fs generalizing f x with
  | nil => simp
  | cons g fs ih =>
    have := ih g f.addr
    simp only [rootPtr_cons, pathAddrs_cons, List.mem_cons, List.mem_append] at this ⊢
    tauto

/-- Below the root the position is not the root, and its colour in memory is the colour of
the subtree there. -/
theorem Zip.loop_condition {st : Mem} {s : Nat} {f : Frame} {fs : List Frame} {x : Tree}
    (h : Zip st s (f :: fs) x) : x.ptr s ≠ st.root ∧ st.color (x.ptr s) = x.color := by
  refine ⟨?_, h.tree.color_ptr h.sentinel_color⟩
  rw [h.root]
  have hmem := rootPtr_mem fs f (x.ptr s)
  have hnd := h.nodup
  have hs := h.sentinel_not_mem
  rw [List.nodup_append] at hnd
  rw [List.mem_append, not_or] at hs
  have := Tree.ptr_not_mem x hs.2 (fun a ha => hnd.2.2 ha)
  intro e
  exact this (e ▸ hmem)

theorem reparationRBtree_fuel {st st1 st' : Mem} {s nodo z1 m : Nat}
    (hc : nodo ≠ st.root ∧ st.color nodo = false) (hstep : reparationStep st nodo s = (st1, z1))
    (hrest : ∀ fuel, m ≤ fuel → reparationRBtree fuel st1 z1 s = some st') :
    ∀ fuel, m + 1 ≤ fuel → reparationRBtree fuel st nodo s = some st' := by
  intro fuel hf
  obtain ⟨k, rfl⟩ := Nat.exists_eq_add_of_le' hf
  rw [show k + (m + 1) = (k + m) + 1 from rfl]
  simp only [reparationRBtree, hc, ne_eq, not_false_eq_true, and_self, if_true, hstep]
  exact hrest _ (by omega)

/-- Colouring the node at the position black; at a sentinel position nothing changes. -/
theorem Zip.blackenNode {st : Mem} {s : Nat} {fs : List Frame} {x : Tree} (h : Zip st s fs x) :
    Zip (st.setColor (x.ptr s) false) s fs x.blacken := by
  cases x with
  | node a c k l r => exact h.setColor false
  | nil =>
    have hs := h.sentinel_not_mem
    simp only [Tree.addrs_nil, List.nil_append] at hs
    refine ⟨h.root, h.path.agreePath (fun a ha => ?_), trivial, h.nodup, h.sentinel_not_mem,
      h.sentinel_alloc, h.alloc, by simp, h.sentinel_left, h.sentinel_right⟩
    have : a ≠ s := fun e => hs (e ▸ ha)
    simp [Function.update_noteq this]

theorem Tree.blacken_balanced (t : Tree) (h : t.balanced) : t.blacken.balanced := by
  cases t with
  | nil => trivial
  | node a c k l r => simpa using h

theorem Tree.blacken_color (t : Tree) : t.blacken.color = false := by
  cases t <;> rfl

/-- The loop ends at the root or at a red node, which is coloured black. -/
theorem reparationRBtree_finish {st : Mem} {s : Nat} {fs : List Frame} {x : Tree}
    (h : Zip st s fs x) (hc : fs = [] ∨ x.color = true) (h1 : x.blacken.noRedRed)
    (h2 : x.balanced) (h3 : PathBal fs x.blacken.bh) (h4 : PathNoRR fs)
    (h5 : rootColor fs false = false) :
    ∃ st' T, (∀ fuel, 1 ≤ fuel → reparationRBtree fuel st (x.ptr s) s = some st') ∧ Rep st' s T ∧
      T.RedBlack ∧ T.nodes = (plug fs x).nodes ∧ st'.next = st.next ∧ st'.rot = st.rot := by
  refine ⟨st.setColor (x.ptr s) false, plug fs x.blacken, ?_, h.blackenNode.rep, ?_,
    nodes_plug_congr fs (Tree.blacken_nodes x), rfl, rfl⟩
  · intro fuel hf
    obtain ⟨k, rfl⟩ := Nat.exists_eq_add_of_le' hf
    have hcond : ¬ (x.ptr s ≠ st.root ∧ st.color (x.ptr s) = false) := by
      rcases hc with rfl | hc
      · have := h.root
        simp only [rootPtr_nil] at this
        simp [this]
      · have := h.tree.color_ptr h.sentinel_color
        simp [this, hc]
    simp only [reparationRBtree, hcond, if_false]
  · rw [Tree.redBlack_iff, color_plug, noRedRed_plug, balanced_plug]
    exact ⟨by rw [Tree.blacken_color]; exact h5, ⟨h1, h4, fun _ => Tree.blacken_color x⟩,
      Tree.blacken_balanced x h2, h3⟩

/-- After the cases that set `nodo = root` the loop ends and the root is coloured black. -/
theorem reparationRBtree_finish_root {st : Mem} {s : Nat} {T : Tree}
    (h : Rep st s T) (h1 : T.noRedRed) (h2 : T.balanced) :
    ∃ st', (∀ fuel, 1 ≤ fuel → reparationRBtree fuel st st.root s = some st') ∧
      Rep st' s T.blacken ∧ T.blacken.RedBlack ∧ st'.next = st.next ∧ st'.rot = st.rot := by
  refine ⟨st.setColor st.root false, ?_, h.blacken, Tree.blacken_redBlack T h1 h2, rfl, rfl⟩
  intro fuel hf
  obtain ⟨k, rfl⟩ := Nat.exists_eq_add_of_le' hf
  simp [reparationRBtree]

theorem Tree.node_of_bh_pos {t : Tree} {n : Nat} (h : t.bh = n + 1) :
    ∃ a c k l r, t = Tree.node a c k l r := by
  cases t with
  | nil => simp at h
  | node a c k l r => exact ⟨a, c, k, l, r, rfl⟩

theorem rootColor_false {fs : List Frame} {c : Bool} (h : rootColor fs c = false) :
    rootColor fs false = false := by
  cases fs with
  | nil => rfl
  | cons f fs => exact h

/-- A last iteration that sets `nodo = root`: the loop ends in the next test. -/
theorem reparationRBtree_last {st st1 : Mem} {s nodo : Nat} {fs : List Frame} {t1 : Tree}
    (hc : nodo ≠ st.root ∧ st.color nodo = false)
    (hstep : reparationStep st nodo s = (st1, st1.root)) (hz1 : Zip st1 s fs t1)
    (hnr : t1.noRedRed) (hpc : pathColor fs = true → t1.color = false) (hbal : t1.balanced)
    (hpn : PathNoRR fs) (hpb : PathBal fs t1.bh) (hn : st1.next = st.next)
    (hr : st1.rot ≤ st.rot + 3) :
    ∃ m st' T, (∀ fuel, m ≤ fuel → reparationRBtree fuel st nodo s = some st') ∧
      Rep st' s T ∧ T.RedBlack ∧ T.nodes = (plug fs t1).nodes ∧
      st'.next = st.next ∧ st'.rot ≤ st.rot + 3 := by
  obtain ⟨st', hrun, hrep, hrb, hn2, hr2⟩ := reparationRBtree_finish_root hz1.rep
    (by rw [noRedRed_plug]; exact ⟨hnr, hpn, hpc⟩) (by rw [balanced_plug]; exact ⟨hbal, hpb⟩)
  exact ⟨1 + 1, st', _, reparationRBtree_fuel hc hstep hrun, hrep, hrb, Tree.blacken_nodes _,
    by omega, by omega⟩

/-- An iteration that moves to a red father: the loop ends in the next test and the father
is coloured black. -/
theorem reparationRBtree_then_red {st st1 : Mem} {s nodo p : Nat} {fs : List Frame}
    {kp : List Int} {l r : Tree}
    (hc : nodo ≠ st.root ∧ st.color nodo = false)
    (hstep : reparationStep st nodo s = (st1, p)) (hz1 : Zip st1 s fs (Tree.node p true kp l r))
    (hnr : (Tree.node p false kp l r).noRedRed) (hbal : (Tree.node p false kp l r).balanced)
    (hpn : PathNoRR fs) (hpb : PathBal fs (Tree.node p false kp l r).bh)
    (hroot : rootColor fs false = false) (hn : st1.next = st.next) (hr : st1.rot ≤ st.rot + 3) :
    ∃ m st' T, (∀ fuel, m ≤ fuel → reparationRBtree fuel st nodo s = some st') ∧
      Rep st' s T ∧ T.RedBlack ∧ T.nodes = (plug fs (Tree.node p true kp l r)).nodes ∧
      st'.next = st.next ∧ st'.rot ≤ st.rot + 3 := by
  obtain ⟨st', T, hrun, hrep, hrb, hnodes, hn2, hr2⟩ :=
    reparationRBtree_finish hz1 (Or.inr rfl) hnr hbal hpb hpn hroot
  exact ⟨1 + 1, st', T, reparationRBtree_fuel hc hstep hrun, hrep, hrb, hnodes, by omega,
    by omega⟩

/-- The loop of `reparationRBtree`, started at a position whose subtree is one black node
short, in a tree that satisfies the invariants otherwise, ends and leaves a red-black tree
with the same in-order nodes; it rotates at most three times. -/
theorem reparationRBtree_spec (s : Nat) (n : Nat) :
    ∀ (fs : List Frame) (st : Mem) (x : Tree),
      fs.length ≤ n →
      Zip st s fs x → st.father (x.ptr s) = pathPtr s fs →
      x.blacken.noRedRed → x.balanced → PathNoRR fs → PathBal fs (x.bh + 1) →
      rootColor fs false = false →
      ∃ m st' T, (∀ fuel, m ≤ fuel → reparationRBtree fuel st (x.ptr s) s = some st') ∧
        Rep st' s T ∧ T.RedBlack ∧ T.nodes = (plug fs x).nodes ∧
        st'.next = st.next ∧ st'.rot ≤ st.rot + 3 := by
  induction n using Nat.strong_induction_on with
  | _ n ih =>
  intro fs st x hlen h hx hnr hbal hpn hpb hroot
  -- at the root, or at a red node: the loop ends at once
  by_cases hc : fs = [] ∨ x.color = true
  · obtain ⟨st', T, h1, h2, h3, h4, h5, h6⟩ := reparationRBtree_finish h hc hnr hbal
      (by
        rcases hc with rfl | hc
        · trivial
        · rcases x with _ | ⟨a, c, k, l, r⟩
          · simp at hc
          · simp only [Tree.color_node] at hc
            subst hc
            simpa using hpb) hpn hroot
    exact ⟨1, st', T, h1, h2, h3, h4, h5, by omega⟩
  simp only [not_or, Bool.not_eq_true] at hc
  obtain ⟨hne, hxc⟩ := hc
  rcases fs with _ | ⟨f, fs⟩
  · exact absurd rfl hne
  have hnr' : x.noRedRed := by rw [← Tree.blacken_of_black x hxc]; exact hnr
  have hcond := h.loop_condition
  rw [hxc] at hcond
  simp only [List.length_cons] at hlen
  simp only [pathNoRR_cons] at hpn
  simp only [pathBal_cons] at hpb
  obtain ⟨hfs, hfimp, hpn'⟩ := hpn
  obtain ⟨hfb, hfh, hpb'⟩ := hpb
  rcases f with ⟨p, cp, kp, W⟩ | ⟨p, cp, kp, W⟩
  · -- the position is a left child
    simp only [Frame.sibling_left, Frame.color_left, pathPtr_cons, Frame.addr_left, rootColor_cons]
      at hfs hfimp hfb hfh hpb' hx hroot
    obtain ⟨w, cw, kw, wl, wr, rfl⟩ := Tree.node_of_bh_pos hfh
    have h' := h.up_left
    have hstep := reparationStep_left h' hx
    simp only [Tree.noRedRed_node, Tree.balanced_node, Tree.bh_node, Tree.color_node]
      at hfs hfb hfh hfimp
    cases cw
    · -- black sibling
      have e0 := reparationLeftRed_black (x.ptr s) (W := Tree.node w false kw wl wr) h' rfl
      simp only [Tree.ptr_node] at e0
      rw [e0] at hstep
      simp only at hstep
      simp only [Bool.false_eq_true, if_false] at hfh
      cases hwr : wr.color
      · cases hwl : wl.color
        · -- both children of the sibling black: move up
          obtain ⟨st1, e1, hz1, hf1, hn1, hr1⟩ := reparationLeftBlack_both h' hx hwl hwr
          rw [e1] at hstep
          obtain ⟨m, st', T, hrun, hrep, hrb, hnodes, hn2, hr2⟩ :=
            ih fs.length (by omega) fs st1 _ (le_refl _) hz1 hz1.father_ptr
              (by simp [hnr', hfs, hwl, hwr]) (by simp [hbal, hfb]; omega) hpn'
              (by simpa [add_right_comm] using hpb') (rootColor_false hroot)
          exact ⟨m + 1, st', T, reparationRBtree_fuel hcond hstep hrun, hrep, hrb,
            by rw [hnodes]; exact nodes_plug_congr fs (by simp), by omega, by omega⟩
        · -- red near child, black far child
          rcases wl with _ | ⟨l, cl, kl, a, b⟩
          · simp at hwl
          simp only [Tree.color_node] at hwl
          subst hwl
          obtain ⟨st1, e1, hz1, hn1, hr1⟩ := reparationLeftBlack_near h' hx hwr
          rw [e1] at hstep
          simp only [Tree.noRedRed_node, Tree.balanced_node, Tree.bh_node, Tree.color_node,
            if_true, add_zero] at hfs hfb hfh
          obtain ⟨m, st', T, hrun, hrep, hrb, hnodes, hn2, hr2⟩ :=
            reparationRBtree_last hcond hstep hz1 (by simp [hnr', hfs, hwr, hxc])
              (by
              intro e
              simp only [Tree.color_node]
              by_contra hcp
              simp only [Bool.not_eq_false] at hcp
              have := (hfimp hcp).2
              simp [e] at this)
              (by simp [hbal, hfb]; omega) hpn' (by simpa [add_right_comm] using hpb')
              hn1 (by omega)
          exact ⟨m, st', T, hrun, hrep, hrb,
            by rw [hnodes]; exact nodes_plug_congr fs (by simp), hn2, hr2⟩
      · -- red far child
        rcases wr with _ | ⟨r, cr, kr, c, d⟩
        · simp at hwr
        simp only [Tree.color_node] at hwr
        subst hwr
        obtain ⟨st1, e1, hz1, hn1, hr1⟩ := reparationLeftBlack_far h' hx
        rw [e1] at hstep
        simp only [Tree.noRedRed_node, Tree.balanced_node, Tree.bh_node, Tree.color_node,
          if_true, add_zero] at hfs hfb hfh
        obtain ⟨m, st', T, hrun, hrep, hrb, hnodes, hn2, hr2⟩ :=
          reparationRBtree_last hcond hstep hz1 (by simp [hnr', hfs, hxc])
            (by
              intro e
              simp only [Tree.color_node]
              by_contra hcp
              simp only [Bool.not_eq_false] at hcp
              have := (hfimp hcp).2
              simp [e] at this)
            (by simp [hbal, hfb]; omega) hpn' (by simpa [add_right_comm] using hpb')
            hn1 (by omega)
        exact ⟨m, st', T, hrun, hrep, hrb,
          by rw [hnodes]; exact nodes_plug_congr fs (by simp), hn2, hr2⟩
    · -- red sibling: the father is black, the children of the sibling are black nodes
      have hcp : cp = false := by
        by_contra hcp
        simp only [Bool.not_eq_false] at hcp
        simpa using (hfimp hcp).1
      subst hcp
      simp only [if_true, add_zero, true_implies, Bool.false_eq_true, if_false] at hfs hfh hpb'
      obtain ⟨⟨hwlc, hwrc⟩, hwln, hwrn⟩ := hfs
      obtain ⟨hwlr, hwlb, hwrb⟩ := hfb
      obtain ⟨st1, e1, hz1, hf1, hn1, hr1⟩ := reparationLeftRed_red h' hx
      rw [e1] at hstep
      simp only at hstep
      obtain ⟨wa, ca, ka, wll, wlr, rfl⟩ := Tree.node_of_bh_pos hfh
      simp only [Tree.color_node] at hwlc
      subst hwlc
      simp only [Tree.ptr_node] at hstep
      simp only [Tree.noRedRed_node, Tree.balanced_node, Tree.bh_node, Tree.color_node,
        Bool.false_eq_true, if_false, false_implies, true_and] at hwln hwlb hfh hwlr
      have h1' := hz1.down_left
      have hpn1 : PathNoRR (Frame.left w false kw wr :: fs) := by simp [hwrn, hpn']
      cases hc2 : wlr.color
      · cases hc1 : wll.color
        · -- both black: the father turns black in the next test
          obtain ⟨st2, e2, hz2, hf2, hn2, hr2⟩ := reparationLeftBlack_both h1' hf1 hc1 hc2
          rw [e2] at hstep
          obtain ⟨m, st', T, hrun, hrep, hrb, hnodes, hn3, hr3⟩ :=
            reparationRBtree_then_red hcond hstep hz2 (by simp [hnr', hwln, hc1, hc2])
              (by simp [hbal, hwlb]; omega) hpn1
              (by simp [hwrb]; exact ⟨by omega, hpb'⟩) (by simpa using hroot)
              (by omega) (by omega)
          exact ⟨m, st', T, hrun, hrep, hrb,
            by rw [hnodes]; simp only [plug_cons, Frame.fill_left]; exact nodes_plug_congr fs (by simp),
            hn3, hr3⟩
        · -- red near child
          rcases wll with _ | ⟨l, cl, kl, a, b⟩
          · simp at hc1
          simp only [Tree.color_node] at hc1
          subst hc1
          obtain ⟨st2, e2, hz2, hn2, hr2⟩ := reparationLeftBlack_near h1' hf1 hc2
          rw [e2] at hstep
          simp only [Tree.noRedRed_node, Tree.balanced_node, Tree.bh_node, Tree.color_node,
            if_true, add_zero] at hwln hwlb hfh hwlr
          obtain ⟨m, st', T, hrun, hrep, hrb, hnodes, hn3, hr3⟩ :=
            reparationRBtree_last hcond hstep hz2 (by simp [hnr', hwln, hc2, hxc])
              (by simp) (by simp [hbal, hwlb]; omega) hpn1
              (by simp [hwrb]; exact ⟨by omega, hpb'⟩) (by omega) (by omega)
          exact ⟨m, st', T, hrun, hrep, hrb,
            by rw [hnodes]; simp only [plug_cons, Frame.fill_left]; exact nodes_plug_congr fs (by simp),
            hn3, hr3⟩
      · -- red far child
        rcases wlr with _ | ⟨r, cr, kr, c, d⟩
        · simp at hc2
        simp only [Tree.color_node] at hc2
        subst hc2
        obtain ⟨st2, e2, hz2, hn2, hr2⟩ := reparationLeftBlack_far h1' hf1
        rw [e2] at hstep
        simp only [Tree.noRedRed_node, Tree.balanced_node, Tree.bh_node, Tree.color_node,
          if_true, add_zero] at hwln hwlb hfh hwlr
        obtain ⟨m, st', T, hrun, hrep, hrb, hnodes, hn3, hr3⟩ :=
          reparationRBtree_last hcond hstep hz2 (by simp [hnr', hwln, hxc])
            (by simp) (by simp [hbal, hwlb]; omega) hpn1
            (by simp [hwrb]; exact ⟨by omega, hpb'⟩) (by omega) (by omega)
        exact ⟨m, st', T, hrun, hrep, hrb,
          by rw [hnodes]; simp only [plug_cons, Frame.fill_left]; exact nodes_plug_congr fs (by simp),
          hn3, hr3⟩
  · -- the position is a right child
    simp only [Frame.sibling_right, Frame.color_right, pathPtr_cons, Frame.addr_right,
      rootColor_cons] at hfs hfimp hfb hfh hpb' hx hroot
    obtain ⟨w, cw, kw, wl, wr, rfl⟩ := Tree.node_of_bh_pos hfh
    have h' := h.up_right
    have hstep := reparationStep_right h' hx
    simp only [Tree.noRedRed_node, Tree.balanced_node, Tree.bh_node, Tree.color_node]
      at hfs hfb hfh hfimp
    cases cw
    · -- black sibling
      have e0 := reparationRightRed_black (x.ptr s) (W := Tree.node w false kw wl wr) h' rfl
      simp only [Tree.ptr_node] at e0
      rw [e0] at hstep
      simp only at hstep
      simp only [Bool.false_eq_true, if_false] at hfh
      cases hwl : wl.color
      · cases hwr : wr.color
        · -- both children of the sibling black: move up
          obtain ⟨st1, e1, hz1, hf1, hn1, hr1⟩ := reparationRightBlack_both h' hx hwl hwr
          rw [e1] at hstep
          obtain ⟨m, st', T, hrun, hrep, hrb, hnodes, hn2, hr2⟩ :=
            ih fs.length (by omega) fs st1 _ (le_refl _) hz1 hz1.father_ptr
              (by simp [hnr', hfs, hwl, hwr]) (by simp [hbal, hfb]; omega) hpn'
              (by
                have e : wl.bh = x.bh := by omega
                simpa [add_right_comm, e] using hpb') (rootColor_false hroot)
          exact ⟨m + 1, st', T, reparationRBtree_fuel hcond hstep hrun, hrep, hrb,
            by rw [hnodes]; exact nodes_plug_congr fs (by simp), by omega, by omega⟩
        · -- red near child, black far child
          rcases wr with _ | ⟨l, cl, kl, a, b⟩
          · simp at hwr
          simp only [Tree.color_node] at hwr
          subst hwr
          obtain ⟨st1, e1, hz1, hn1, hr1⟩ := reparationRightBlack_near h' hx hwl
          rw [e1] at hstep
          simp only [Tree.noRedRed_node, Tree.balanced_node, Tree.bh_node, Tree.color_node,
            if_true, add_zero] at hfs hfb hfh
          obtain ⟨m, st', T, hrun, hrep, hrb, hnodes, hn2, hr2⟩ :=
            reparationRBtree_last hcond hstep hz1 (by simp [hnr', hfs, hwl, hxc])
              (by
                intro e
                simp only [Tree.color_node]
                by_contra hcp
                simp only [Bool.not_eq_false] at hcp
                have := (hfimp hcp).2
                simp [e] at this)
              (by simp [hbal, hfb]; omega) hpn'
              (by
                have e : wl.bh = x.bh := by omega
                simpa [add_right_comm, e] using hpb')
              hn1 (by omega)
          exact ⟨m, st', T, hrun, hrep, hrb,
            by rw [hnodes]; exact nodes_plug_congr fs (by simp), hn2, hr2⟩
      · -- red far child
        rcases wl with _ | ⟨r, cr, kr, c, d⟩
        · simp at hwl
        simp only [Tree.color_node] at hwl
        subst hwl
        obtain ⟨st1, e1, hz1, hn1, hr1⟩ := reparationRightBlack_far h' hx
        rw [e1] at hstep
        simp only [Tree.noRedRed_node, Tree.balanced_node, Tree.bh_node, Tree.color_node,
          if_true, add_zero] at hfs hfb hfh
        obtain ⟨m, st', T, hrun, hrep, hrb, hnodes, hn2, hr2⟩ :=
          reparationRBtree_last hcond hstep hz1 (by simp [hnr', hfs, hxc])
            (by
              intro e
              simp only [Tree.color_node]
              by_contra hcp
              simp only [Bool.not_eq_false] at hcp
              have := (hfimp hcp).2
              simp [e] at this)
            (by simp [hbal, hfb]; omega) hpn'
            (by
              have e : c.bh = x.bh := by omega
              simpa [add_right_comm, e] using hpb')
            hn1 (by omega)
        exact ⟨m, st', T, hrun, hrep, hrb,
          by rw [hnodes]; exact nodes_plug_congr fs (by simp), hn2, hr2⟩
    · -- red sibling: the father is black, the children of the sibling are black nodes
      have hcp : cp = false := by
        by_contra hcp
        simp only [Bool.not_eq_false] at hcp
        simpa using (hfimp hcp).1
      subst hcp
      simp only [if_true, add_zero, true_implies, Bool.false_eq_true, if_false] at hfs hfh hpb'
      obtain ⟨⟨hwlc, hwrc⟩, hwln, hwrn⟩ := hfs
      obtain ⟨hwlr, hwlb, hwrb⟩ := hfb
      obtain ⟨st1, e1, hz1, hf1, hn1, hr1⟩ := reparationRightRed_red h' hx
      rw [e1] at hstep
      simp only at hstep
      have hfh' : wr.bh = x.bh + 1 := by omega
      obtain ⟨wa, ca, ka, wrl, wrr, rfl⟩ := Tree.node_of_bh_pos hfh'
      simp only [Tree.color_node] at hwrc
      subst hwrc
      simp only [Tree.ptr_node] at hstep
      simp only [Tree.noRedRed_node, Tree.balanced_node, Tree.bh_node, Tree.color_node,
        Bool.false_eq_true, if_false, false_implies, true_and] at hwrn hwrb hfh' hwlr
      have h1' := hz1.down_right
      have hpn1 : PathNoRR (Frame.right w false kw wl :: fs) := by simp [hwln, hpn']
      have hpb1 : PathBal fs (wrl.bh + 1 + 1) := by
        have e : wrl.bh = x.bh := by omega
        rw [e]; exact hpb'
      cases hc2 : wrl.color
      · cases hc1 : wrr.color
        · -- both black: the father turns black in the next test
          obtain ⟨st2, e2, hz2, hf2, hn2, hr2⟩ := reparationRightBlack_both h1' hf1 hc2 hc1
          rw [e2] at hstep
          obtain ⟨m, st', T, hrun, hrep, hrb, hnodes, hn3, hr3⟩ :=
            reparationRBtree_then_red hcond hstep hz2 (by simp [hnr', hwrn, hc1, hc2])
              (by simp [hbal, hwrb]; omega) hpn1
              (by simp [hwlb]; exact ⟨by omega, hpb1⟩) (by simpa using hroot)
              (by omega) (by omega)
          exact ⟨m, st', T, hrun, hrep, hrb,
            by rw [hnodes]; simp only [plug_cons, Frame.fill_right]; exact nodes_plug_congr fs (by simp),
            hn3, hr3⟩
        · -- red near child
          rcases wrr with _ | ⟨l, cl, kl, a, b⟩
          · simp at hc1
          simp only [Tree.color_node] at hc1
          subst hc1
          obtain ⟨st2, e2, hz2, hn2, hr2⟩ := reparationRightBlack_near h1' hf1 hc2
          rw [e2] at hstep
          simp only [Tree.noRedRed_node, Tree.balanced_node, Tree.bh_node, Tree.color_node,
            if_true, add_zero] at hwrn hwrb hfh' hwlr
          obtain ⟨m, st', T, hrun, hrep, hrb, hnodes, hn3, hr3⟩ :=
            reparationRBtree_last hcond hstep hz2 (by simp [hnr', hwrn, hc2, hxc])
              (by simp) (by simp [hbal, hwrb]; omega) hpn1
              (by simp [hwlb]; exact ⟨by omega, hpb1⟩) (by omega) (by omega)
          exact ⟨m, st', T, hrun, hrep, hrb,
            by rw [hnodes]; simp only [plug_cons, Frame.fill_right]; exact nodes_plug_congr fs (by simp),
            hn3, hr3⟩
      · -- red far child
        rcases wrl with _ | ⟨r, cr, kr, c, d⟩
        · simp at hc2
        simp only [Tree.color_node] at hc2
        subst hc2
        obtain ⟨st2, e2, hz2, hn2, hr2⟩ := reparationRightBlack_far h1' hf1
        rw [e2] at hstep
        simp only [Tree.noRedRed_node, Tree.balanced_node, Tree.bh_node, Tree.color_node,
          if_true, add_zero] at hwrn hwrb hfh' hwlr hpb1
        obtain ⟨m, st', T, hrun, hrep, hrb, hnodes, hn3, hr3⟩ :=
          reparationRBtree_last hcond hstep hz2 (by simp [hnr', hwrn, hxc])
            (by simp) (by simp [hbal, hwrb]; omega) hpn1
            (by simp [hwlb]; exact ⟨by omega, hpb1⟩) (by omega) (by omega)
        exact ⟨m, st', T, hrun, hrep, hrb,
          by rw [hnodes]; simp only [plug_cons, Frame.fill_right]; exact nodes_plug_congr fs (by simp),
          hn3, hr3⟩

/-! ## Unlinking a node: `substituteSubtree` and `deleteNode` -/

/-- Frame of `substituteSubtree`: only the records of the father of `node1` and of `node2`
are written. -/
theorem substituteSubtree_agree (st : Mem) (n v s : Nat) :
    ∀ a, a ∉ [st.father n, v] →
      (substituteSubtree st n v s).father a = st.father a ∧
      (substituteSubtree st n v s).son_l a = st.son_l a ∧
      (substituteSubtree st n v s).son_r a = st.son_r a ∧
      (substituteSubtree st n v s).color a = st.color a ∧
      (substituteSubtree st n v s).key a = st.key a := by
  intro a ha
  simp only [List.mem_cons, List.mem_singleton, not_or, List.not_mem_nil, or_false] at ha
  obtain ⟨h1, h2⟩ := ha
  simp only [substituteSubtree]
  split_ifs <;> simp [Function.update_apply, h1, h2]

@[simp] theorem substituteSubtree_next (st : Mem) (n v s : Nat) :
    (substituteSubtree st n v s).next = st.next := by
  simp only [substituteSubtree]
  split_ifs <;> rfl

@[simp] theorem substituteSubtree_rot (st : Mem) (n v s : Nat) :
    (substituteSubtree st n v s).rot = st.rot := by
  simp only [substituteSubtree]
  split_ifs <;> rfl

@[simp] theorem substituteSubtree_key (st : Mem) (n v s : Nat) :
    (substituteSubtree st n v s).key = st.key := by
  simp only [substituteSubtree]
  split_ifs <;> rfl

@[simp] theorem substituteSubtree_color (st : Mem) (n v s : Nat) :
    (substituteSubtree st n v s).color = st.color := by
  simp only [substituteSubtree]
  split_ifs <;> rfl

@[simp] theorem substituteSubtree_father (st : Mem) (n v s : Nat) :
    (substituteSubtree st n v s).father = Function.update st.father v (st.father n) := by
  simp only [substituteSubtree]
  split_ifs <;> rfl

/-- The link from above after `substituteSubtree`: the path around the position of `n`
now holds `v` there. -/
theorem PathAt.substitute {st : Mem} {s n v : Nat} {fs : List Frame}
    (hp : PathAt st s n fs) (hroot : st.root = rootPtr fs n) (hf : st.father n = pathPtr s fs)
    (hnd : (pathAddrs fs).Nodup) (hs : s ∉ pathAddrs fs) (hn : n ∉ pathAddrs fs) (hns : n ≠ s)
    (hv : v ∉ pathAddrs fs) :
    PathAt (substituteSubtree st n v s) s v fs ∧
      (substituteSubtree st n v s).root = rootPtr fs v ∧
      (substituteSubtree st n v s).son_l s = st.son_l s ∧
      (substituteSubtree st n v s).son_r s = st.son_r s := by
  have hag := substituteSubtree_agree st n v s
  rw [hf] at hag
  rcases fs with _ | ⟨⟨p, cp, kp, R⟩ | ⟨p, cp, kp, L⟩, fs⟩
  · simp [substituteSubtree, hf]
  all_goals
    simp only [pathAddrs_cons, Frame.addr_left, Frame.addr_right, Frame.sibling_left,
      Frame.sibling_right, List.nodup_cons, List.mem_cons, List.mem_append, not_or,
      List.nodup_append] at hnd hs hn hv
    simp only [pathAt_left, pathAt_right, pathPtr_cons, Frame.addr_left, Frame.addr_right,
      rootPtr_cons] at hp hf hroot hag ⊢
    obtain ⟨p1, p2, p3, p4, p5, hR, hP⟩ := hp
    have hps : p ≠ s := by omega
    have hpv : p ≠ v := by omega
  · refine ⟨⟨?_, ?_, ?_, ?_, ?_, hR.agree (agree_of_disjoint hag (two_not_mem ?_ ?_)),
      hP.agreePath (agree_of_disjoint hag (two_not_mem ?_ ?_))⟩, ?_, ?_, ?_⟩
    all_goals first | tauto | simp [substituteSubtree, hf, hps, hpv, p1, p2, p3, p4, p5, hroot,
      Ne.symm hps]
  · have hne : n ≠ L.ptr s := (Tree.ptr_ne L (Ne.symm hns) (by tauto)).symm
    refine ⟨⟨?_, ?_, ?_, ?_, ?_, hR.agree (agree_of_disjoint hag (two_not_mem ?_ ?_)),
      hP.agreePath (agree_of_disjoint hag (two_not_mem ?_ ?_))⟩, ?_, ?_, ?_⟩
    all_goals first | tauto | simp [substituteSubtree, hf, hps, hpv, p1, p2, p3, p4, p5, hroot,
      Ne.symm hps, hne]

/-- A subtree hung below a new father by writing the `father` field of its root; for the
empty subtree this writes the `father` field of the sentinel. -/
theorem TreeAt.reparent {st st' : Mem} {s p q : Nat} {t : Tree} (h : TreeAt st s p t)
    (hnd : t.addrs.Nodup)
    (hf : st'.father (t.ptr s) = q)
    (hag : ∀ a ∈ t.addrs, (a ≠ t.ptr s → st'.father a = st.father a) ∧
      st'.son_l a = st.son_l a ∧ st'.son_r a = st.son_r a ∧ st'.color a = st.color a ∧
      st'.key a = st.key a) :
    TreeAt st' s q t := by
  cases t with
  | nil => trivial
  | node a c k l r =>
    simp only [treeAt_node, Tree.ptr_node, Tree.addrs_node, List.nodup_append, List.nodup_cons,
      List.mem_append, List.mem_cons] at h hf hnd hag ⊢
    obtain ⟨h1, h2, h3, h4, h5, hl, hr⟩ := h
    obtain ⟨g1, g2, g3, g4, g5⟩ := hag a (Or.inr (Or.inl rfl))
    refine ⟨hf, g2.trans h2, g3.trans h3, g4.trans h4, g5.trans h5, ?_, ?_⟩
    · refine hl.agree (fun b hb => ?_)
      obtain ⟨b1, b2⟩ := hag b (Or.inl hb)
      have hne : b ≠ a := fun e => hnd.2.2 hb (by simp [e])
      exact ⟨b1 hne, b2⟩
    · refine hr.agree (fun b hb => ?_)
      obtain ⟨b1, b2⟩ := hag b (Or.inr (Or.inr hb))
      have hne : b ≠ a := fun e => hnd.2.1.1 (e ▸ hb)
      exact ⟨b1 hne, b2⟩

theorem substituteSubtree_sons (st : Mem) (n v s a : Nat) (ha : a ≠ st.father n) :
    (substituteSubtree st n v s).son_l a = st.son_l a ∧
      (substituteSubtree st n v s).son_r a = st.son_r a := by
  simp only [substituteSubtree]
  split_ifs <;> simp [Function.update_apply, ha]

/-- Splicing out a node with at most one real child: `substituteSubtree` of the node by
its child `X` (or by the sentinel) leaves `X` at the position of the node. -/
theorem Zip.splice {st : Mem} {s : Nat} {fs : List Frame} {n : Nat} {c : Bool} {k : List Int}
    {L R X : Tree} (h : Zip st s fs (Tree.node n c k L R))
    (hX : (L = Tree.nil ∧ X = R) ∨ (R = Tree.nil ∧ X = L)) :
    Zip (substituteSubtree st n (X.ptr s) s) s fs X ∧
      (substituteSubtree st n (X.ptr s) s).father (X.ptr s) = pathPtr s fs := by
  have hnd := h.nodup
  have hs := h.sentinel_not_mem
  have hal := h.alloc
  have ht := h.tree
  simp only [treeAt_node] at ht
  obtain ⟨t1, t2, t3, t4, t5, hL, hR⟩ := ht
  have hXt : TreeAt st s n X := by
    rcases hX with ⟨-, rfl⟩ | ⟨-, rfl⟩
    · exact hR
    · exact hL
  have hsub : ∀ a, a ∈ X.addrs ++ pathAddrs fs →
      a ∈ (Tree.node n c k L R).addrs ++ pathAddrs fs := by
    intro a ha
    rcases hX with ⟨-, rfl⟩ | ⟨-, rfl⟩ <;>
      simp only [Tree.addrs_node, List.mem_append, List.mem_cons] at ha ⊢ <;> tauto
  have hnX : n ∉ X.addrs ++ pathAddrs fs := by
    simp only [Tree.addrs_node, List.append_assoc, List.cons_append, List.nodup_append,
      List.nodup_cons, List.mem_append, List.mem_cons, not_or] at hnd
    rcases hX with ⟨rfl, rfl⟩ | ⟨rfl, rfl⟩ <;> simp only [List.mem_append, not_or] <;> tauto
  have hndX : (X.addrs ++ pathAddrs fs).Nodup := by
    refine hnd.sublist ?_
    rcases hX with ⟨rfl, rfl⟩ | ⟨rfl, rfl⟩
    · simp
    · simp only [Tree.addrs_node, Tree.addrs_nil, List.append_assoc]
      exact List.Sublist.append_left (List.sublist_cons_self _ _) _
  have hsX : s ∉ X.addrs ++ pathAddrs fs := fun hm => hs (hsub s hm)
  rw [List.nodup_append] at hndX
  rw [List.mem_append, not_or] at hsX hnX
  have hns : n ≠ s := by
    intro e
    exact hs (by simp [e])
  have hv : X.ptr s ∉ pathAddrs fs := Tree.ptr_not_mem X hsX.2 (fun a ha => hndX.2.2 ha)
  obtain ⟨hp', hroot', hsl, hsr⟩ :=
    PathAt.substitute (v := X.ptr s) h.path h.root t1 hndX.2.1 hsX.2 hnX.2 hns hv
  have hpX : pathPtr s fs ∉ X.addrs :=
    pathPtr_not_mem fs hsX.1 (fun a ha hx => hndX.2.2 hx ha)
  refine ⟨⟨hroot', hp', ?_, List.nodup_append.2 hndX, fun hm => hs (hsub s hm), ?_, ?_, ?_,
    hsl.trans h.sentinel_left, hsr.trans h.sentinel_right⟩, by simp [t1]⟩
  · refine hXt.reparent hndX.1 (by simp [t1]) (fun a ha => ?_)
    have hap : a ≠ st.father n := by rw [t1]; exact fun e => hpX (e ▸ ha)
    have := substituteSubtree_sons st n (X.ptr s) s a hap
    refine ⟨fun hne => ?_, this.1, this.2, by simp, by simp⟩
    simp [Function.update_noteq hne]
  · simpa using h.sentinel_alloc
  · intro a ha
    simpa using hal a (hsub a ha)
  · simpa using h.sentinel_color

/-- The last part of `deleteNode` for a node `n` with two children: the node `y`, whose
right subtree `Rn` is in place already, takes the position, the left subtree and the
colour of `n`. -/
theorem replace_node {st : Mem} {s : Nat} {fs : List Frame} {n y l : Nat} {c cl : Bool}
    {kl : List Int} {La Lb Rn : Tree}
    (hpath : PathAt st s n fs) (hroot : st.root = rootPtr fs n)
    (hfn : st.father n = pathPtr s fs) (hln : st.son_l n = l)
    (hL : TreeAt st s n (Tree.node l cl kl La Lb)) (hR : TreeAt st s y Rn)
    (hry : st.son_r y = Rn.ptr s)
    (hnd : ((Tree.node y c (st.key y) (Tree.node l cl kl La Lb) Rn).addrs ++ pathAddrs fs).Nodup)
    (hs : s ∉ (Tree.node y c (st.key y) (Tree.node l cl kl La Lb) Rn).addrs ++ pathAddrs fs)
    (hn : n ∉ (Tree.node y c (st.key y) (Tree.node l cl kl La Lb) Rn).addrs ++ pathAddrs fs)
    (hns : n ≠ s) (hsa : s < st.next)
    (hal : ∀ a ∈ (Tree.node y c (st.key y) (Tree.node l cl kl La Lb) Rn).addrs ++ pathAddrs fs,
      a < st.next)
    (hsc : st.color s = false) (hsl : st.son_l s = s) (hsr : st.son_r s = s) :
    Zip ((((substituteSubtree st n y s).setSonL y l).setFather l y).setColor y c) s fs
        (Tree.node y c (st.key y) (Tree.node l cl kl La Lb) Rn) ∧
      ((((substituteSubtree st n y s).setSonL y l).setFather l y).setColor y c).father s =
        st.father s := by
  have hnd0 := hnd
  simp only [Tree.addrs_node, List.append_assoc, List.cons_append, List.nodup_append,
    List.nodup_cons, List.mem_append, List.mem_cons, not_or, List.disjoint_cons_right,
    List.disjoint_append_right, List.disjoint_cons_left, List.disjoint_append_left] at hnd hs hn
  obtain ⟨hp', hroot', hsl', hsr'⟩ :=
    PathAt.substitute (v := y) hpath hroot hfn (by tauto) (by tauto) (by tauto) hns (by tauto)
  have hys : y ≠ s := by omega
  have hls : l ≠ s := by omega
  have hly : l ≠ y := by omega
  have hpy : pathPtr s fs ≠ y := pathPtr_ne fs (by omega) (by tauto)
  have hpl : pathPtr s fs ≠ l := pathPtr_ne fs (by omega) (by tauto)
  have hsons : ∀ a, a ≠ pathPtr s fs →
      (substituteSubtree st n y s).son_l a = st.son_l a ∧
      (substituteSubtree st n y s).son_r a = st.son_r a := by
    intro a ha
    exact substituteSubtree_sons st n y s a (by rw [hfn]; exact ha)
  have hag : ∀ a, a ∉ [y, l, pathPtr s fs] →
      ((((substituteSubtree st n y s).setSonL y l).setFather l y).setColor y c).father a =
        st.father a ∧
      ((((substituteSubtree st n y s).setSonL y l).setFather l y).setColor y c).son_l a =
        st.son_l a ∧
      ((((substituteSubtree st n y s).setSonL y l).setFather l y).setColor y c).son_r a =
        st.son_r a ∧
      ((((substituteSubtree st n y s).setSonL y l).setFather l y).setColor y c).color a =
        st.color a ∧
      ((((substituteSubtree st n y s).setSonL y l).setFather l y).setColor y c).key a =
        st.key a := by
    intro a ha
    simp only [List.mem_cons, List.mem_singleton, not_or, List.not_mem_nil, or_false] at ha
    obtain ⟨a1, a2, a3⟩ := ha
    have := hsons a a3
    simp [Function.update_apply, a1, a2, this]
  have three : ∀ {m : List Nat}, y ∉ m → l ∉ m → pathPtr s fs ∉ m →
      ∀ z ∈ [y, l, pathPtr s fs], z ∉ m := by
    intro m h1 h2 h3 z hz
    simp only [List.mem_cons, List.mem_singleton, List.not_mem_nil, or_false] at hz
    rcases hz with rfl | rfl | rfl <;> assumption
  simp only [treeAt_node, Tree.ptr_node] at hL
  obtain ⟨l1, l2, l3, l4, l5, hLa, hLb⟩ := hL
  refine ⟨⟨by simpa using hroot', ?_, ?_, hnd0, by simpa using hs, by simpa using hsa, ?_, ?_, ?_,
    ?_⟩, ?_⟩
  · refine hp'.agreePath (fun a ha => ?_)
    have h1 : a ≠ y := fun e => by subst e; tauto
    have h2 : a ≠ l := fun e => by subst e; tauto
    simp [Function.update_apply, h1, h2]
  · simp only [treeAt_node, Tree.ptr_node]
    have hy := hsons y hpy.symm
    have hl := hsons l hpl.symm
    refine ⟨?_, ?_, ?_, ?_, ?_, ⟨?_, ?_, ?_, ?_, ?_, ?_, ?_⟩, ?_⟩
    · simp [Function.update_apply, hly.symm, hfn]
    · simp
    · simp [hy.2, hry]
    · simp
    · simp
    · simp
    · simp [Function.update_apply, hly, hl.1, l2]
    · simp [hl.2, l3]
    · simp [Function.update_apply, hly, l4]
    · simp [l5]
    · exact hLa.agree (agree_of_disjoint hag (three (by tauto) (by tauto)
        (pathPtr_not_mem fs (by tauto) (fun a ha hb => hnd.2.2.2.2.2.2 hb ha))))
    · exact hLb.agree (agree_of_disjoint hag (three (by tauto) (by tauto)
        (pathPtr_not_mem fs (by tauto) (fun a ha hb => hnd.2.1.2.2.2.2.2 hb ha))))
    · exact hR.agree (agree_of_disjoint hag (three (by tauto) (by tauto)
        (pathPtr_not_mem fs (by tauto) (fun a ha hb => hnd.2.1.2.2.1.2.2.2 hb ha))))
  · intro a ha
    simpa using hal a ha
  · simp [Function.update_apply, hys.symm, hsc]
  · simp [Function.update_apply, hys.symm, hsl', hsl]
  · simp [hsr', hsr]
  · simp [Function.update_apply, hls.symm, hys.symm]

/-! ## Deletion: the pure part -/

theorem plug_append (fs gs : List Frame) (t : Tree) : plug (fs ++ gs) t = plug gs (plug fs t) := by
  induction fs generalizing t with
  | nil => rfl
  | cons f fs ih => simp [ih]

theorem nodesAfter_append (fs gs : List Frame) :
    nodesAfter (fs ++ gs) = nodesAfter fs ++ nodesAfter gs := by
  induction fs with
  | nil => simp [nodesAfter]
  | cons f fs ih => cases f <;> simp [nodesAfter, ih]

/-- A path that only goes left has nothing before its position. -/
theorem nodesBefore_append_left (fs gs : List Frame)
    (hl : ∀ f ∈ fs, ∃ a c k r, f = Frame.left a c k r) :
    nodesBefore (fs ++ gs) = nodesBefore gs := by
  induction fs with
  | nil => rfl
  | cons f fs ih =>
    obtain ⟨a, c, k, r, rfl⟩ := hl f (by simp)
    simpa [nodesBefore] using ih (fun f hf => hl f (by simp [hf]))

/-- The invariants of a path depend only on the colours and the siblings of its
frames. -/
theorem path_invariants_congr (f g : Frame) (hc : f.color = g.color)
    (hsib : f.sibling = g.sibling) (sp fs : List Frame) :
    (∀ m, PathBal (sp ++ f :: fs) m ↔ PathBal (sp ++ g :: fs) m) ∧
      (PathNoRR (sp ++ f :: fs) ↔ PathNoRR (sp ++ g :: fs)) ∧
      pathColor (sp ++ f :: fs) = pathColor (sp ++ g :: fs) ∧
      (∀ c, rootColor (sp ++ f :: fs) c = rootColor (sp ++ g :: fs) c) := by
  induction sp with
  | nil => simp [hc, hsib]
  | cons e sp ih =>
    obtain ⟨h1, h2, h3, h4⟩ := ih
    refine ⟨fun m => ?_, ?_, rfl, fun c => ?_⟩
    · simp [h1]
    · simp [h2, h3]
    · simp [h4]

theorem Tree.blacken_noRedRed (t : Tree) (h : t.noRedRed) : t.blacken.noRedRed := by
  cases t with
  | nil => trivial
  | node a c k l r =>
    simp only [Tree.noRedRed_node, Tree.blacken_node] at h ⊢
    exact ⟨by simp, h.2⟩

/-- What is left of the red-black invariants when a node with at most one real child is
spliced out and replaced by its child `X`: everything but the black height of the
position, which is one short when the node was black. -/
theorem splice_invariants (fs : List Frame) (a : Nat) (c : Bool) (k : List Int) (L R X : Tree)
    (hX : (L = Tree.nil ∧ X = R) ∨ (R = Tree.nil ∧ X = L))
    (h : (plug fs (Tree.node a c k L R)).RedBlack) :
    X.noRedRed ∧ X.balanced ∧ PathNoRR fs ∧ PathBal fs (X.bh + if c then 0 else 1) ∧
      rootColor fs false = false ∧ (c = true → X.color = false ∧ rootColor fs X.color = false) := by
  rw [Tree.redBlack_iff, color_plug, noRedRed_plug, balanced_plug] at h
  obtain ⟨h1, ⟨h2, h3, h4⟩, h5, h6⟩ := h
  simp only [Tree.noRedRed_node, Tree.balanced_node, Tree.bh_node, Tree.color_node] at h1 h2 h4 h5 h6
  have hr := rootColor_false h1
  rcases hX with ⟨rfl, rfl⟩ | ⟨rfl, rfl⟩
  · simp only [Tree.bh_nil] at h5 h6
    refine ⟨h2.2.2, h5.2.2, h3, by rw [← h5.1]; exact h6, hr, fun hc => ⟨(h2.1 hc).2, ?_⟩⟩
    cases fs with
    | nil => simp [hc] at h1
    | cons f fs => exact h1
  · simp only [Tree.bh_nil] at h5
    refine ⟨h2.2.1, h5.2.1, h3, h6, hr, fun hc => ⟨(h2.1 hc).1, ?_⟩⟩
    cases fs with
    | nil => simp [hc] at h1
    | cons f fs => exact h1

/-- The invariants of `splice_invariants` with nothing missing give a red-black tree. -/
theorem redBlack_of_parts (fs : List Frame) (X : Tree) (h1 : X.noRedRed) (h2 : X.balanced)
    (h3 : PathNoRR fs) (h4 : PathBal fs X.bh) (h5 : X.color = false)
    (h6 : rootColor fs X.color = false) : (plug fs X).RedBlack := by
  rw [Tree.redBlack_iff, color_plug, noRedRed_plug, balanced_plug]
  exact ⟨h6, ⟨h1, h3, fun _ => h5⟩, h2, h4⟩

/-- `minimum` on a tree held in memory returns the node at the end of the left spine. -/
theorem minimum_spec {st : Mem} {s : Nat} : ∀ (R : Tree) (p a : Nat) (c : Bool) (k : List Int)
    (l r : Tree), R = Tree.node a c k l r → TreeAt st s p R → s ∉ R.addrs →
    ∃ spine y cy yr m, (∀ f ∈ spine, ∃ a c k r, f = Frame.left a c k r) ∧
      R = plug spine (Tree.node y cy (st.key y) Tree.nil yr) ∧
      ∀ fuel, m ≤ fuel → minimum fuel st a s = some y := by
  intro R
  induction R with
  | nil => intro p a c k l r h; cases h
  | node a0 c0 k0 l0 r0 ihl _ =>
    intro p a c k l r h ht hs
    cases h
    simp only [treeAt_node] at ht
    obtain ⟨t1, t2, t3, t4, t5, hL, hR⟩ := ht
    cases l0 with
    | nil =>
      refine ⟨[], a0, c0, r0, 1, by simp, by simp [t5], fun fuel hf => ?_⟩
      obtain ⟨j, rfl⟩ := Nat.exists_eq_add_of_le' hf
      simp [minimum, t2]
    | node la lc lk ll lr =>
      have hs' : s ∉ (Tree.node la lc lk ll lr).addrs := by
        intro hm
        exact hs (by simp only [Tree.addrs_node, List.mem_append] at hm ⊢; tauto)
      obtain ⟨sp, y, cy, yr, m, h1, h2, h3⟩ := ihl a0 la lc lk ll lr rfl hL hs'
      refine ⟨sp ++ [Frame.left a0 c0 k0 r0], y, cy, yr, m + 1, ?_, ?_, fun fuel hf => ?_⟩
      · intro f hf
        rcases List.mem_append.1 hf with hf | hf
        · exact h1 f hf
        · exact ⟨a0, c0, k0, r0, by simpa using hf⟩
      · rw [plug_append, ← h2]; rfl
      · obtain ⟨j, rfl⟩ := Nat.exists_eq_add_of_le' hf
        have hne : la ≠ s := by
          intro e
          exact hs' (by simp [e])
        rw [show j + (m + 1) = (j + m) + 1 from rfl]
        simp only [minimum, t2, Tree.ptr_node, ne_eq, hne, not_false_eq_true, if_true]
        exact h3 _ (by omega)

theorem replace_node_father (st : Mem) (n y s l a : Nat) (c : Bool) (h1 : a ≠ y) (h2 : a ≠ l) :
    ((((substituteSubtree st n y s).setSonL y l).setFather l y).setColor y c).father a =
      st.father a := by
  simp [Function.update_apply, h1, h2]

/-- Unlinking a node with two children whose successor `y` is its right child. -/
theorem unlink_child {st : Mem} {s : Nat} {fs : List Frame} {n l y : Nat} {c cl cy : Bool}
    {k kl ky : List Int} {La Lb yr : Tree}
    (h : Zip st s fs
      (Tree.node n c k (Tree.node l cl kl La Lb) (Tree.node y cy ky Tree.nil yr))) :
    Zip ((((substituteSubtree (st.setFather (yr.ptr s) y) n y s).setSonL y l).setFather
        l y).setColor y c) s (Frame.right y c ky (Tree.node l cl kl La Lb) :: fs) yr ∧
      ((((substituteSubtree (st.setFather (yr.ptr s) y) n y s).setSonL y l).setFather
        l y).setColor y c).father (yr.ptr s) = y := by
  have hnd := h.nodup
  have hs := h.sentinel_not_mem
  have hal := h.alloc
  have ht := h.tree
  simp only [treeAt_node, Tree.ptr_node, Tree.ptr_nil] at ht
  obtain ⟨t1, t2, t3, t4, t5, hL, ⟨y1, y2, y3, y4, y5, -, hyr⟩⟩ := ht
  have hnd0 := hnd
  have hs0 := hs
  simp only [Tree.addrs_node, Tree.addrs_nil, List.nil_append, List.append_assoc,
    List.cons_append, List.nodup_append,
    List.nodup_cons, List.mem_append, List.mem_cons, not_or, List.disjoint_cons_right,
    List.disjoint_append_right, List.disjoint_cons_left, List.disjoint_append_left] at hnd hs
  have hd1 : yr.addrs.Disjoint (pathAddrs fs) := by tauto
  have hd2 : La.addrs.Disjoint yr.addrs := by tauto
  have hd3 : Lb.addrs.Disjoint yr.addrs := by tauto
  have hx1 : yr.ptr s ∉ pathAddrs fs := Tree.ptr_not_mem yr (by tauto) (fun a ha hb => hd1 ha hb)
  have hx2 : yr.ptr s ∉ La.addrs := Tree.ptr_not_mem yr (by tauto) (fun a ha hb => hd2 hb ha)
  have hx3 : yr.ptr s ∉ Lb.addrs := Tree.ptr_not_mem yr (by tauto) (fun a ha hb => hd3 hb ha)
  have hx4 : yr.ptr s ≠ l := Tree.ptr_ne yr (by tauto) (by tauto)
  have hx5 : yr.ptr s ≠ n := Tree.ptr_ne yr (by tauto) (by tauto)
  have hx6 : yr.ptr s ≠ y := Tree.ptr_ne yr (by tauto) (by tauto)
  have hag : ∀ a, a ∉ [yr.ptr s] →
      (st.setFather (yr.ptr s) y).father a = st.father a ∧
      (st.setFather (yr.ptr s) y).son_l a = st.son_l a ∧
      (st.setFather (yr.ptr s) y).son_r a = st.son_r a ∧
      (st.setFather (yr.ptr s) y).color a = st.color a ∧
      (st.setFather (yr.ptr s) y).key a = st.key a := by
    intro a ha
    simp only [List.mem_singleton] at ha
    simp [Function.update_apply, ha]
  have one : ∀ {m : List Nat}, yr.ptr s ∉ m → ∀ z ∈ [yr.ptr s], z ∉ m := by
    intro m h1 z hz
    simp only [List.mem_singleton] at hz
    rw [hz]; exact h1
  have hsub : List.Sublist
      ((Tree.node y c (st.key y) (Tree.node l cl kl La Lb) yr).addrs ++ pathAddrs fs)
      ((Tree.node n c k (Tree.node l cl kl La Lb) (Tree.node y cy ky Tree.nil yr)).addrs ++
        pathAddrs fs) := by
    simp only [Tree.addrs_node, Tree.addrs_nil, List.nil_append]
    exact List.Sublist.append (List.Sublist.append (List.Sublist.refl _)
      (List.sublist_cons_self n _)) (List.Sublist.refl _)
  have g1 := h.path.agreePath (agree_of_disjoint hag (one hx1))
  have g2 : (st.setFather (yr.ptr s) y).father n = pathPtr s fs := by
    simp [Function.update_apply, hx5.symm, t1]
  have g3 : TreeAt (st.setFather (yr.ptr s) y) s n (Tree.node l cl kl La Lb) := by
    simp only [treeAt_node, Tree.ptr_node] at hL ⊢
    obtain ⟨l1, l2, l3, l4, l5, hLa, hLb⟩ := hL
    refine ⟨?_, l2, l3, l4, l5,
      hLa.agree (agree_of_disjoint hag (one hx2)), hLb.agree (agree_of_disjoint hag (one hx3))⟩
    simp [Function.update_apply, hx4.symm, l1]
  have g4 : TreeAt (st.setFather (yr.ptr s) y) s y yr :=
    hyr.reparent (by tauto) (by simp) (fun a ha =>
      ⟨fun hne => by simp [Function.update_apply, hne], rfl, rfl, rfl, rfl⟩)
  have g5 : n ∉ (Tree.node y c (st.key y) (Tree.node l cl kl La Lb) yr).addrs ++
      pathAddrs fs := by
    simp only [Tree.addrs_node, List.append_assoc, List.cons_append, List.mem_append,
      List.mem_cons, not_or]
    refine ⟨by tauto, by omega, by tauto, by omega, by tauto, by tauto⟩
  have hrep := @replace_node (st.setFather (yr.ptr s) y) s fs n y l c cl kl La Lb yr
    g1 h.root g2 t2 g3 g4 y3 (hnd0.sublist hsub) (fun hm => hs0 (hsub.subset hm)) g5
    (by omega) h.sentinel_alloc (fun a ha => hal a (hsub.subset ha))
    h.sentinel_color h.sentinel_left h.sentinel_right
  obtain ⟨hz, hf⟩ := hrep
  simp only [Mem.setFather_key, y5] at hz
  refine ⟨hz.down_right, ?_⟩
  rw [replace_node_father _ _ _ _ _ _ _ hx6 hx4]
  simp

theorem pathAddrs_append (fs gs : List Frame) :
    pathAddrs (fs ++ gs) = pathAddrs fs ++ pathAddrs gs := by
  induction fs with
  | nil => rfl
  | cons f fs ih => simp [ih]

theorem zip_append (st : Mem) (s : Nat) (sp fs : List Frame) (t : Tree) :
    Zip st s (sp ++ fs) t ↔ Zip st s fs (plug sp t) := by
  rw [← rep_plug_iff, ← rep_plug_iff, plug_append]

theorem plug_node_of_ne_nil (sp : List Frame) (t : Tree) (h : sp ≠ []) :
    ∃ a c k l r, plug sp t = Tree.node a c k l r := by
  induction sp generalizing t with
  | nil => exact absurd rfl h
  | cons f sp ih =>
    cases sp with
    | nil => cases f <;> exact ⟨_, _, _, _, _, rfl⟩
    | cons g sp => exact ih (f.fill t) (by simp)

theorem pathPtr_append (s : Nat) (sp fs : List Frame) (h : sp ≠ []) :
    pathPtr s (sp ++ fs) = pathPtr s sp ∧ pathPtr s sp ∈ pathAddrs sp := by
  cases sp with
  | nil => exact absurd rfl h
  | cons f sp => simp

/-- Unlinking a node with two children whose successor `y` lies deeper in the right
subtree: `y` is spliced out and put in the place of the node. -/
theorem unlink_deep {st : Mem} {s : Nat} {fs sp : List Frame} {n l y : Nat} {c cl cy : Bool}
    {k kl ky : List Int} {La Lb yr : Tree} (hsp : sp ≠ [])
    (h : Zip st s fs (Tree.node n c k (Tree.node l cl kl La Lb)
      (plug sp (Tree.node y cy ky Tree.nil yr)))) :
    ∃ r0 M E, (substituteSubtree st y (yr.ptr s) s).son_r n = r0 ∧ st.father y ≠ n ∧
      M = ((substituteSubtree st y (yr.ptr s) s).setSonR y r0).setFather r0 y ∧
      M.son_l n = l ∧ M.color n = c ∧ n ≠ M.father n ∧
      E = (((substituteSubtree M n y s).setSonL y l).setFather l y).setColor y c ∧
      Zip E s (sp ++ Frame.right y c ky (Tree.node l cl kl La Lb) :: fs) yr ∧
      E.father (yr.ptr s) = pathPtr s (sp ++ Frame.right y c ky (Tree.node l cl kl La Lb) :: fs) ∧
      E.next = st.next ∧ E.rot = st.rot := by
  have hz0 : Zip st s (sp ++ Frame.right n c k (Tree.node l cl kl La Lb) :: fs)
      (Tree.node y cy ky Tree.nil yr) := by
    rw [zip_append]; exact h.down_right
  obtain ⟨hz1, hf1⟩ := hz0.splice (X := yr) (Or.inl ⟨rfl, rfl⟩)
  have hz2 := ((zip_append _ _ _ _ _).1 hz1).up_right
  obtain ⟨r0, c0, k0, l0, rr0, hR'⟩ := plug_node_of_ne_nil sp yr hsp
  obtain ⟨hpp, hpm⟩ := pathPtr_append s sp (Frame.right n c k (Tree.node l cl kl La Lb) :: fs) hsp
  have hpp' := (pathPtr_append s sp (Frame.right y c ky (Tree.node l cl kl La Lb) :: fs) hsp).1
  -- the addresses
  have hRp : List.Perm (plug sp (Tree.node y cy ky Tree.nil yr)).addrs
      (y :: (plug sp yr).addrs) := by
    refine (addrs_plug_perm sp _).trans ?_
    simp only [Tree.addrs_node, Tree.addrs_nil, List.nil_append, List.cons_append]
    exact List.Perm.cons y (addrs_plug_perm sp yr).symm
  have hperm : List.Perm
      ((Tree.node n c k (Tree.node l cl kl La Lb)
        (plug sp (Tree.node y cy ky Tree.nil yr))).addrs ++ pathAddrs fs)
      (n :: ((Tree.node y c ky (Tree.node l cl kl La Lb) (plug sp yr)).addrs ++
        pathAddrs fs)) := by
    simp only [Tree.addrs_node]
    exact (List.perm_middle.append_right _).trans
      (List.Perm.cons n ((List.Perm.append_left _ hRp).append_right _))
  have hnd := hperm.nodup_iff.1 h.nodup
  have hs : s ∉ n :: ((Tree.node y c ky (Tree.node l cl kl La Lb) (plug sp yr)).addrs ++
      pathAddrs fs) := fun hm => h.sentinel_not_mem (hperm.mem_iff.2 hm)
  have hal : ∀ a ∈ n :: ((Tree.node y c ky (Tree.node l cl kl La Lb) (plug sp yr)).addrs ++
      pathAddrs fs), a < st.next := fun a ha => h.alloc a (hperm.mem_iff.2 ha)
  rw [hR'] at hz2 hnd hs hal
  have ht0 := hz0.tree
  simp only [treeAt_node] at ht0
  have hky : (substituteSubtree st y (yr.ptr s) s).key y = ky := by
    rw [substituteSubtree_key]; exact ht0.2.2.2.2.1
  have hfy : st.father y = pathPtr s sp := by rw [← hpp]; exact ht0.1
  have hnx : (substituteSubtree st y (yr.ptr s) s).next = st.next := by simp
  have hrt : (substituteSubtree st y (yr.ptr s) s).rot = st.rot := by simp
  have hsa := h.sentinel_alloc
  rw [← hnx] at hsa hal
  have y_yr : y ∉ yr.addrs :=
    (List.nodup_cons.1 (show (y :: yr.addrs).Nodup from (List.nodup_append.1 hz0.nodup).1)).1
  clear ht0 hz0 h hperm hRp
  generalize substituteSubtree st y (yr.ptr s) s = S1 at *
  have ht2 := hz2.tree
  simp only [treeAt_node, Tree.ptr_node] at ht2
  obtain ⟨t1, t2, t3, t4, t5, ⟨l1, l2, l3, l4, l5, hLa, hLb⟩, hRt⟩ := ht2
  have hnd1 := hz1.nodup
  rw [pathAddrs_append] at hnd1
  have hr0m : r0 ∈ pathAddrs sp := by
    have := ptr_plug s sp yr
    rw [hR'] at this
    simp only [Tree.ptr_node] at this
    rw [this]
    cases sp with
    | nil => exact absurd rfl hsp
    | cons f sp => exact rootPtr_mem sp f _
  have hnd' := hnd
  have hs' := hs
  simp only [Tree.addrs_node, Tree.addrs_nil, List.nil_append, List.append_assoc,
    List.cons_append, List.nodup_append, pathAddrs_cons, Frame.addr_right, Frame.sibling_right,
    List.nodup_cons, List.mem_append, List.mem_cons, not_or, List.disjoint_cons_right,
    List.disjoint_append_right, List.disjoint_cons_left, List.disjoint_append_left]
    at hnd' hs' hnd1
  obtain ⟨hsn, -, hsl, -, hsy, -, hsr0, -, -⟩ := hs'
  obtain ⟨⟨-, -, -, hny, -, hnr0, -, n_P⟩, -, ⟨⟨-, hly, -, hlr0, -, -⟩, -,
    ⟨⟨y_l0, hyr0, y_rr0, y_P⟩, l0nd, ⟨⟨r0_rr0, r0_P⟩, rr0nd, -, -⟩, r0_l0,
    dl0rr0, -⟩, y_Lb, -, r0_Lb, -, -⟩, -, -, y_La, -, r0_La, -, -⟩ := hnd'
  obtain ⟨-, ⟨-, -, n_sp, -⟩, d_yr_sp, -, -, l_yr, -, -⟩ := hnd1
  have hyn : y ≠ n := Ne.symm hny
  have hr0n : r0 ≠ n := Ne.symm hnr0
  have hr0y : r0 ≠ y := Ne.symm hyr0
  have hys : y ≠ s := Ne.symm hsy
  have hr0s : r0 ≠ s := Ne.symm hsr0
  have hns : n ≠ s := Ne.symm hsn
  have hls : l ≠ s := Ne.symm hsl
  have s_yr : s ∉ yr.addrs := fun hm => hz1.sentinel_not_mem (List.mem_append_left _ hm)
  have hx1 : yr.ptr s ≠ r0 := Tree.ptr_ne yr hr0s.symm (fun hm => d_yr_sp hm hr0m)
  have hx2 : yr.ptr s ≠ y := Tree.ptr_ne yr hys.symm y_yr
  have hx3 : yr.ptr s ≠ l := Tree.ptr_ne yr hls.symm l_yr
  have hfn : pathPtr s sp ≠ n := fun e => n_sp (e ▸ hpm)
  refine ⟨r0, _, _, t3, by rw [hfy]; exact hfn, rfl, by simpa using t2, by simpa using t4, ?_,
    rfl, ?_, ?_, by simpa using hnx, by simpa using hrt⟩
  · simp only [Mem.setFather_father, Mem.setSonR_father, Function.update_apply, hr0n.symm,
      if_false, t1]
    exact (pathPtr_ne fs hns.symm n_P).symm
  · have hag : ∀ a, a ∉ [y, r0] →
        ((S1.setSonR y r0).setFather r0 y).father a =
          S1.father a ∧
        ((S1.setSonR y r0).setFather r0 y).son_l a =
          S1.son_l a ∧
        ((S1.setSonR y r0).setFather r0 y).son_r a =
          S1.son_r a ∧
        ((S1.setSonR y r0).setFather r0 y).color a =
          S1.color a ∧
        ((S1.setSonR y r0).setFather r0 y).key a =
          S1.key a := by
      intro a ha
      simp only [List.mem_cons, List.mem_singleton, not_or, List.not_mem_nil, or_false] at ha
      simp [Function.update_apply, ha.1, ha.2]
    have hd1 : ∀ a ∈ [y, r0], a ∉ pathAddrs fs := two_not_mem y_P r0_P
    have hd2 : ∀ a ∈ [y, r0], a ∉ La.addrs := two_not_mem y_La r0_La
    have hd3 : ∀ a ∈ [y, r0], a ∉ Lb.addrs := two_not_mem y_Lb r0_Lb
    have g1 := hz2.path.agreePath (agree_of_disjoint hag hd1)
    have g2 : ((S1.setSonR y r0).setFather r0 y).father n =
        pathPtr s fs := by
      simp only [Mem.setFather_father, Mem.setSonR_father, Function.update_apply, hr0n.symm,
        if_false]
      exact t1
    have g3 : TreeAt ((S1.setSonR y r0).setFather r0 y) s n
        (Tree.node l cl kl La Lb) := by
      simp only [treeAt_node]
      refine ⟨?_, ?_, ?_, l4, l5, hLa.agree (agree_of_disjoint hag hd2),
        hLb.agree (agree_of_disjoint hag hd3)⟩
      · simp only [Mem.setFather_father, Mem.setSonR_father, Function.update_apply, hlr0,
          if_false]
        exact l1
      · exact l2
      · simp only [Mem.setFather_son_r, Mem.setSonR_son_r, Function.update_apply, hly, if_false]
        exact l3
    have g4 : TreeAt ((S1.setSonR y r0).setFather r0 y) s y
        (Tree.node r0 c0 k0 l0 rr0) := by
      have hRt' : TreeAt S1 s n (Tree.node r0 c0 k0 l0 rr0) :=
        (treeAt_node _ _ _ _ _ _ _ _).2 hRt
      refine hRt'.reparent (by
        simp only [Tree.addrs_node, List.nodup_append, List.nodup_cons,
          List.disjoint_cons_right]
        exact ⟨l0nd, ⟨r0_rr0, rr0nd⟩, r0_l0, dl0rr0⟩) (by simp) (fun a ha => ?_)
      have hay : a ≠ y := by
        rintro rfl
        simp only [Tree.addrs_node, List.mem_append, List.mem_cons] at ha
        rcases ha with ha | ha | ha
        · exact y_l0 ha
        · exact hr0y ha.symm
        · exact y_rr0 ha
      refine ⟨fun hne => ?_, by simp, ?_, by simp, by simp⟩
      · simp only [Tree.ptr_node] at hne
        simp [Function.update_apply, hne]
      · simp [Function.update_apply, hay]
    have g5 : ((S1.setSonR y r0).setFather r0 y).son_r y =
        r0 := by simp
    have hk : ((S1.setSonR y r0).setFather r0 y).key y = ky := hky
    have hrep := @replace_node
      ((S1.setSonR y r0).setFather r0 y) s fs n y l c cl kl
      La Lb (Tree.node r0 c0 k0 l0 rr0) g1 hz2.root g2 t2 g3 g4 g5
      (by rw [hk]; exact (List.nodup_cons.1 hnd).2)
      (by rw [hk]; exact fun hm => hs (List.mem_cons_of_mem _ hm))
      (by rw [hk]; exact (List.nodup_cons.1 hnd).1)
      hns (by simpa using hsa)
      (by rw [hk]; exact fun a ha => by simpa using hal a (List.mem_cons_of_mem _ ha))
      hz2.sentinel_color hz2.sentinel_left
      (by
        simp only [Mem.setFather_son_r, Mem.setSonR_son_r, Function.update_apply, hys.symm,
          if_false]
        exact hz2.sentinel_right)
    rw [hk, ← hR'] at hrep
    rw [zip_append]
    exact hrep.1.down_right
  · rw [replace_node_father _ _ _ _ _ _ _ hx2 hx3]
    simp only [Mem.setFather_father, Mem.setSonR_father, Function.update_apply, hx1, if_false]
    rw [hf1, hpp, hpp']

/-- The last four statements of the two-children case of `deleteNode`, with the reads
of `son_l` and `color` of the deleted node resolved. -/
theorem replace_node_code (st : Mem) (n y s l : Nat) (c : Bool) (h1 : st.son_l n = l)
    (h2 : st.color n = c) (h3 : n ≠ st.father n) :
    (((substituteSubtree st n y s).setSonL y ((substituteSubtree st n y s).son_l n)).setFather
      (((substituteSubtree st n y s).setSonL y ((substituteSubtree st n y s).son_l n)).son_l y)
      y).setColor y
      ((((substituteSubtree st n y s).setSonL y ((substituteSubtree st n y s).son_l n)).setFather
      (((substituteSubtree st n y s).setSonL y ((substituteSubtree st n y s).son_l n)).son_l y)
      y).color n) =
    (((substituteSubtree st n y s).setSonL y l).setFather l y).setColor y c := by
  have := substituteSubtree_sons st n y s n h3
  simp [this, h1, h2]

/-- The two-children case of `deleteUnlink` as one expression; `mid` is the memory after
the successor `y` has been taken out of the right subtree. -/
theorem deleteUnlink_two (fuel : Nat) (st mid : Mem) (n s y l : Nat) (c : Bool)
    (h1 : st.son_l n = l) (hl : l ≠ s) (hr : st.son_r n ≠ s)
    (hmin : minimum fuel st (st.son_r n) s = some y)
    (hmid : mid = if st.father y = n then st.setFather (st.son_r y) y
      else ((substituteSubtree st y (st.son_r y) s).setSonR y
        ((substituteSubtree st y (st.son_r y) s).son_r n)).setFather
          (((substituteSubtree st y (st.son_r y) s).setSonR y
            ((substituteSubtree st y (st.son_r y) s).son_r n)).son_r y) y)
    (g1 : mid.son_l n = l) (g2 : mid.color n = c) (g3 : n ≠ mid.father n) :
    deleteUnlink fuel st n s =
      some ((((substituteSubtree mid n y s).setSonL y l).setFather l y).setColor y c,
        st.son_r y, st.color y) := by
  rw [← replace_node_code mid n y s l c g1 g2 g3, hmid]
  simp only [deleteUnlink, h1, hl, hr, if_false, hmin]

/-- The invariants and the in-order sequence after the unlinking of a node with two
children: `y` is the end of the left spine `sp` of the right subtree. -/
theorem unlink_pure (sp fs : List Frame) (n y : Nat) (c cy : Bool) (k ky : List Int)
    (L yr : Tree) (hl : ∀ f ∈ sp, ∃ a c k r, f = Frame.left a c k r)
    (hrb : (plug fs (Tree.node n c k L (plug sp (Tree.node y cy ky Tree.nil yr)))).RedBlack) :
    (plug (sp ++ Frame.right y c ky L :: fs) yr).nodes =
        nodesBefore fs ++ (L.nodes ++ (plug sp (Tree.node y cy ky Tree.nil yr)).nodes) ++
          nodesAfter fs ∧
      yr.noRedRed ∧ yr.balanced ∧ PathNoRR (sp ++ Frame.right y c ky L :: fs) ∧
      PathBal (sp ++ Frame.right y c ky L :: fs) (yr.bh + if cy then 0 else 1) ∧
      rootColor (sp ++ Frame.right y c ky L :: fs) false = false ∧
      (cy = true → yr.color = false ∧
        rootColor (sp ++ Frame.right y c ky L :: fs) yr.color = false) := by
  have hrb' : (plug (sp ++ Frame.right n c k L :: fs)
      (Tree.node y cy ky Tree.nil yr)).RedBlack := by
    rw [plug_append]; exact hrb
  obtain ⟨h1, h2, h3, h4, h5, h6⟩ :=
    splice_invariants _ y cy ky Tree.nil yr yr (Or.inl ⟨rfl, rfl⟩) hrb'
  obtain ⟨g1, g2, g3, g4⟩ := path_invariants_congr (Frame.right n c k L) (Frame.right y c ky L)
    rfl rfl sp fs
  refine ⟨?_, h1, h2, g2.1 h3, (g1 _).1 h4, by rw [← g4]; exact h5, fun hc => ?_⟩
  · rw [nodes_plug, nodes_plug, nodesBefore_append_left sp _ hl, nodesAfter_append]
    have := nodesBefore_append_left sp [] hl
    rw [List.append_nil] at this
    rw [this]
    simp [nodesBefore, nodesAfter]
  · have := h6 hc
    exact ⟨this.1, by rw [← g4]; exact this.2⟩

/-- The unlinking part of `deleteNode` on a node of a red-black tree: it returns; the
memory then holds the tree without the node, `temp2` is the root of the subtree `X` at
a position `fs'`, its `father` field is set even when `X` is empty, and all red-black
invariants hold except that the black height at the position is one short when the
removed colour `old_color` is black. -/
theorem deleteUnlink_spec {st : Mem} {s : Nat} {fs : List Frame} {n : Nat} {c : Bool}
    {k : List Int} {L R : Tree} (h : Zip st s fs (Tree.node n c k L R))
    (hrb : (plug fs (Tree.node n c k L R)).RedBlack) :
    ∃ m st1 fs' X oldc,
      (∀ fuel, m ≤ fuel → deleteUnlink fuel st n s = some (st1, X.ptr s, oldc)) ∧
      Zip st1 s fs' X ∧ st1.father (X.ptr s) = pathPtr s fs' ∧
      st1.next = st.next ∧ st1.rot = st.rot ∧
      (plug fs' X).nodes = nodesBefore fs ++ (L.nodes ++ R.nodes) ++ nodesAfter fs ∧
      X.noRedRed ∧ X.balanced ∧ PathNoRR fs' ∧ PathBal fs' (X.bh + if oldc then 0 else 1) ∧
      rootColor fs' false = false ∧
      (oldc = true → X.color = false ∧ rootColor fs' X.color = false) := by
  have ht := h.tree
  simp only [treeAt_node] at ht
  obtain ⟨t1, t2, t3, t4, t5, hL, hR⟩ := ht
  have hs := h.sentinel_not_mem
  have hnd := h.nodup
  have hns : n ≠ s := by
    rintro rfl
    exact hs (by simp)
  cases L with
  | nil =>
    obtain ⟨hz, hf⟩ := h.splice (X := R) (Or.inl ⟨rfl, rfl⟩)
    refine ⟨0, _, fs, R, c, fun fuel _ => ?_, hz, hf, by simp, by simp, ?_,
      splice_invariants fs n c k Tree.nil R R (Or.inl ⟨rfl, rfl⟩) hrb⟩
    · simp only [Tree.ptr_nil] at t2
      simp [deleteUnlink, t2, t3, t4]
    · simp [nodes_plug]
  | node l cl kl La Lb =>
    have hls : l ≠ s := by
      rintro rfl
      exact hs (by simp)
    simp only [Tree.ptr_node] at t2
    cases R with
    | nil =>
      obtain ⟨hz, hf⟩ := h.splice (X := Tree.node l cl kl La Lb) (Or.inr ⟨rfl, rfl⟩)
      refine ⟨0, _, fs, Tree.node l cl kl La Lb, c, fun fuel _ => ?_, hz, hf, by simp, by simp,
        ?_, splice_invariants fs n c k _ Tree.nil _ (Or.inr ⟨rfl, rfl⟩) hrb⟩
      · simp only [Tree.ptr_nil] at t3
        simp [deleteUnlink, t2, t3, t4, hls]
      · simp [nodes_plug]
    | node r cr kr Ra Rb =>
      have hrs : r ≠ s := by
        rintro rfl
        exact hs (by simp)
      simp only [Tree.ptr_node] at t3
      have hsR : s ∉ (Tree.node r cr kr Ra Rb).addrs := by
        intro hm
        exact hs (by
          simp only [Tree.addrs_node, List.mem_append, List.mem_cons] at hm ⊢
          tauto)
      obtain ⟨sp, y, cy, yr, m, hall, hRe, hmin⟩ :=
        minimum_spec (Tree.node r cr kr Ra Rb) n r cr kr Ra Rb rfl hR hsR
      rw [hRe] at h hrb ⊢
      have hpure := unlink_pure sp fs n y c cy k (st.key y) (Tree.node l cl kl La Lb) yr hall hrb
      have hz0 : Zip st s (sp ++ Frame.right n c k (Tree.node l cl kl La Lb) :: fs)
          (Tree.node y cy (st.key y) Tree.nil yr) := by
        rw [zip_append]; exact h.down_right
      have hty := hz0.tree
      simp only [treeAt_node] at hty
      obtain ⟨y1, y2, y3, y4, -, -, -⟩ := hty
      have hmin' : ∀ fuel, m ≤ fuel → minimum fuel st (st.son_r n) s = some y := by
        intro fuel hf
        rw [t3]; exact hmin fuel hf
      have hr' : st.son_r n ≠ s := by rw [t3]; exact hrs
      rcases sp with _ | ⟨f, sp⟩
      · simp only [plug_nil, List.nil_append] at h hpure hz0 y1
        simp only [pathPtr_cons, Frame.addr_right] at y1
        obtain ⟨hz, hf⟩ := unlink_child h
        have hnd0 := h.nodup
        simp only [Tree.addrs_node, Tree.addrs_nil, List.nil_append, List.append_assoc,
          List.cons_append, List.nodup_append, List.nodup_cons, List.mem_append, List.mem_cons,
          not_or] at hnd0
        have hnP : n ∉ pathAddrs fs := by tauto
        have hnyr : n ∉ yr.addrs := by tauto
        have hx : yr.ptr s ≠ n := Tree.ptr_ne yr (Ne.symm hns) hnyr
        refine ⟨m, _, _, yr, cy, fun fuel hfu => ?_, hz, by rw [hf]; rfl, by simp, by simp,
          hpure⟩
        rw [deleteUnlink_two fuel st (st.setFather (yr.ptr s) y) n s y l c t2 hls hr'
          (hmin' fuel hfu) (by rw [if_pos y1, y3]) t2 t4 ?_, y3, y4]
        simp only [Mem.setFather_father, Function.update_apply, hx.symm, if_false, t1]
        exact (pathPtr_ne fs hns.symm hnP).symm
      · obtain ⟨r0, M, E, e1, e2, eM, m1, m2, m3, eE, hz, hf, hnx, hrt⟩ :=
          unlink_deep (List.cons_ne_nil f sp) h
        refine ⟨m, E, _, yr, cy, fun fuel hfu => ?_, hz, hf, hnx, hrt, hpure⟩
        rw [deleteUnlink_two fuel st M n s y l c t2 hls hr' (hmin' fuel hfu) ?_ m1 m2 m3, y3, y4,
          eE]
        rw [if_neg e2, y3, e1, eM]
        simp

/-- Every node of a tree is at a position of it. -/
theorem Tree.exists_plug_of_mem {a : Nat} : ∀ (t : Tree), a ∈ t.addrs →
    ∃ fs c k l r, t = plug fs (Tree.node a c k l r) := by
  intro t
  induction t with
  | nil => intro h; simp at h
  | node b c k l r ihl ihr =>
    intro h
    simp only [Tree.addrs_node, List.mem_append, List.mem_cons] at h
    rcases h with h | rfl | h
    · obtain ⟨fs, c', k', l', r', e⟩ := ihl h
      exact ⟨fs ++ [Frame.left b c k r], c', k', l', r', by rw [plug_append, ← e]; rfl⟩
    · exact ⟨[], c, k, l, r, rfl⟩
    · obtain ⟨fs, c', k', l', r', e⟩ := ihr h
      exact ⟨fs ++ [Frame.right b c k l], c', k', l', r', by rw [plug_append, ← e]; rfl⟩

/-- Deletion of the node at a position of a red-black tree: `deleteNode` returns, the
memory then holds a red-black tree whose in-order node sequence is the old one without
the node, nothing is allocated and at most three rotations are made. -/
theorem deleteNode_zip {st : Mem} {s : Nat} {fs : List Frame} {n : Nat} {c : Bool}
    {k : List Int} {L R : Tree} (h : Zip st s fs (Tree.node n c k L R))
    (hrb : (plug fs (Tree.node n c k L R)).RedBlack) :
    ∃ m st' T', (∀ fuel, m ≤ fuel → deleteNode fuel st n s = some st') ∧ Rep st' s T' ∧
      T'.RedBlack ∧ T'.nodes = nodesBefore fs ++ (L.nodes ++ R.nodes) ++ nodesAfter fs ∧
      st'.next = st.next ∧ st'.rot ≤ st.rot + 3 := by
  obtain ⟨m, st1, fs', X, oldc, hrun, hz, hf, hnx, hrt, hnodes, h1, h2, h3, h4, h5, h6⟩ :=
    deleteUnlink_spec h hrb
  cases oldc with
  | false =>
    simp only [Bool.false_eq_true, if_false] at h4
    obtain ⟨m2, st', T', hrun2, hrep, hrb', hn', hnx', hrt'⟩ :=
      reparationRBtree_spec s fs'.length fs' st1 X (le_refl _) hz hf (Tree.blacken_noRedRed X h1)
        h2 h3 h4 h5
    refine ⟨max m m2, st', T', fun fuel hfu => ?_, hrep, hrb', by rw [hn', hnodes],
      by rw [hnx', hnx], by omega⟩
    simp only [deleteNode, hrun fuel (le_of_max_le_left hfu), if_true]
    exact hrun2 fuel (le_of_max_le_right hfu)
  | true =>
    simp only [if_true, Nat.add_zero] at h4
    obtain ⟨h7, h8⟩ := h6 rfl
    refine ⟨m, st1, plug fs' X, fun fuel hfu => ?_, hz.rep,
      redBlack_of_parts fs' X h1 h2 h3 h4 h7 h8, hnodes, hnx, by omega⟩
    simp [deleteNode, hrun fuel hfu]

/-- Deletion of a node of a red-black tree held in memory. -/
theorem deleteNode_spec {st : Mem} {s : Nat} {T : Tree} (h : Rep st s T) (hrb : T.RedBlack)
    {n : Nat} (hn : n ∈ T.addrs) :
    ∃ m st' T' l1 l2, (∀ fuel, m ≤ fuel → deleteNode fuel st n s = some st') ∧ Rep st' s T' ∧
      T'.RedBlack ∧ T.nodes = l1 ++ (n, st.key n) :: l2 ∧ T'.nodes = l1 ++ l2 ∧
      st'.next = st.next ∧ st'.rot ≤ st.rot + 3 := by
  obtain ⟨fs, c, k, L, R, rfl⟩ := Tree.exists_plug_of_mem T hn
  have hz := (rep_plug_iff st s fs _).1 h
  have hk : st.key n = k := by
    have := hz.tree
    simp only [treeAt_node] at this
    exact this.2.2.2.2.1
  obtain ⟨m, st', T', hrun, hrep, hrb', hn', hnx, hrt⟩ := deleteNode_zip hz hrb
  refine ⟨m, st', T', nodesBefore fs ++ L.nodes, R.nodes ++ nodesAfter fs, hrun, hrep, hrb', ?_,
    by rw [hn']; simp, hnx, hrt⟩
  rw [nodes_plug, hk]
  simp

/-- `readTree` returns the tree that the memory holds. -/
theorem readTree_of_treeAt {st : Mem} {s : Nat} : ∀ (t : Tree) (p : Nat), TreeAt st s p t →
    s ∉ t.addrs → ∃ m, ∀ fuel, m ≤ fuel → readTree fuel st (t.ptr s) s = some t := by
  intro t
  induction t with
  | nil =>
    intro p _ _
    refine ⟨1, fun fuel hf => ?_⟩
    obtain ⟨j, rfl⟩ := Nat.exists_eq_add_of_le' hf
    simp [readTree]
  | node a c k l r ihl ihr =>
    intro p h hs
    simp only [treeAt_node] at h
    obtain ⟨t1, t2, t3, t4, t5, hL, hR⟩ := h
    simp only [Tree.addrs_node, List.mem_append, List.mem_cons, not_or] at hs
    obtain ⟨ml, hl⟩ := ihl a hL hs.1
    obtain ⟨mr, hr⟩ := ihr a hR hs.2.2
    refine ⟨max ml mr + 1, fun fuel hf => ?_⟩
    obtain ⟨j, rfl⟩ := Nat.exists_eq_add_of_le' hf
    rw [show j + (max ml mr + 1) = (j + max ml mr) + 1 from rfl]
    have hne : a ≠ s := fun e => hs.2.1 e.symm
    simp only [readTree, Tree.ptr_node, hne, if_false, t2, t3,
      hl (j + max ml mr) (by omega), hr (j + max ml mr) (by omega), t4, t5]

/-- The key field of every node of a tree held in memory is the key the tree has. -/
theorem TreeAt.key_of_mem {st : Mem} {s : Nat} : ∀ (t : Tree) (p : Nat), TreeAt st s p t →
    ∀ x ∈ t.nodes, st.key x.1 = x.2 := by
  intro t
  induction t with
  | nil => intro p _ x hx; simp at hx
  | node a c k l r ihl ihr =>
    intro p h x hx
    simp only [treeAt_node] at h
    simp only [Tree.nodes_node, List.mem_append, List.mem_cons] at hx
    rcases hx with hx | rfl | hx
    · exact ihl a h.2.2.2.2.2.1 x hx
    · exact h.2.2.2.2.1
    · exact ihr a h.2.2.2.2.2.2 x hx

/-- The search of a key in a tree held in memory returns; a node it returns is a node of
the tree whose key compares equal; in a search tree it returns not-found only if no key
of the tree compares equal. -/
theorem search_spec {st : Mem} {s : Nat} {key : List Int} : ∀ (t : Tree) (p : Nat),
    TreeAt st s p t → s ∉ t.addrs →
    ∃ m r, (∀ fuel, m ≤ fuel → search fuel st key (t.ptr s) s = some r) ∧
      (∀ a, r = some a → ∃ x ∈ t.nodes, x.1 = a ∧ stringCompare key x.2 = 0) ∧
      (t.SearchTree → r = none → ∀ x ∈ t.keys, stringCompare key x ≠ 0) := by
  intro t
  induction t with
  | nil =>
    intro p _ _
    refine ⟨1, none, fun fuel hf => ?_, fun a h => by simp at h, fun _ _ x hx => by simp at hx⟩
    obtain ⟨j, rfl⟩ := Nat.exists_eq_add_of_le' hf
    simp [search]
  | node a c k l r ihl ihr =>
    intro p h hs
    simp only [treeAt_node] at h
    obtain ⟨t1, t2, t3, t4, t5, hL, hR⟩ := h
    simp only [Tree.addrs_node, List.mem_append, List.mem_cons, not_or] at hs
    have hne : a ≠ s := fun e => hs.2.1 e.symm
    obtain ⟨ml, rl, hl, fl, nl⟩ := ihl a hL hs.1
    obtain ⟨mr, rr, hr, fr, nr⟩ := ihr a hR hs.2.2
    by_cases h0 : stringCompare key k = 0
    · refine ⟨1, some a, fun fuel hf => ?_, fun b hb => ?_, fun _ hb => by simp at hb⟩
      · obtain ⟨j, rfl⟩ := Nat.exists_eq_add_of_le' hf
        simp [search, hne, t5, h0]
      · simp only [Option.some.injEq] at hb
        exact ⟨(a, k), by simp, hb, h0⟩
    · by_cases hlt : stringCompare key k < 0
      · refine ⟨ml + 1, rl, fun fuel hf => ?_, fun b hb => ?_, fun hst hb x hx => ?_⟩
        · obtain ⟨j, rfl⟩ := Nat.exists_eq_add_of_le' hf
          rw [show j + (ml + 1) = (j + ml) + 1 from rfl]
          simp only [search, Tree.ptr_node, hne, if_false, t5, h0, hlt, if_true, t2]
          exact hl _ (by omega)
        · obtain ⟨x, hx, e1, e2⟩ := fl b hb
          exact ⟨x, by simp [hx], e1, e2⟩
        · obtain ⟨s1, s2, s3, -⟩ := hst
          simp only [Tree.keys_node, List.mem_append, List.mem_cons] at hx
          rcases hx with hx | rfl | hx
          · exact nl s3 hb x hx
          · exact h0
          · have h2 := s2 x hx
            rw [stringCompare_swap] at h2
            have := stringCompare_lt_of_lt_of_le hlt (show stringCompare k x ≤ 0 by omega)
            omega
      · refine ⟨mr + 1, rr, fun fuel hf => ?_, fun b hb => ?_, fun hst hb x hx => ?_⟩
        · obtain ⟨j, rfl⟩ := Nat.exists_eq_add_of_le' hf
          rw [show j + (mr + 1) = (j + mr) + 1 from rfl]
          simp only [search, Tree.ptr_node, hne, if_false, t5, h0, hlt, t3]
          exact hr _ (by omega)
        · obtain ⟨x, hx, e1, e2⟩ := fr b hb
          exact ⟨x, by simp [hx], e1, e2⟩
        · obtain ⟨s1, -, -, s4⟩ := hst
          simp only [Tree.keys_node, List.mem_append, List.mem_cons] at hx
          rcases hx with hx | rfl | hx
          · have h1 := s1 x hx
            have hk : stringCompare k key < 0 := by
              rw [stringCompare_swap]; omega
            have := (stringCompareFrom_trans x k key 0 length).2.2 h1 hk
            have e := stringCompare_swap x key
            simp only [stringCompare] at e ⊢
            omega
          · exact h0
          · exact nr s4 hb x hx

theorem rep_fiveWords : Rep fiveWords 0 fiveWordsTree := by
  refine ⟨by decide!, ?_, by decide, by decide, by decide!, by decide!, by decide!, by decide!,
    by decide!⟩
  simp only [fiveWordsTree, treeAt_node, treeAt_nil, Tree.ptr_node, Tree.ptr_nil, and_true]
  decide!

theorem ordered_fiveWords : fiveWordsTree.Ordered :=
  (Tree.ordered_iff_pairwise _).2 (by decide!)

/-- Removing one element of a sequence keeps it ordered. -/
theorem ordered_of_remove {T T' : Tree} {l1 l2 : List (Nat × List Int)} {x : Nat × List Int}
    (h1 : T.nodes = l1 ++ x :: l2) (h2 : T'.nodes = l1 ++ l2) (h : T.Ordered) : T'.Ordered := by
  rw [Tree.ordered_iff_pairwise, Tree.keys_eq_map] at h ⊢
  rw [h1] at h
  rw [h2]
  refine h.sublist ?_
  exact List.Sublist.map _ (List.Sublist.append_left (List.sublist_cons_self x l2) l1)

/-! ## Deletion: the claims -/

/-- C3: on every memory that holds a tree with the red-black invariants and for every
node `n` of the tree, `deleteNode` returns, and afterwards the memory holds a tree whose
root is black, in which no red node has a red child and in which every path from the root
down to the sentinel passes through the same number of black nodes; if the in-order key
sequence was non-decreasing before, it still is. -/
theorem deleteNode_keeps_redBlack (st : Mem) (s : Nat) (T : Tree) (n : Nat)
    (h : Rep st s T) (hrb : T.RedBlack) (hn : n ∈ T.addrs) :
    ∃ fuel st' T', deleteNode fuel st n s = some st' ∧ Rep st' s T' ∧
      T'.color = false ∧ T'.noRedRed ∧ T'.pathsEqual ∧ (T.Ordered → T'.Ordered) := by
  obtain ⟨m, st', T', l1, l2, hrun, hrep, hrb', h1, h2, -, -⟩ := deleteNode_spec h hrb hn
  exact ⟨m, st', T', hrun m (le_refl _), hrep, hrb'.1, hrb'.2.1, hrb'.2.2,
    ordered_of_remove h1 h2⟩

/-- Witness of C3: the root `banana` (a node with two children) deleted from the tree of
the five words. -/
theorem deleteNode_keeps_redBlack_witness :
    Rep fiveWords 0 fiveWordsTree ∧ fiveWordsTree.RedBlack ∧ 1 ∈ fiveWordsTree.addrs ∧
      fiveWordsTree.Ordered ∧
      ∃ fuel st' T', deleteNode fuel fiveWords 1 0 = some st' ∧ Rep st' 0 T' ∧
        T'.color = false ∧ T'.noRedRed ∧ T'.pathsEqual ∧ (fiveWordsTree.Ordered → T'.Ordered) :=
  ⟨rep_fiveWords, by decide, by decide, ordered_fiveWords,
    deleteNode_keeps_redBlack fiveWords 0 fiveWordsTree 1 rep_fiveWords (by decide) (by decide)⟩

/-- C4: on every memory that holds a red-black tree and for every node `n` of it,
`deleteNode` returns and removes exactly that node: the in-order node sequence of the
tree held afterwards (the tree that `readTree` finds from `root`) is the earlier one
with the entry of `n` taken out, so it is shorter by one; `n` is no longer in the tree,
every other node still is and keeps its key. -/
theorem deleteNode_removes_one (st : Mem) (s : Nat) (T : Tree) (n : Nat)
    (h : Rep st s T) (hrb : T.RedBlack) (hn : n ∈ T.addrs) :
    ∃ fuel st' T' l1 l2, deleteNode fuel st n s = some st' ∧ Rep st' s T' ∧
      readTree fuel st' st'.root s = some T' ∧
      T.nodes = l1 ++ (n, st.key n) :: l2 ∧ T'.nodes = l1 ++ l2 ∧
      T'.nodes.length + 1 = T.nodes.length ∧ n ∉ T'.addrs ∧
      ∀ a ∈ T.addrs, a ≠ n → a ∈ T'.addrs ∧ st'.key a = st.key a := by
  obtain ⟨m, st', T', l1, l2, hrun, hrep, hrb', h1, h2, -, -⟩ := deleteNode_spec h hrb hn
  obtain ⟨m2, hread⟩ := readTree_of_treeAt T' s hrep.tree hrep.sentinel_not_mem
  have hnd := h.nodup
  rw [Tree.addrs_eq_map, h1] at hnd
  simp only [List.map_append, List.map_cons, List.nodup_append, List.nodup_cons,
    List.disjoint_cons_right] at hnd
  refine ⟨max m m2, st', T', l1, l2, hrun _ (le_max_left _ _), hrep, ?_, h1, h2, ?_, ?_, ?_⟩
  · rw [hrep.root]; exact hread _ (le_max_right _ _)
  · rw [h1, h2]; simp only [List.length_append, List.length_cons]; omega
  · rw [Tree.addrs_eq_map, h2, List.map_append, List.mem_append]
    tauto
  · intro a ha hane
    rw [Tree.addrs_eq_map, List.mem_map] at ha
    obtain ⟨x, hx, rfl⟩ := ha
    have hkx := TreeAt.key_of_mem T s h.tree x hx
    have hx' : x ∈ T'.nodes := by
      rw [h1] at hx
      rw [h2]
      simp only [List.mem_append, List.mem_cons] at hx ⊢
      rcases hx with hx | rfl | hx
      · exact Or.inl hx
      · exact absurd rfl hane
      · exact Or.inr hx
    refine ⟨?_, ?_⟩
    · rw [Tree.addrs_eq_map]; exact List.mem_map_of_mem _ hx'
    · rw [hkx]; exact TreeAt.key_of_mem T' s hrep.tree x hx'

/-- Witness of C4: the root `banana` deleted from the tree of the five words. -/
theorem deleteNode_removes_one_witness :
    Rep fiveWords 0 fiveWordsTree ∧ fiveWordsTree.RedBlack ∧ 1 ∈ fiveWordsTree.addrs ∧
      ∃ fuel st' T' l1 l2, deleteNode fuel fiveWords 1 0 = some st' ∧ Rep st' 0 T' ∧
        readTree fuel st' st'.root 0 = some T' ∧
        fiveWordsTree.nodes = l1 ++ (1, fiveWords.key 1) :: l2 ∧ T'.nodes = l1 ++ l2 ∧
        T'.nodes.length + 1 = fiveWordsTree.nodes.length ∧ 1 ∉ T'.addrs ∧
        ∀ a ∈ fiveWordsTree.addrs, a ≠ 1 → a ∈ T'.addrs ∧ st'.key a = fiveWords.key a :=
  ⟨rep_fiveWords, by decide, by decide,
    deleteNode_removes_one fiveWords 0 fiveWordsTree 1 rep_fiveWords (by decide) (by decide)⟩

/-- On a tree of one node with a vowel key, in a memory with a vowel behind the sentinel,
`reduceTree` never returns: it deletes the node and goes on with the sentinel. -/
theorem reduceTree_oneVowel {st : Mem} {s a : Nat} {k : List Int}
    (h : Rep st s (Tree.node a false k Tree.nil Tree.nil))
    (hk : isVowel (k.getD 0 0) = true) (hg : isVowel ((st.key s).getD 0 0) = true)
    (fuel : Nat) : reduceTree fuel st s = none := by
  have ht := h.tree
  simp only [treeAt_node, Tree.ptr_nil, treeAt_nil, and_true] at ht
  obtain ⟨t1, t2, t3, t4, t5⟩ := ht
  have hroot := h.root
  simp only [Tree.ptr_node] at hroot
  have hs := h.sentinel_not_mem
  simp only [Tree.addrs_node, Tree.addrs_nil, List.nil_append, List.mem_singleton] at hs
  have has : a ≠ s := fun e => hs e.symm
  cases fuel with
  | zero => simp [reduceTree, minimum]
  | succ n =>
    have hv : EmptyVowel ((substituteSubtree st a s s).setColor s false) s := by
      constructor
      case vowel => simpa [substituteSubtree, t1] using hg
      all_goals simp [substituteSubtree, t1, Function.update_apply, h.sentinel_left,
        h.sentinel_right]
    have hdel : deleteNode (n + 1) st a s = some ((substituteSubtree st a s s).setColor s false) := by
      simp only [deleteNode, deleteUnlink, t2, t3, t4, if_true, reparationRBtree]
      have : (substituteSubtree st a s s).root = s := by simp [substituteSubtree, t1]
      simp [this]
    simp only [reduceTree, minimum, maximum, hroot, t2, t3, ne_eq, not_true_eq_false, if_false]
    rw [reduceLoop]
    simp only [t5, hk, if_true, hdel]
    simp only [minimum, maximum, hv.root, hv.left, hv.right, ne_eq, not_true_eq_false,
      if_false]
    exact reduceLoop_emptyVowel _ _ _ s hv

theorem rep_oneVowel : Rep oneVowel 0 (Tree.node 1 false apple Tree.nil Tree.nil) := by
  refine ⟨by decide!, ?_, by decide, by decide, by decide!, by decide!, by decide!, by decide!,
    by decide!⟩
  simp only [treeAt_node, treeAt_nil, Tree.ptr_node, Tree.ptr_nil, and_true]
  decide!

/-- C6, the code at a failing input: the tree that holds the one word `apple`, built by
`insertElement` from the empty tree in a memory where the byte read at
`sentinel->key[0]` is `'a'`. It is a red-black tree and its only key starts with a vowel;
`reduceTree` does not return for any amount of fuel: it deletes the node, restarts from
`minimum(root)`, which is now the sentinel, reads the byte behind the sentinel record,
calls `deleteNode` on the sentinel, and so on. -/
theorem reduceTree_all_vowels_diverges (fuel : Nat) :
    insertElement 2 (emptyTree (blankMem [97])).1 apple (emptyTree (blankMem [97])).2 =
        some oneVowel ∧
      Rep oneVowel 0 (Tree.node 1 false apple Tree.nil Tree.nil) ∧
      (Tree.node 1 false apple Tree.nil Tree.nil).RedBlack ∧
      isVowel (apple.getD 0 0) = true ∧
      reduceTree fuel oneVowel 0 = none := by
  refine ⟨?_, rep_oneVowel, by decide, by decide, reduceTree_oneVowel rep_oneVowel (by decide)
    (by decide!) fuel⟩
  have hsome : (insertElement 2 (emptyTree (blankMem [97])).1 apple
      (emptyTree (blankMem [97])).2).isSome = true := by decide!
  cases hx : insertElement 2 (emptyTree (blankMem [97])).1 apple (emptyTree (blankMem [97])).2 with
  | none => rw [hx] at hsome; exact absurd hsome (by decide)
  | some v => simp [oneVowel, hx]

theorem rep_twoBananas : Rep twoBananas 0 twoBananasTree := by
  refine ⟨by decide!, ?_, by decide, by decide, by decide!, by decide!, by decide!, by decide!,
    by decide!⟩
  simp only [twoBananasTree, treeAt_node, treeAt_nil, Tree.ptr_node, Tree.ptr_nil, and_true]
  decide!

/-- C5 as stated fails: in the red-black tree that holds the word `banana` twice (built by
two calls of `insertElement`), `deleteNode` of the first node, which holds `banana`,
leaves the second node as root, and a search for `banana` finds it: its key compares
equal. -/
theorem delete_duplicate_still_found :
    insertAll 3 (emptyTree (blankMem [])).1 [banana, banana] (emptyTree (blankMem [])).2 =
        some twoBananas ∧
      Rep twoBananas 0 twoBananasTree ∧ twoBananasTree.RedBlack ∧ twoBananasTree.Ordered ∧
      1 ∈ twoBananasTree.addrs ∧ twoBananas.key 1 = banana ∧
      ((deleteNode 3 twoBananas 1 0).bind (fun st => readTree 3 st st.root 0)) =
        some (Tree.node 2 false banana Tree.nil Tree.nil) ∧
      ((deleteNode 3 twoBananas 1 0).bind (fun st => search 3 st banana st.root 0)) =
        some (some 2) ∧
      stringCompare banana banana = 0 := by
  refine ⟨?_, rep_twoBananas, by decide, (Tree.ordered_iff_pairwise _).2 (by decide!), by decide,
    by decide!, by decide!, by decide!, by decide!⟩
  have hsome : (insertAll 3 (emptyTree (blankMem [])).1 [banana, banana]
      (emptyTree (blankMem [])).2).isSome = true := by decide!
  cases hx : insertAll 3 (emptyTree (blankMem [])).1 [banana, banana]
      (emptyTree (blankMem [])).2 with
  | none => rw [hx] at hsome; exact absurd hsome (by decide)
  | some v => simp [twoBananas, hx]

/-- C5, amended: on every memory that holds a red-black tree and for every node `n` of it,
with `k` the key of `n`: `deleteNode` returns, the nodes of the tree afterwards are
exactly the other nodes of the tree before, with their keys, and the search for `k` from
the root returns. If the search returns a node, that node is another node of the tree
before whose key compares equal to `k`. If no other node of the tree has a key comparing
equal to `k`, the search returns not-found and no node of the tree afterwards has a key
comparing equal to `k`. If the tree is ordered and another node has a key comparing equal
to `k`, the search finds a node. -/
theorem deleteNode_then_search (st : Mem) (s : Nat) (T : Tree) (n : Nat)
    (h : Rep st s T) (hrb : T.RedBlack) (hn : n ∈ T.addrs) :
    ∃ fuel st' T' r, deleteNode fuel st n s = some st' ∧ Rep st' s T' ∧
      (∀ x, x ∈ T'.nodes ↔ (x ∈ T.nodes ∧ x.1 ≠ n)) ∧
      search fuel st' (st.key n) st'.root s = some r ∧
      (∀ a, r = some a → a ≠ n ∧ (a, st.key a) ∈ T.nodes ∧ st'.key a = st.key a ∧
        stringCompare (st.key n) (st.key a) = 0) ∧
      ((∀ x ∈ T.nodes, x.1 ≠ n → stringCompare (st.key n) x.2 ≠ 0) →
        r = none ∧ ∀ x ∈ T'.nodes, stringCompare (st.key n) x.2 ≠ 0) ∧
      (T.Ordered → (∃ x ∈ T.nodes, x.1 ≠ n ∧ stringCompare (st.key n) x.2 = 0) →
        ∃ a, r = some a) := by
  obtain ⟨m, st', T', l1, l2, hrun, hrep, hrb', h1, h2, -, -⟩ := deleteNode_spec h hrb hn
  have hnd := h.nodup
  rw [Tree.addrs_eq_map, h1] at hnd
  simp only [List.map_append, List.map_cons, List.nodup_append, List.nodup_cons,
    List.disjoint_cons_right] at hnd
  have hmem : ∀ x, x ∈ T'.nodes ↔ (x ∈ T.nodes ∧ x.1 ≠ n) := by
    intro x
    rw [h1, h2]
    simp only [List.mem_append, List.mem_cons]
    constructor
    · rintro (hx | hx)
      · exact ⟨Or.inl hx, fun e => hnd.2.2.1 (e ▸ List.mem_map_of_mem _ hx)⟩
      · exact ⟨Or.inr (Or.inr hx), fun e => hnd.2.1.1 (e ▸ List.mem_map_of_mem _ hx)⟩
    · rintro ⟨hx | rfl | hx, hne⟩
      · exact Or.inl hx
      · exact absurd rfl hne
      · exact Or.inr hx
  obtain ⟨m2, r, hsearch, hfound, hnone⟩ :=
    @search_spec st' s (st.key n) T' s hrep.tree hrep.sentinel_not_mem
  have hfound' : ∀ a, r = some a → a ≠ n ∧ (a, st.key a) ∈ T.nodes ∧ st'.key a = st.key a ∧
      stringCompare (st.key n) (st.key a) = 0 := by
    intro a ha
    obtain ⟨x, hx, e1, e2⟩ := hfound a ha
    have hxT := (hmem x).1 hx
    have k1 := TreeAt.key_of_mem T s h.tree x hxT.1
    have k2 := TreeAt.key_of_mem T' s hrep.tree x hx
    subst e1
    refine ⟨hxT.2, ?_, by rw [k1, k2], by rw [k1]; exact e2⟩
    rw [k1]
    exact hxT.1
  refine ⟨max m m2, st', T', r, hrun _ (le_max_left _ _), hrep, hmem, ?_, hfound', ?_, ?_⟩
  · rw [hrep.root]
    exact hsearch _ (le_max_right _ _)
  · intro huniq
    have hno : ∀ x ∈ T'.nodes, stringCompare (st.key n) x.2 ≠ 0 := fun x hx =>
      huniq x ((hmem x).1 hx).1 ((hmem x).1 hx).2
    refine ⟨?_, hno⟩
    cases r with
    | none => rfl
    | some a =>
      obtain ⟨x, hx, -, e2⟩ := hfound a rfl
      exact absurd e2 (hno x hx)
  · rintro hord ⟨x, hx, hxn, hxe⟩
    cases r with
    | some a => exact ⟨a, rfl⟩
    | none =>
      exfalso
      have hord' := ordered_of_remove h1 h2 hord
      have hx' : x ∈ T'.nodes := (hmem x).2 ⟨hx, hxn⟩
      refine hnone (T'.searchTree_of_ordered hord') rfl x.2 ?_ hxe
      rw [Tree.keys_eq_map]
      exact List.mem_map_of_mem _ hx'

/-- Witness of C5: the first of two nodes holding `banana` deleted (the search then finds
the second), and the root `banana` deleted from the tree of the five words, whose keys
are all different. -/
theorem deleteNode_then_search_witness :
    Rep twoBananas 0 twoBananasTree ∧ twoBananasTree.RedBlack ∧ 1 ∈ twoBananasTree.addrs ∧
      twoBananasTree.Ordered ∧
      (∃ x ∈ twoBananasTree.nodes, x.1 ≠ 1 ∧ stringCompare (twoBananas.key 1) x.2 = 0) ∧
      Rep fiveWords 0 fiveWordsTree ∧ fiveWordsTree.RedBlack ∧ 1 ∈ fiveWordsTree.addrs ∧
      (∀ x ∈ fiveWordsTree.nodes, x.1 ≠ 1 → stringCompare (fiveWords.key 1) x.2 ≠ 0) ∧
      (∃ fuel st' T' r, deleteNode fuel twoBananas 1 0 = some st' ∧ Rep st' 0 T' ∧
        (∀ x, x ∈ T'.nodes ↔ (x ∈ twoBananasTree.nodes ∧ x.1 ≠ 1)) ∧
        search fuel st' (twoBananas.key 1) st'.root 0 = some r ∧
        (∀ a, r = some a → a ≠ 1 ∧ (a, twoBananas.key a) ∈ twoBananasTree.nodes ∧
          st'.key a = twoBananas.key a ∧
          stringCompare (twoBananas.key 1) (twoBananas.key a) = 0) ∧
        ((∀ x ∈ twoBananasTree.nodes, x.1 ≠ 1 → stringCompare (twoBananas.key 1) x.2 ≠ 0) →
          r = none ∧ ∀ x ∈ T'.nodes, stringCompare (twoBananas.key 1) x.2 ≠ 0) ∧
        (twoBananasTree.Ordered →
          (∃ x ∈ twoBananasTree.nodes, x.1 ≠ 1 ∧ stringCompare (twoBananas.key 1) x.2 = 0) →
          ∃ a, r = some a)) ∧
      (∃ fuel st' T' r, deleteNode fuel fiveWords 1 0 = some st' ∧ Rep st' 0 T' ∧
        (∀ x, x ∈ T'.nodes ↔ (x ∈ fiveWordsTree.nodes ∧ x.1 ≠ 1)) ∧
        search fuel st' (fiveWords.key 1) st'.root 0 = some r ∧
        (∀ a, r = some a → a ≠ 1 ∧ (a, fiveWords.key a) ∈ fiveWordsTree.nodes ∧
          st'.key a = fiveWords.key a ∧
          stringCompare (fiveWords.key 1) (fiveWords.key a) = 0) ∧
        ((∀ x ∈ fiveWordsTree.nodes, x.1 ≠ 1 → stringCompare (fiveWords.key 1) x.2 ≠ 0) →
          r = none ∧ ∀ x ∈ T'.nodes, stringCompare (fiveWords.key 1) x.2 ≠ 0) ∧
        (fiveWordsTree.Ordered →
          (∃ x ∈ fiveWordsTree.nodes, x.1 ≠ 1 ∧ stringCompare (fiveWords.key 1) x.2 = 0) →
          ∃ a, r = some a)) :=
  ⟨rep_twoBananas, by decide, by decide, (Tree.ordered_iff_pairwise _).2 (by decide!),
    ⟨(2, banana), by decide, by decide, by decide!⟩,
    rep_fiveWords, by decide, by decide, by decide!,
    deleteNode_then_search twoBananas 0 twoBananasTree 1 rep_twoBananas (by decide) (by decide),
    deleteNode_then_search fiveWords 0 fiveWordsTree 1 rep_fiveWords (by decide) (by decide)⟩

/-! ## `stringCompare` is the lexicographic comparison -/

/-- The three outcomes of the comparison loop, each with what it says about the bytes. -/
theorem stringCompareFrom_cases (a b : List Int) (i n : Nat) :
    (stringCompareFrom a b i n = 0 ∧ ∀ j, j < n → a.getD (i + j) 0 = b.getD (i + j) 0) ∨
    (stringCompareFrom a b i n = -1 ∧ ∃ j, j < n ∧
      (∀ j', j' < j → a.getD (i + j') 0 = b.getD (i + j') 0) ∧
      a.getD (i + j) 0 < b.getD (i + j) 0) ∨
    (stringCompareFrom a b i n = 1 ∧ ∃ j, j < n ∧
      (∀ j', j' < j → a.getD (i + j') 0 = b.getD (i + j') 0) ∧
      b.getD (i + j) 0 < a.getD (i + j) 0) := by
  induction n generalizing i with
  | zero => left; simp [stringCompareFrom]
  | succ n ih =>
    simp only [stringCompareFrom]
    by_cases h1 : a.getD i 0 < b.getD i 0
    · right; left
      simp only [h1, if_true, true_and]
      exact ⟨0, by omega, fun j' hj' => absurd hj' (by omega), by simpa using h1⟩
    · by_cases h2 : a.getD i 0 > b.getD i 0
      · right; right
        simp only [h1, h2, if_true, if_false, true_and]
        exact ⟨0, by omega, fun j' hj' => absurd hj' (by omega), by simpa using h2⟩
      · have he : a.getD i 0 = b.getD i 0 := by omega
        simp only [h1, h2, if_false]
        have shift : ∀ j, i + 1 + j = i + (j + 1) := fun j => by omega
        rcases ih (i + 1) with ⟨e, hall⟩ | ⟨e, j, hj, hb, hlt⟩ | ⟨e, j, hj, hb, hlt⟩
        · left
          refine ⟨e, fun j hj => ?_⟩
          cases j with
          | zero => simpa using he
          | succ j => rw [← shift]; exact hall j (by omega)
        · right; left
          refine ⟨e, j + 1, by omega, fun j' hj' => ?_, by rw [← shift]; exact hlt⟩
          cases j' with
          | zero => simpa using he
          | succ j' => rw [← shift]; exact hb j' (by omega)
        · right; right
          refine ⟨e, j + 1, by omega, fun j' hj' => ?_, by rw [← shift]; exact hlt⟩
          cases j' with
          | zero => simpa using he
          | succ j' => rw [← shift]; exact hb j' (by omega)

/-- Two lists of the same length with the same bytes are equal. -/
theorem eq_of_getD_eq {a b : List Int} {n : Nat} (ha : a.length = n) (hb : b.length = n)
    (h : ∀ i, i < n → a.getD i 0 = b.getD i 0) : a = b := by
  apply List.ext_getElem (by rw [ha, hb])
  intro i h1 h2
  have := h i (by omega)
  rw [List.getD_eq_getElem _ _ h1, List.getD_eq_getElem _ _ h2] at this
  exact this

/-- C13: for all keys `s1`, `s2` of `length` = 32 bytes, `stringCompare` is the
lexicographic comparison of all 32 bytes by their values: the result is `-1`, `0` or
`1`; it is `-1` (resp. `1`) exactly when at the first position where the keys differ the
byte of `s1` is smaller (resp. greater), whatever bytes, zero included, come before; it
is `0` exactly when all 32 bytes are the same, that is when `s1 = s2`. -/
theorem stringCompare_lexicographic (s1 s2 : List Int) (h1 : s1.length = length)
    (h2 : s2.length = length) :
    (stringCompare s1 s2 = -1 ∨ stringCompare s1 s2 = 0 ∨ stringCompare s1 s2 = 1) ∧
    (stringCompare s1 s2 = -1 ↔ ∃ i, i < length ∧
      (∀ j, j < i → s1.getD j 0 = s2.getD j 0) ∧ s1.getD i 0 < s2.getD i 0) ∧
    (stringCompare s1 s2 = 1 ↔ ∃ i, i < length ∧
      (∀ j, j < i → s1.getD j 0 = s2.getD j 0) ∧ s2.getD i 0 < s1.getD i 0) ∧
    (stringCompare s1 s2 = 0 ↔ ∀ i, i < length → s1.getD i 0 = s2.getD i 0) ∧
    (stringCompare s1 s2 = 0 ↔ s1 = s2) := by
  have hc := stringCompareFrom_cases s1 s2 0 length
  simp only [Nat.zero_add] at hc
  have hex : ∀ i j : Nat, (∀ j', j' < i → s1.getD j' 0 = s2.getD j' 0) →
      s1.getD i 0 < s2.getD i 0 → (∀ j', j' < j → s1.getD j' 0 = s2.getD j' 0) →
      s2.getD j 0 < s1.getD j 0 → False := by
    intro i j hi hlt hj hgt
    rcases Nat.lt_trichotomy i j with h | h | h
    · have := hj i h; omega
    · subst h; omega
    · have := hi j h; omega
  have key : (stringCompare s1 s2 = 0 ↔ ∀ i, i < length → s1.getD i 0 = s2.getD i 0) := by
    constructor
    · intro e
      rcases hc with ⟨-, hall⟩ | ⟨e', -⟩ | ⟨e', -⟩
      · exact hall
      · rw [stringCompare] at e; omega
      · rw [stringCompare] at e; omega
    · intro hall
      rcases hc with ⟨e, -⟩ | ⟨-, j, hj, -, hlt⟩ | ⟨-, j, hj, -, hlt⟩
      · exact e
      · have := hall j hj; omega
      · have := hall j hj; omega
  refine ⟨?_, ?_, ?_, key, ?_⟩
  · rcases hc with ⟨e, -⟩ | ⟨e, -⟩ | ⟨e, -⟩ <;> simp [stringCompare, e]
  · constructor
    · intro e
      rcases hc with ⟨e', -⟩ | ⟨-, hj⟩ | ⟨e', -⟩
      · rw [stringCompare] at e; omega
      · exact hj
      · rw [stringCompare] at e; omega
    · rintro ⟨i, hi, hb, hlt⟩
      rcases hc with ⟨-, hall⟩ | ⟨e, -⟩ | ⟨-, j, hj, hb', hgt⟩
      · have := hall i hi; omega
      · exact e
      · exact absurd (hex i j hb hlt hb' hgt) id
  · constructor
    · intro e
      rcases hc with ⟨e', -⟩ | ⟨e', -⟩ | ⟨-, hj⟩
      · rw [stringCompare] at e; omega
      · rw [stringCompare] at e; omega
      · exact hj
    · rintro ⟨i, hi, hb, hgt⟩
      rcases hc with ⟨-, hall⟩ | ⟨-, j, hj, hb', hlt⟩ | ⟨e, -⟩
      · have := hall i hi; omega
      · exact absurd (hex j i hb' hlt hb hgt) id
      · exact e
  · rw [key]
    constructor
    · exact eq_of_getD_eq h1 h2
    · rintro rfl i _; rfl

/-- Witness of C13: two keys that differ only behind a zero byte. -/
theorem stringCompare_lexicographic_witness :
    (pad [97, 0, 98]).length = length ∧ (pad [97, 0, 99]).length = length ∧
    stringCompare (pad [97, 0, 98]) (pad [97, 0, 99]) = -1 ∧
    ((stringCompare (pad [97, 0, 98]) (pad [97, 0, 99]) = -1 ∨
        stringCompare (pad [97, 0, 98]) (pad [97, 0, 99]) = 0 ∨
        stringCompare (pad [97, 0, 98]) (pad [97, 0, 99]) = 1) ∧
      (stringCompare (pad [97, 0, 98]) (pad [97, 0, 99]) = -1 ↔ ∃ i, i < length ∧
        (∀ j, j < i → (pad [97, 0, 98]).getD j 0 = (pad [97, 0, 99]).getD j 0) ∧
        (pad [97, 0, 98]).getD i 0 < (pad [97, 0, 99]).getD i 0) ∧
      (stringCompare (pad [97, 0, 98]) (pad [97, 0, 99]) = 1 ↔ ∃ i, i < length ∧
        (∀ j, j < i → (pad [97, 0, 98]).getD j 0 = (pad [97, 0, 99]).getD j 0) ∧
        (pad [97, 0, 99]).getD i 0 < (pad [97, 0, 98]).getD i 0) ∧
      (stringCompare (pad [97, 0, 98]) (pad [97, 0, 99]) = 0 ↔
        ∀ i, i < length → (pad [97, 0, 98]).getD i 0 = (pad [97, 0, 99]).getD i 0) ∧
      (stringCompare (pad [97, 0, 98]) (pad [97, 0, 99]) = 0 ↔
        pad [97, 0, 98] = pad [97, 0, 99])) :=
  ⟨by decide, by decide, by decide!,
    stringCompare_lexicographic (pad [97, 0, 98]) (pad [97, 0, 99]) (by decide) (by decide)⟩

/-! ## The rotations on a tree held in memory -/

/-- A node of a tree held in memory, with the position around it and its fields. -/
theorem Rep.node_zip {st : Mem} {s : Nat} {T : Tree} {x : Nat} (h : Rep st s T)
    (hx : x ∈ T.addrs) :
    ∃ fs c k A R, T = plug fs (Tree.node x c k A R) ∧ Zip st s fs (Tree.node x c k A R) ∧
      st.father x = pathPtr s fs ∧ st.son_l x = A.ptr s ∧ st.son_r x = R.ptr s ∧
      st.color x = c ∧ st.key x = k ∧ x ≠ s := by
  obtain ⟨fs, c, k, A, R, rfl⟩ := Tree.exists_plug_of_mem T hx
  have hz := (rep_plug_iff st s fs _).1 h
  have ht := hz.tree
  simp only [treeAt_node] at ht
  obtain ⟨t1, t2, t3, t4, t5, -, -⟩ := ht
  refine ⟨fs, c, k, A, R, rfl, hz, t1, t2, t3, t4, t5, ?_⟩
  rintro rfl
  exact hz.sentinel_not_mem (by simp)

/-- The node at the position is the root exactly when its `father` is the sentinel. -/
theorem Zip.father_sentinel_iff {st : Mem} {s : Nat} {fs : List Frame} {x : Nat} {c : Bool}
    {k : List Int} {A R : Tree} (h : Zip st s fs (Tree.node x c k A R)) :
    (st.father x = s ↔ st.root = x) ∧ (pathPtr s fs = s ↔ fs = []) := by
  have hf := h.father_ptr
  have hroot := h.root
  simp only [Tree.ptr_node] at hroot
  have hnd := h.nodup
  have hs := h.sentinel_not_mem
  cases fs with
  | nil => simp [hf, hroot]
  | cons f fs =>
    have h1 := rootPtr_mem fs f x
    have hxP : x ∉ pathAddrs (f :: fs) := by
      intro hm
      have := (List.nodup_append.1 hnd).2.2
      exact this (by simp : x ∈ (Tree.node x c k A R).addrs) hm
    have hsP : f.addr ≠ s := by
      intro e
      exact hs (by simp [← e])
    rw [hf, hroot]
    simp only [pathPtr_cons, hsP, false_iff, reduceCtorEq, iff_self, and_true]
    intro e
    rw [e] at h1
    exact hxP h1

/-- The in-order sequence of keys decides the order properties. -/
theorem ordered_of_nodes_eq {T T' : Tree} (h : T'.nodes = T.nodes) (ho : T.Ordered) :
    T'.Ordered ∧ T'.SearchTree := by
  have hk : T'.keys = T.keys := by rw [Tree.keys_eq_map, Tree.keys_eq_map, h]
  have : T'.Ordered := by
    unfold Tree.Ordered at ho ⊢
    rw [hk]; exact ho
  exact ⟨this, T'.searchTree_of_ordered this⟩

/-- C12: on every memory that holds a tree and for every node `x` of it whose right child
is a real node, `leftRotation` at `x` leaves a memory that holds a tree with the same
in-order sequence of nodes (addresses and keys); so an ordered key sequence stays ordered
and the tree stays a search tree. The same for `rightRotation` when the left child of `x`
is a real node. -/
theorem rotation_keeps_inorder (st : Mem) (s : Nat) (T : Tree) (x : Nat) (h : Rep st s T)
    (hx : x ∈ T.addrs) :
    (st.son_r x ≠ s → ∃ T', Rep (leftRotation st x s) s T' ∧ T'.nodes = T.nodes ∧
      (T.Ordered → T'.Ordered ∧ T'.SearchTree)) ∧
    (st.son_l x ≠ s → ∃ T', Rep (rightRotation st x s) s T' ∧ T'.nodes = T.nodes ∧
      (T.Ordered → T'.Ordered ∧ T'.SearchTree)) := by
  obtain ⟨fs, c, k, A, R, rfl, hz, -, hl, hr, -, -, -⟩ := h.node_zip hx
  constructor
  · intro hne
    cases R with
    | nil => exact absurd hr hne
    | node y cy ky B C =>
      have hn : (plug fs (Tree.node y cy ky (Tree.node x c k A B) C)).nodes =
          (plug fs (Tree.node x c k A (Tree.node y cy ky B C))).nodes := by
        rw [nodes_plug, nodes_plug]; simp
      exact ⟨_, hz.rotateLeft.rep, hn, ordered_of_nodes_eq hn⟩
  · intro hne
    cases A with
    | nil => exact absurd hl hne
    | node y cy ky B C =>
      have hn : (plug fs (Tree.node y cy ky B (Tree.node x c k C R))).nodes =
          (plug fs (Tree.node x c k (Tree.node y cy ky B C) R)).nodes := by
        rw [nodes_plug, nodes_plug]; simp
      exact ⟨_, hz.rotateRight.rep, hn, ordered_of_nodes_eq hn⟩

/-- Witness of C12: both rotations at the root `banana` of the tree of the five words. -/
theorem rotation_keeps_inorder_witness :
    Rep fiveWords 0 fiveWordsTree ∧ 1 ∈ fiveWordsTree.addrs ∧ fiveWords.son_r 1 ≠ 0 ∧
      fiveWords.son_l 1 ≠ 0 ∧ fiveWordsTree.Ordered ∧
      ((fiveWords.son_r 1 ≠ 0 → ∃ T', Rep (leftRotation fiveWords 1 0) 0 T' ∧
        T'.nodes = fiveWordsTree.nodes ∧ (fiveWordsTree.Ordered → T'.Ordered ∧ T'.SearchTree)) ∧
      (fiveWords.son_l 1 ≠ 0 → ∃ T', Rep (rightRotation fiveWords 1 0) 0 T' ∧
        T'.nodes = fiveWordsTree.nodes ∧ (fiveWordsTree.Ordered → T'.Ordered ∧ T'.SearchTree))) :=
  ⟨rep_fiveWords, by decide, by decide!, by decide!, ordered_fiveWords,
    rotation_keeps_inorder fiveWords 0 fiveWordsTree 1 rep_fiveWords (by decide)⟩

/-- Below a real father, no node at the position is the root. -/
theorem Zip.root_ne {st : Mem} {s : Nat} {fs : List Frame} {t : Tree} (h : Zip st s fs t)
    (hfs : pathPtr s fs ≠ s) {a : Nat} (ha : a ∈ t.addrs) : st.root ≠ a := by
  cases fs with
  | nil => exact absurd rfl hfs
  | cons f fs =>
    have h1 := rootPtr_mem fs f (t.ptr s)
    rw [← h.root] at h1
    intro e
    rw [e] at h1
    exact (List.nodup_append.1 h.nodup).2.2 ha h1

/-- C17: on every memory that holds a tree and for every node `x` of it whose right child
`y` is a real node, `leftRotation` at `x` leaves the colour and the key of every record
unchanged, leaves the links of every record other than `x`, `y`, the left child `b` of `y`
and the father `p` of `x` unchanged, and those of the sentinel too (when `b` or `p` is
the sentinel); the new links are `x.father = y`, `x.son_r = b`, `y.father = p`,
`y.son_l = x`, `b.father = x` for a real `b`, and `y` in place of `x` as child of a real
`p`; `root` becomes `y` if the father of `x` was the sentinel, which is the case exactly
when `x` was the root, and is unchanged otherwise. The same for `rightRotation` with left
and right exchanged. -/
theorem rotation_frame (st : Mem) (s : Nat) (T : Tree) (x : Nat) (h : Rep st s T)
    (hx : x ∈ T.addrs) :
    (st.son_r x ≠ s →
      (leftRotation st x s).color = st.color ∧ (leftRotation st x s).key = st.key ∧
      (∀ a, a ∉ [x, st.son_r x, st.son_l (st.son_r x), st.father x] ∨ a = s →
        (leftRotation st x s).father a = st.father a ∧
        (leftRotation st x s).son_l a = st.son_l a ∧
        (leftRotation st x s).son_r a = st.son_r a) ∧
      (leftRotation st x s).root = (if st.father x = s then st.son_r x else st.root) ∧
      (st.father x = s ↔ st.root = x) ∧
      ((leftRotation st x s).root = st.son_r x ↔ st.father x = s) ∧
      (leftRotation st x s).father x = st.son_r x ∧
      (leftRotation st x s).son_l x = st.son_l x ∧
      (leftRotation st x s).son_r x = st.son_l (st.son_r x) ∧
      (leftRotation st x s).father (st.son_r x) = st.father x ∧
      (leftRotation st x s).son_l (st.son_r x) = x ∧
      (leftRotation st x s).son_r (st.son_r x) = st.son_r (st.son_r x) ∧
      (st.son_l (st.son_r x) ≠ s →
        (leftRotation st x s).father (st.son_l (st.son_r x)) = x ∧
        (leftRotation st x s).son_l (st.son_l (st.son_r x)) = st.son_l (st.son_l (st.son_r x)) ∧
        (leftRotation st x s).son_r (st.son_l (st.son_r x)) =
          st.son_r (st.son_l (st.son_r x))) ∧
      (st.father x ≠ s →
        (leftRotation st x s).father (st.father x) = st.father (st.father x) ∧
        (leftRotation st x s).son_l (st.father x) =
          (if st.son_l (st.father x) = x then st.son_r x else st.son_l (st.father x)) ∧
        (leftRotation st x s).son_r (st.father x) =
          (if st.son_l (st.father x) = x then st.son_r (st.father x) else st.son_r x))) ∧
    (st.son_l x ≠ s →
      (rightRotation st x s).color = st.color ∧ (rightRotation st x s).key = st.key ∧
      (∀ a, a ∉ [x, st.son_l x, st.son_r (st.son_l x), st.father x] ∨ a = s →
        (rightRotation st x s).father a = st.father a ∧
        (rightRotation st x s).son_l a = st.son_l a ∧
        (rightRotation st x s).son_r a = st.son_r a) ∧
      (rightRotation st x s).root = (if st.father x = s then st.son_l x else st.root) ∧
      (st.father x = s ↔ st.root = x) ∧
      ((rightRotation st x s).root = st.son_l x ↔ st.father x = s) ∧
      (rightRotation st x s).father x = st.son_l x ∧
      (rightRotation st x s).son_r x = st.son_r x ∧
      (rightRotation st x s).son_l x = st.son_r (st.son_l x) ∧
      (rightRotation st x s).father (st.son_l x) = st.father x ∧
      (rightRotation st x s).son_r (st.son_l x) = x ∧
      (rightRotation st x s).son_l (st.son_l x) = st.son_l (st.son_l x) ∧
      (st.son_r (st.son_l x) ≠ s →
        (rightRotation st x s).father (st.son_r (st.son_l x)) = x ∧
        (rightRotation st x s).son_r (st.son_r (st.son_l x)) = st.son_r (st.son_r (st.son_l x)) ∧
        (rightRotation st x s).son_l (st.son_r (st.son_l x)) =
          st.son_l (st.son_r (st.son_l x))) ∧
      (st.father x ≠ s →
        (rightRotation st x s).father (st.father x) = st.father (st.father x) ∧
        (rightRotation st x s).son_r (st.father x) =
          (if st.son_r (st.father x) = x then st.son_l x else st.son_r (st.father x)) ∧
        (rightRotation st x s).son_l (st.father x) =
          (if st.son_r (st.father x) = x then st.son_l (st.father x) else st.son_l x))) := by
  obtain ⟨fs, c, k, A, R, rfl, hz, hf, hl, hr, -, -, -⟩ := h.node_zip hx
  have hroot := hz.father_sentinel_iff.1
  constructor
  · intro hne
    cases R with
    | nil => exact absurd hr hne
    | node y cy ky B C =>
      obtain ⟨q1, q2, q3, q4, q5, q6, hbx, hby, hpx, hpy, hpb⟩ := hz.rotateLeft_ptrs
      obtain ⟨⟨x1, x2, x3, -, -⟩, ⟨y1, y2, y3, -, -⟩, hb, hp, hrt, ⟨s1, s2, s3, -, -⟩, -, -⟩ :=
        leftRotation_fields st x s q1 q2 q3 q4 q5 q6 hbx hby hpx hpy hpb
      have hag := leftRotation_agree st x s
      rw [q1, q2, q3]
      rw [q1, q2, q3] at hag
      refine ⟨leftRotation_color st x s, leftRotation_key st x s, ?_, hrt, ?_, ?_, x1, x2, x3, y1,
        y2, y3, fun hbs => ?_, fun hps => ?_⟩
      · rintro a (ha | rfl)
        · have := hag a ha
          exact ⟨this.1, this.2.1, this.2.2.1⟩
        · exact ⟨s1, s2, s3⟩
      · rw [← q3]; exact hroot
      · rw [hrt]
        split_ifs with hp0
        · simp [hp0]
        · have := hz.root_ne hp0 (by simp : y ∈ (Tree.node x c k A (Tree.node y cy ky B C)).addrs)
          simp [this, hp0]
      · have := hb hbs
        exact ⟨this.1, this.2.1, this.2.2.1⟩
      · have := hp hps
        exact ⟨this.1, this.2.1, this.2.2.1⟩
  · intro hne
    cases A with
    | nil => exact absurd hl hne
    | node y cy ky B C =>
      obtain ⟨q1, q2, q3, q4, q5, q6, hbx, hby, hpx, hpy, hpb⟩ := hz.rotateRight_ptrs
      obtain ⟨⟨x1, x2, x3, -, -⟩, ⟨y1, y2, y3, -, -⟩, hb, hp, hrt, ⟨s1, s2, s3, -, -⟩, -, -⟩ :=
        rightRotation_fields st x s q1 q2 q3 q4 q5 q6 hbx hby hpx hpy hpb
      have hag := rightRotation_agree st x s
      rw [q1, q2, q3]
      rw [q1, q2, q3] at hag
      refine ⟨rightRotation_color st x s, rightRotation_key st x s, ?_, hrt, ?_, ?_, x1, x2, x3,
        y1, y2, y3, fun hbs => ?_, fun hps => ?_⟩
      · rintro a (ha | rfl)
        · have := hag a ha
          exact ⟨this.1, this.2.1, this.2.2.1⟩
        · exact ⟨s1, s3, s2⟩
      · rw [← q3]; exact hroot
      · rw [hrt]
        split_ifs with hp0
        · simp [hp0]
        · have := hz.root_ne hp0 (by simp : y ∈ (Tree.node x c k (Tree.node y cy ky B C) R).addrs)
          simp [this, hp0]
      · have := hb hbs
        exact ⟨this.1, this.2.1, this.2.2.1⟩
      · have := hp hps
        exact ⟨this.1, this.2.1, this.2.2.1⟩

/-- Witness of C17: both rotations at the root `banana` of the tree of the five words. -/
theorem rotation_frame_witness :
    Rep fiveWords 0 fiveWordsTree ∧ 1 ∈ fiveWordsTree.addrs ∧ fiveWords.son_r 1 ≠ 0 ∧
      fiveWords.son_l 1 ≠ 0 ∧ (leftRotation fiveWords 1 0).root = 4 ∧
      (rightRotation fiveWords 1 0).root = 2 ∧
      (leftRotation fiveWords 1 0).color = fiveWords.color ∧
      (rightRotation fiveWords 1 0).key = fiveWords.key :=
  ⟨rep_fiveWords, by decide, by decide!, by decide!, by decide!, by decide!,
    ((rotation_frame fiveWords 0 fiveWordsTree 1 rep_fiveWords (by decide)).1 (by decide!)).1,
    ((rotation_frame fiveWords 0 fiveWordsTree 1 rep_fiveWords (by decide)).2 (by decide!)).2.1⟩

/-! ## More fuel never changes a result -/

theorem minimum_mono {st : Mem} {s r : Nat} : ∀ {fuel fuel2 x : Nat}, fuel ≤ fuel2 →
    minimum fuel st x s = some r → minimum fuel2 st x s = some r := by
  intro fuel
  induction fuel with
  | zero => intro fuel2 x _ h; simp [minimum] at h
  | succ n ih =>
    intro fuel2 x hle h
    obtain ⟨j, rfl⟩ := Nat.exists_eq_add_of_le' hle
    rw [show j + (n + 1) = (j + n) + 1 from rfl]
    simp only [minimum] at h ⊢
    split_ifs at h ⊢ with hc
    · exact ih (by omega) h
    · exact h

theorem maximum_mono {st : Mem} {s r : Nat} : ∀ {fuel fuel2 x : Nat}, fuel ≤ fuel2 →
    maximum fuel st x s = some r → maximum fuel2 st x s = some r := by
  intro fuel
  induction fuel with
  | zero => intro fuel2 x _ h; simp [maximum] at h
  | succ n ih =>
    intro fuel2 x hle h
    obtain ⟨j, rfl⟩ := Nat.exists_eq_add_of_le' hle
    rw [show j + (n + 1) = (j + n) + 1 from rfl]
    simp only [maximum] at h ⊢
    split_ifs at h ⊢ with hc
    · exact ih (by omega) h
    · exact h

theorem successorLoop_mono {st : Mem} {s r : Nat} : ∀ {fuel fuel2 g t : Nat}, fuel ≤ fuel2 →
    successorLoop fuel st g t s = some r → successorLoop fuel2 st g t s = some r := by
  intro fuel
  induction fuel with
  | zero => intro fuel2 g t _ h; simp [successorLoop] at h
  | succ n ih =>
    intro fuel2 g t hle h
    obtain ⟨j, rfl⟩ := Nat.exists_eq_add_of_le' hle
    rw [show j + (n + 1) = (j + n) + 1 from rfl]
    simp only [successorLoop] at h ⊢
    split_ifs at h ⊢ with hc
    · exact ih (by omega) h
    · exact h

theorem successor_mono {st : Mem} {s r x fuel fuel2 : Nat} (hle : fuel ≤ fuel2)
    (h : successor fuel st x s = some r) : successor fuel2 st x s = some r := by
  simp only [successor] at h ⊢
  split_ifs at h ⊢ with hc
  · exact minimum_mono hle h
  · exact successorLoop_mono hle h

theorem insertLoop_mono {st : Mem} {s nodo r : Nat} : ∀ {fuel fuel2 p c : Nat}, fuel ≤ fuel2 →
    insertLoop fuel st nodo p c s = some r → insertLoop fuel2 st nodo p c s = some r := by
  intro fuel
  induction fuel with
  | zero => intro fuel2 p c _ h; simp [insertLoop] at h
  | succ n ih =>
    intro fuel2 p c hle h
    obtain ⟨j, rfl⟩ := Nat.exists_eq_add_of_le' hle
    rw [show j + (n + 1) = (j + n) + 1 from rfl]
    simp only [insertLoop] at h ⊢
    split_ifs at h ⊢ with h1 h2
    · exact ih (by omega) h
    · exact ih (by omega) h
    · exact h

theorem balancingRBtree_mono {s : Nat} {r : Mem} : ∀ {fuel fuel2 : Nat} {st : Mem} {g : Nat},
    fuel ≤ fuel2 → balancingRBtree fuel st g s = some r →
    balancingRBtree fuel2 st g s = some r := by
  intro fuel
  induction fuel with
  | zero => intro fuel2 st g _ h; simp [balancingRBtree] at h
  | succ n ih =>
    intro fuel2 st g hle h
    obtain ⟨j, rfl⟩ := Nat.exists_eq_add_of_le' hle
    rw [show j + (n + 1) = (j + n) + 1 from rfl]
    simp only [balancingRBtree] at h ⊢
    split_ifs at h ⊢ with hc
    · exact ih (by omega) h
    · exact h

theorem insertElement_mono {st r : Mem} {s fuel fuel2 : Nat} {k : List Int} (hle : fuel ≤ fuel2)
    (h : insertElement fuel st k s = some r) : insertElement fuel2 st k s = some r := by
  simp only [insertElement] at h ⊢
  split at h
  · exact absurd h (by simp)
  · rename_i pred hp
    rw [insertLoop_mono hle hp]
    exact balancingRBtree_mono hle h

theorem reparationRBtree_mono {s : Nat} {r : Mem} : ∀ {fuel fuel2 : Nat} {st : Mem} {g : Nat},
    fuel ≤ fuel2 → reparationRBtree fuel st g s = some r →
    reparationRBtree fuel2 st g s = some r := by
  intro fuel
  induction fuel with
  | zero => intro fuel2 st g _ h; simp [reparationRBtree] at h
  | succ n ih =>
    intro fuel2 st g hle h
    obtain ⟨j, rfl⟩ := Nat.exists_eq_add_of_le' hle
    rw [show j + (n + 1) = (j + n) + 1 from rfl]
    simp only [reparationRBtree] at h ⊢
    split_ifs at h ⊢ with hc
    · exact ih (by omega) h
    · exact h

theorem deleteUnlink_mono {st : Mem} {s n fuel fuel2 : Nat} {r : Mem × Nat × Bool}
    (hle : fuel ≤ fuel2) (h : deleteUnlink fuel st n s = some r) :
    deleteUnlink fuel2 st n s = some r := by
  simp only [deleteUnlink] at h ⊢
  split_ifs at h ⊢ with h1 h2
  · exact h
  · exact h
  · split at h
    · exact absurd h (by simp)
    · rename_i y hy
      rw [minimum_mono hle hy]
      exact h

theorem deleteNode_mono {st r : Mem} {s n fuel fuel2 : Nat} (hle : fuel ≤ fuel2)
    (h : deleteNode fuel st n s = some r) : deleteNode fuel2 st n s = some r := by
  simp only [deleteNode] at h ⊢
  split at h
  · exact absurd h (by simp)
  · rename_i st1 t2 oc hu
    rw [deleteUnlink_mono hle hu]
    simp only at h ⊢
    split_ifs at h ⊢ with hc
    · exact reparationRBtree_mono hle h
    · exact h

/-! ## Deleting the last node; termination and rotation counts -/

/-- Deleting the only node of a tree of one node leaves the empty tree, with the `father`
link of the sentinel pointing to the sentinel. -/
theorem deleteNode_single {st : Mem} {s a : Nat} {c : Bool} {k : List Int}
    (h : Rep st s (Tree.node a c k Tree.nil Tree.nil)) :
    ∃ st', (∀ fuel, 1 ≤ fuel → deleteNode fuel st a s = some st') ∧ Rep st' s Tree.nil ∧
      st'.father s = s ∧ st'.next = st.next ∧ st'.rot = st.rot ∧ st'.key = st.key := by
  have ht := h.tree
  simp only [treeAt_node, Tree.ptr_nil, treeAt_nil, and_true] at ht
  obtain ⟨t1, t2, t3, t4, t5⟩ := ht
  have hroot1 : (substituteSubtree st a s s).root = s := by simp [substituteSubtree, t1]
  have hf1 : (substituteSubtree st a s s).father s = s := by simp [t1]
  have hl1 : (substituteSubtree st a s s).son_l s = s := by
    simp [substituteSubtree, t1, h.sentinel_left]
  have hr1 : (substituteSubtree st a s s).son_r s = s := by
    simp [substituteSubtree, t1, h.sentinel_right]
  have hc1 : (substituteSubtree st a s s).color s = false := by simp [h.sentinel_color]
  cases c with
  | false =>
    refine ⟨(substituteSubtree st a s s).setColor s false, fun fuel hf => ?_,
      ⟨by simpa using hroot1, trivial, by simp, by simp, by simpa using h.sentinel_alloc,
        by simp, by simp, by simpa using hl1, by simpa using hr1⟩,
      by simpa using hf1, by simp, by simp, by simp⟩
    obtain ⟨j, rfl⟩ := Nat.exists_eq_add_of_le' hf
    simp only [deleteNode, deleteUnlink, t2, t3, t4, if_true, reparationRBtree, hroot1]
    simp
  | true =>
    refine ⟨substituteSubtree st a s s, fun fuel hf => ?_,
      ⟨hroot1, trivial, by simp, by simp, by simpa using h.sentinel_alloc,
        by simp, hc1, hl1, hr1⟩, hf1, by simp, by simp, by simp⟩
    simp [deleteNode, deleteUnlink, t2, t3, t4]

/-- C14: on every memory that holds a tree of exactly one node, `deleteNode` of that node
returns (with any fuel that is not zero, and always the same memory), and afterwards the
tree is empty: `root` is the sentinel, and the sentinel is black with `father`, `son_l`
and `son_r` pointing to itself. -/
theorem deleteNode_only_node (st : Mem) (s a : Nat) (c : Bool) (k : List Int)
    (h : Rep st s (Tree.node a c k Tree.nil Tree.nil)) :
    ∃ st', (∀ fuel, 1 ≤ fuel → deleteNode fuel st a s = some st') ∧
      (∀ fuel st2, deleteNode fuel st a s = some st2 → st2 = st') ∧
      Rep st' s Tree.nil ∧ st'.root = s ∧ st'.color s = false ∧ st'.father s = s ∧
      st'.son_l s = s ∧ st'.son_r s = s := by
  obtain ⟨st', hrun, hrep, hf, -, -, -⟩ := deleteNode_single h
  refine ⟨st', hrun, fun fuel st2 h2 => ?_, hrep, hrep.root, hrep.sentinel_color, hf,
    hrep.sentinel_left, hrep.sentinel_right⟩
  have h3 := deleteNode_mono (Nat.le_max_left fuel 1) h2
  rw [hrun _ (Nat.le_max_right fuel 1)] at h3
  exact (Option.some.inj h3).symm

/-- Witness of C14: the one-word tree `apple`. -/
theorem deleteNode_only_node_witness :
    Rep oneVowel 0 (Tree.node 1 false apple Tree.nil Tree.nil) ∧
      ∃ st', (∀ fuel, 1 ≤ fuel → deleteNode fuel oneVowel 1 0 = some st') ∧
        (∀ fuel st2, deleteNode fuel oneVowel 1 0 = some st2 → st2 = st') ∧
        Rep st' 0 Tree.nil ∧ st'.root = 0 ∧ st'.color 0 = false ∧ st'.father 0 = 0 ∧
        st'.son_l 0 = 0 ∧ st'.son_r 0 = 0 :=
  ⟨rep_oneVowel, deleteNode_only_node oneVowel 0 1 false apple rep_oneVowel⟩

/-- C19: on every memory that holds a red-black tree and for every key, `insertElement`
returns, and the memory it returns (the same for every amount of fuel that is enough)
has at most 2 more calls of `leftRotation`/`rightRotation` counted than the memory
before. -/
theorem insertElement_rotations (st : Mem) (s : Nat) (T : Tree) (k : List Int)
    (h : Rep st s T) (hrb : T.RedBlack) :
    ∃ fuel st', insertElement fuel st k s = some st' ∧ st'.rot ≤ st.rot + 2 ∧
      ∀ fuel2 st2, insertElement fuel2 st k s = some st2 → st2.rot ≤ st.rot + 2 := by
  obtain ⟨m, st', T', hrun, -, -, -, -, -, hrot⟩ := insertElement_spec k h hrb
  refine ⟨m, st', hrun m (le_refl _), hrot, fun fuel2 st2 h2 => ?_⟩
  have h3 := insertElement_mono (Nat.le_max_left fuel2 m) h2
  rw [hrun _ (Nat.le_max_right fuel2 m)] at h3
  rw [← Option.some.inj h3]
  exact hrot

/-- Witness of C19: the word `apple` inserted into the tree of the five words. -/
theorem insertElement_rotations_witness :
    Rep fiveWords 0 fiveWordsTree ∧ fiveWordsTree.RedBlack ∧
      ∃ fuel st', insertElement fuel fiveWords apple 0 = some st' ∧
        st'.rot ≤ fiveWords.rot + 2 ∧
        ∀ fuel2 st2, insertElement fuel2 fiveWords apple 0 = some st2 →
          st2.rot ≤ fiveWords.rot + 2 :=
  ⟨rep_fiveWords, by decide,
    insertElement_rotations fiveWords 0 fiveWordsTree apple rep_fiveWords (by decide)⟩

/-- C20: on every memory that holds a red-black tree and for every node of it,
`deleteNode` returns, and the memory it returns (the same for every amount of fuel that
is enough) has at most 3 more calls of `leftRotation`/`rightRotation` counted than the
memory before. -/
theorem deleteNode_rotations (st : Mem) (s : Nat) (T : Tree) (n : Nat)
    (h : Rep st s T) (hrb : T.RedBlack) (hn : n ∈ T.addrs) :
    ∃ fuel st', deleteNode fuel st n s = some st' ∧ st'.rot ≤ st.rot + 3 ∧
      ∀ fuel2 st2, deleteNode fuel2 st n s = some st2 → st2.rot ≤ st.rot + 3 := by
  obtain ⟨m, st', T', l1, l2, hrun, -, -, -, -, -, hrot⟩ := deleteNode_spec h hrb hn
  refine ⟨m, st', hrun m (le_refl _), hrot, fun fuel2 st2 h2 => ?_⟩
  have h3 := deleteNode_mono (Nat.le_max_left fuel2 m) h2
  rw [hrun _ (Nat.le_max_right fuel2 m)] at h3
  rw [← Option.some.inj h3]
  exact hrot

/-- Witness of C20: the black leaf `apple` deleted from the tree of the five words. -/
theorem deleteNode_rotations_witness :
    Rep fiveWords 0 fiveWordsTree ∧ fiveWordsTree.RedBlack ∧ 2 ∈ fiveWordsTree.addrs ∧
      ∃ fuel st', deleteNode fuel fiveWords 2 0 = some st' ∧ st'.rot ≤ fiveWords.rot + 3 ∧
        ∀ fuel2 st2, deleteNode fuel2 fiveWords 2 0 = some st2 → st2.rot ≤ fiveWords.rot + 3 :=
  ⟨rep_fiveWords, by decide, by decide,
    deleteNode_rotations fiveWords 0 fiveWordsTree 2 rep_fiveWords (by decide) (by decide)⟩

/-- C18: on every memory that holds a red-black tree both rebalancing loops end. For
every key there is an amount of fuel from which on the descent loop of `insertElement`
returns a `pred`, `balancingRBtree`, called on the freshly attached red node, returns, and
so `insertElement` returns. For every node of the tree there is an amount of fuel from
which on the unlinking part of `deleteNode` returns, `reparationRBtree`, called on the
replacement node `temp2` (which may be the sentinel) when the removed colour is black,
returns, and so `deleteNode` returns. -/
theorem rebalancing_terminates (st : Mem) (s : Nat) (T : Tree) (h : Rep st s T)
    (hrb : T.RedBlack) :
    (∀ k : List Int, ∃ m pred st', ∀ fuel, m ≤ fuel →
      insertLoop fuel ((st.malloc.2.setColor st.malloc.1 true).setKey st.malloc.1 k) st.malloc.1 s
        ((st.malloc.2.setColor st.malloc.1 true).setKey st.malloc.1 k).root s = some pred ∧
      balancingRBtree fuel
        (insertAttach ((st.malloc.2.setColor st.malloc.1 true).setKey st.malloc.1 k)
          st.malloc.1 pred s) st.malloc.1 s = some st' ∧
      insertElement fuel st k s = some st') ∧
    (∀ n, n ∈ T.addrs → ∃ m st1 temp2 oldc st', ∀ fuel, m ≤ fuel →
      deleteUnlink fuel st n s = some (st1, temp2, oldc) ∧
      (oldc = false → reparationRBtree fuel st1 temp2 s = some st') ∧
      deleteNode fuel st n s = some st') := by
  constructor
  · intro k
    obtain ⟨m, st', T', hrun, -⟩ := insertElement_spec k h hrb
    have h0 := hrun m (le_refl _)
    simp only [insertElement] at h0
    split at h0
    · exact absurd h0 (by simp)
    · rename_i pred hp
      exact ⟨m, pred, st', fun fuel hf =>
        ⟨insertLoop_mono hf hp, balancingRBtree_mono hf h0, hrun fuel hf⟩⟩
  · intro n hn
    obtain ⟨m, st', T', l1, l2, hrun, -⟩ := deleteNode_spec h hrb hn
    have h0 := hrun m (le_refl _)
    simp only [deleteNode] at h0
    split at h0
    · exact absurd h0 (by simp)
    · rename_i st1 t2 oc hu
      refine ⟨m, st1, t2, oc, st', fun fuel hf =>
        ⟨deleteUnlink_mono hf hu, fun hoc => ?_, hrun fuel hf⟩⟩
      simp only [hoc, if_true] at h0
      exact reparationRBtree_mono hf h0

/-- Witness of C18: the tree of the five words; deleting the black leaf `apple` there
calls `reparationRBtree` on the sentinel. -/
theorem rebalancing_terminates_witness :
    Rep fiveWords 0 fiveWordsTree ∧ fiveWordsTree.RedBlack ∧ 2 ∈ fiveWordsTree.addrs ∧
      deleteUnlink 1 fiveWords 2 0 = some (substituteSubtree fiveWords 2 0 0, 0, false) ∧
      (∃ m st1 temp2 oldc st', ∀ fuel, m ≤ fuel →
        deleteUnlink fuel fiveWords 2 0 = some (st1, temp2, oldc) ∧
        (oldc = false → reparationRBtree fuel st1 temp2 0 = some st') ∧
        deleteNode fuel fiveWords 2 0 = some st') :=
  ⟨rep_fiveWords, by decide, by decide,
    by simp only [deleteUnlink, show fiveWords.son_l 2 = 0 by decide!,
      show fiveWords.son_r 2 = 0 by decide!, show fiveWords.color 2 = false by decide!, if_true],
    (rebalancing_terminates fiveWords 0 fiveWordsTree rep_fiveWords (by decide)).2 2
      (by decide)⟩

/-! ## `successor` -/

theorem headD_nodesAfter (s : Nat) (fs : List Frame) :
    ((nodesAfter fs).map Prod.fst).headD s = pathNext s fs := by
  induction fs with
  | nil => rfl
  | cons f fs ih =>
    cases f with
    | left a c k r => simp [nodesAfter, pathNext]
    | right a c k l => exact ih

/-- The upward loop of `successor` from a node at the position of a path. -/
theorem successorLoop_spec {st : Mem} {s : Nat} : ∀ (fs : List Frame) (x : Nat) (c : Bool)
    (k : List Int) (A R : Tree), Zip st s fs (Tree.node x c k A R) →
    ∀ fuel, fs.length + 1 ≤ fuel →
      successorLoop fuel st x (pathPtr s fs) s = some (pathNext s fs) := by
  intro fs
  induction fs with
  | nil =>
    intro x c k A R _ fuel hf
    obtain ⟨j, rfl⟩ := Nat.exists_eq_add_of_le' hf
    simp [successorLoop, pathNext]
  | cons f fs ih =>
    intro x c k A R h fuel hf
    obtain ⟨j, rfl⟩ := Nat.exists_eq_add_of_le' hf
    rw [show j + ((f :: fs).length + 1) = (j + (fs.length + 1)) + 1 from rfl]
    have hp := h.path
    have hnd := h.nodup
    have hs := h.sentinel_not_mem
    cases f with
    | left a ca ka r =>
      simp only [pathAt_left, Tree.ptr_node] at hp
      have hne : st.son_r a ≠ x := by
        rw [hp.2.2.1]
        refine Tree.ptr_ne r (fun e => hs (by simp [e])) (fun hm => ?_)
        have := (List.nodup_append.1 hnd).2.2
        exact this (by simp : x ∈ (Tree.node x c k A R).addrs) (by simp [hm])
      simp [successorLoop, pathNext, hne]
    | right a ca ka l =>
      simp only [pathAt_right, Tree.ptr_node] at hp
      have hup := h.up_right
      have has : a ≠ s := fun e => hs (by simp [e])
      simp only [successorLoop, pathPtr_cons, Frame.addr_right, ne_eq, has, not_false_eq_true,
        hp.2.2.1, and_self, if_true, pathNext]
      rw [hup.father_ptr]
      exact ih a ca ka l _ hup (j + (fs.length + 1)) (by omega)

/-- The nodes of a tree whose left spine ends in `y`. -/
theorem nodes_plug_left (sp : List Frame) (t : Tree)
    (hl : ∀ f ∈ sp, ∃ a c k r, f = Frame.left a c k r) :
    (plug sp t).nodes = t.nodes ++ nodesAfter sp := by
  have := nodesBefore_append_left sp [] hl
  rw [List.append_nil] at this
  rw [nodes_plug, this]
  simp [nodesBefore]

/-- `successor` of the node at a position: the first of the nodes that follow it. -/
theorem successor_spec {st : Mem} {s : Nat} {fs : List Frame} {x : Nat} {c : Bool}
    {k : List Int} {A R : Tree} (h : Zip st s fs (Tree.node x c k A R)) :
    ∃ m, ∀ fuel, m ≤ fuel →
      successor fuel st x s = some (((R.nodes ++ nodesAfter fs).map Prod.fst).headD s) := by
  have ht := h.tree
  simp only [treeAt_node] at ht
  obtain ⟨t1, t2, t3, t4, t5, hA, hR⟩ := ht
  cases R with
  | nil =>
    refine ⟨fs.length + 1, fun fuel hf => ?_⟩
    simp only [Tree.ptr_nil] at t3
    simp only [successor, t3, ne_eq, not_true_eq_false, if_false, t1, Tree.nodes_nil,
      List.nil_append, headD_nodesAfter]
    exact successorLoop_spec fs x c k A Tree.nil h fuel hf
  | node r cr kr Ra Rb =>
    have hs := h.sentinel_not_mem
    have hsR : s ∉ (Tree.node r cr kr Ra Rb).addrs := by
      intro hm
      exact hs (by
        simp only [Tree.addrs_node, List.mem_append, List.mem_cons] at hm ⊢
        tauto)
    have hrs : r ≠ s := by
      rintro rfl
      exact hsR (by simp)
    obtain ⟨sp, y, cy, yr, m, hall, hRe, hmin⟩ :=
      minimum_spec (Tree.node r cr kr Ra Rb) x r cr kr Ra Rb rfl hR hsR
    refine ⟨m, fun fuel hf => ?_⟩
    simp only [Tree.ptr_node] at t3
    simp only [successor, t3, ne_eq, hrs, not_false_eq_true, if_true, hmin fuel hf]
    rw [hRe, nodes_plug_left sp _ hall]
    simp

theorem append_cons_unique {n : Nat} : ∀ {l1 l1' l2 l2' : List Nat},
    (l1 ++ n :: l2).Nodup → l1 ++ n :: l2 = l1' ++ n :: l2' → l1 = l1' ∧ l2 = l2' := by
  intro l1
  induction l1 with
  | nil =>
    intro l1' l2 l2' hnd h
    cases l1' with
    | nil => simpa using h
    | cons a t =>
      simp only [List.nil_append, List.cons_append, List.cons.injEq] at h
      obtain ⟨rfl, rfl⟩ := h
      simp at hnd
  | cons a t ih =>
    intro l1' l2 l2' hnd h
    cases l1' with
    | nil =>
      simp only [List.nil_append, List.cons_append, List.cons.injEq] at h
      obtain ⟨rfl, -⟩ := h
      simp at hnd
    | cons b t' =>
      simp only [List.cons_append, List.cons.injEq] at h
      obtain ⟨rfl, h⟩ := h
      have := ih (List.nodup_cons.1 hnd).2 h
      exact ⟨by rw [this.1], this.2⟩

/-- `successor` of a node of a tree held in memory returns the first of the nodes after it
in the in-order sequence, or the sentinel when there is none. -/
theorem successor_addrs {st : Mem} {s : Nat} {T : Tree} {n : Nat} {l1 l2 : List Nat}
    (h : Rep st s T) (hn : T.addrs = l1 ++ n :: l2) :
    ∃ m, (∀ fuel, m ≤ fuel → successor fuel st n s = some (l2.headD s)) ∧
      (∀ fuel r, successor fuel st n s = some r → r = l2.headD s) ∧
      (l2.headD s = s ↔ l2 = []) := by
  have hmem : n ∈ T.addrs := by rw [hn]; simp
  obtain ⟨fs, c, k, A, R, rfl, hz, -⟩ := h.node_zip hmem
  obtain ⟨m, hrun⟩ := successor_spec hz
  have hnd := h.nodup
  have hdec : (plug fs (Tree.node n c k A R)).addrs =
      (nodesBefore fs ++ A.nodes).map Prod.fst ++
        n :: (R.nodes ++ nodesAfter fs).map Prod.fst := by
    rw [Tree.addrs_eq_map, nodes_plug]
    simp
  rw [hn] at hnd
  have hl2 : l2 = (R.nodes ++ nodesAfter fs).map Prod.fst :=
    (append_cons_unique hnd (hn.symm.trans hdec)).2
  rw [← hl2] at hrun
  refine ⟨m, hrun, fun fuel r hr => ?_, ?_⟩
  · have h3 := successor_mono (Nat.le_max_left fuel m) hr
    rw [hrun _ (Nat.le_max_right fuel m)] at h3
    exact (Option.some.inj h3).symm
  · cases l2 with
    | nil => simp
    | cons a t =>
      simp only [List.headD_cons, reduceCtorEq, iff_false]
      rintro rfl
      exact h.sentinel_not_mem (by rw [hn]; simp)

/-- C11: on every memory that holds a tree (with the `father` links the representation
asks for) and for every node `n` of it, with `l2` the nodes after `n` in the in-order
sequence of node addresses: `successor` returns, and what it returns (with any amount of
fuel with which it returns) is the first node of `l2`, or the sentinel when `l2` is empty;
it is the sentinel exactly when `n` is the last node. `successor` only reads the memory:
it returns a pointer and no memory. -/
theorem successor_inorder (st : Mem) (s : Nat) (T : Tree) (n : Nat) (l1 l2 : List Nat)
    (h : Rep st s T) (hn : T.addrs = l1 ++ n :: l2) :
    ∃ m, (∀ fuel, m ≤ fuel → successor fuel st n s = some (l2.headD s)) ∧
      (∀ fuel r, successor fuel st n s = some r → r = l2.headD s) ∧
      (l2.headD s = s ↔ l2 = []) :=
  successor_addrs h hn

/-- Witness of C11: in the tree of the five words the successor of the root `banana`
(node 1) is `cherry` (node 3), and the successor of the last node `fig` (node 5) is the
sentinel. -/
theorem successor_inorder_witness :
    Rep fiveWords 0 fiveWordsTree ∧ fiveWordsTree.addrs = [2] ++ 1 :: [3, 4, 5] ∧
      fiveWordsTree.addrs = [2, 1, 3, 4] ++ 5 :: [] ∧
      (∃ m, (∀ fuel, m ≤ fuel → successor fuel fiveWords 1 0 = some 3) ∧
        (∀ fuel r, successor fuel fiveWords 1 0 = some r → r = 3) ∧
        (([3, 4, 5] : List Nat).headD 0 = 0 ↔ ([3, 4, 5] : List Nat) = [])) ∧
      (∃ m, (∀ fuel, m ≤ fuel → successor fuel fiveWords 5 0 = some 0) ∧
        (∀ fuel r, successor fuel fiveWords 5 0 = some r → r = 0) ∧
        (([] : List Nat).headD 0 = 0 ↔ ([] : List Nat) = [])) :=
  ⟨rep_fiveWords, by decide, by decide,
    successor_inorder fiveWords 0 fiveWordsTree 1 [2] [3, 4, 5] rep_fiveWords (by decide),
    successor_inorder fiveWords 0 fiveWordsTree 5 [2, 1, 3, 4] [] rep_fiveWords (by decide)⟩

/-! ## The first and the last node; a memory holds one tree only -/

/-- `minimum` from the root of a non-empty tree returns the first node in order. -/
theorem minimum_first {st : Mem} {s : Nat} : ∀ (t : Tree) (p : Nat), TreeAt st s p t →
    t ≠ Tree.nil → s ∉ t.addrs →
    ∃ m y l, t.addrs = y :: l ∧ ∀ fuel, m ≤ fuel → minimum fuel st (t.ptr s) s = some y := by
  intro t
  induction t with
  | nil => intro p _ h; exact absurd rfl h
  | node a c k l r ihl _ =>
    intro p ht _ hs
    simp only [treeAt_node] at ht
    obtain ⟨t1, t2, t3, t4, t5, hL, hR⟩ := ht
    simp only [Tree.addrs_node, List.mem_append, List.mem_cons, not_or] at hs
    cases l with
    | nil =>
      refine ⟨1, a, r.addrs, by simp, fun fuel hf => ?_⟩
      obtain ⟨j, rfl⟩ := Nat.exists_eq_add_of_le' hf
      simp only [Tree.ptr_nil] at t2
      simp [minimum, t2]
    | node la lc lk ll lr =>
      obtain ⟨m, y, l', e, hrun⟩ := ihl a hL (by simp) hs.1
      refine ⟨m + 1, y, l' ++ a :: r.addrs, by rw [Tree.addrs_node, e]; simp,
        fun fuel hf => ?_⟩
      obtain ⟨j, rfl⟩ := Nat.exists_eq_add_of_le' hf
      rw [show j + (m + 1) = (j + m) + 1 from rfl]
      have hne : la ≠ s := by
        rintro rfl
        exact hs.1 (by simp)
      simp only [Tree.ptr_node] at t2 hrun
      simp only [minimum, Tree.ptr_node, t2, ne_eq, hne, not_false_eq_true, if_true]
      exact hrun _ (by omega)

/-- `maximum` from the root of a non-empty tree returns the last node in order. -/
theorem maximum_last {st : Mem} {s : Nat} : ∀ (t : Tree) (p : Nat), TreeAt st s p t →
    t ≠ Tree.nil → s ∉ t.addrs →
    ∃ m y l, t.addrs = l ++ [y] ∧ ∀ fuel, m ≤ fuel → maximum fuel st (t.ptr s) s = some y := by
  intro t
  induction t with
  | nil => intro p _ h; exact absurd rfl h
  | node a c k l r _ ihr =>
    intro p ht _ hs
    simp only [treeAt_node] at ht
    obtain ⟨t1, t2, t3, t4, t5, hL, hR⟩ := ht
    simp only [Tree.addrs_node, List.mem_append, List.mem_cons, not_or] at hs
    cases r with
    | nil =>
      refine ⟨1, a, l.addrs, by simp, fun fuel hf => ?_⟩
      obtain ⟨j, rfl⟩ := Nat.exists_eq_add_of_le' hf
      simp only [Tree.ptr_nil] at t3
      simp [maximum, t3]
    | node ra rc rk rl rr =>
      obtain ⟨m, y, l', e, hrun⟩ := ihr a hR (by simp) hs.2.2
      refine ⟨m + 1, y, l.addrs ++ a :: l', by rw [Tree.addrs_node, e]; simp,
        fun fuel hf => ?_⟩
      obtain ⟨j, rfl⟩ := Nat.exists_eq_add_of_le' hf
      rw [show j + (m + 1) = (j + m) + 1 from rfl]
      have hne : ra ≠ s := by
        rintro rfl
        exact hs.2.2 (by simp)
      simp only [Tree.ptr_node] at t3 hrun
      simp only [maximum, Tree.ptr_node, t3, ne_eq, hne, not_false_eq_true, if_true]
      exact hrun _ (by omega)

/-- A memory holds at most one tree. -/
theorem Rep.unique {st : Mem} {s : Nat} {T T' : Tree} (h : Rep st s T) (h' : Rep st s T') :
    T = T' := by
  obtain ⟨m, hr⟩ := readTree_of_treeAt T s h.tree h.sentinel_not_mem
  obtain ⟨m', hr'⟩ := readTree_of_treeAt T' s h'.tree h'.sentinel_not_mem
  have h1 := hr (max m m') (Nat.le_max_left _ _)
  have h2 := hr' (max m m') (Nat.le_max_right _ _)
  rw [← h.root] at h1
  rw [← h'.root, h1] at h2
  exact Option.some.inj h2

/-- A tree with one node in its in-order sequence is that node without children. -/
theorem Tree.eq_leaf_of_nodes {T : Tree} {x : Nat × List Int} (h : T.nodes = [x]) :
    ∃ c, T = Tree.node x.1 c x.2 Tree.nil Tree.nil := by
  cases T with
  | nil => simp at h
  | node a c k l r =>
    simp only [Tree.nodes_node] at h
    have hlen := congrArg List.length h
    simp only [List.length_append, List.length_cons, List.length_nil] at hlen
    have hl : l = Tree.nil := by
      cases l with
      | nil => rfl
      | node _ _ _ _ _ =>
        simp only [Tree.nodes_node, List.length_append, List.length_cons] at hlen
        omega
    have hr : r = Tree.nil := by
      cases r with
      | nil => rfl
      | node _ _ _ _ _ =>
        simp only [Tree.nodes_node, List.length_append, List.length_cons] at hlen
        omega
    subst hl hr
    simp only [Tree.nodes_nil, List.nil_append, List.cons.injEq, and_true] at h
    subst h
    exact ⟨c, rfl⟩

/-! ## What every reachable memory satisfies -/

theorem inv_insert {st st' : Mem} {s fuel : Nat} {k : List Int} (h : Inv st s)
    (hrun : insertElement fuel st k s = some st') : Inv st' s := by
  obtain ⟨T, hrep, hrb, -⟩ := h
  obtain ⟨m, st2, T', hrun2, hrep', hrb', -, hn', -⟩ := insertElement_spec k hrep hrb
  have h3 := insertElement_mono (Nat.le_max_left fuel m) hrun
  rw [hrun2 _ (Nat.le_max_right fuel m)] at h3
  rw [← Option.some.inj h3]
  refine ⟨T', hrep', hrb', fun e => ?_⟩
  rw [e] at hn'
  simp at hn'

theorem inv_delete {st st' : Mem} {s fuel n : Nat} {T : Tree} (hrep : Rep st s T)
    (hrb : T.RedBlack) (hn : n ∈ T.addrs) (hrun : deleteNode fuel st n s = some st') :
    Inv st' s := by
  obtain ⟨m, st2, T', l1, l2, hrun2, hrep', hrb', h1, h2, -, -⟩ := deleteNode_spec hrep hrb hn
  have h3 := deleteNode_mono (Nat.le_max_left fuel m) hrun
  rw [hrun2 _ (Nat.le_max_right fuel m)] at h3
  have e2 : st2 = st' := Option.some.inj h3
  subst e2
  refine ⟨T', hrep', hrb', fun e => ?_⟩
  rw [e] at h2
  simp only [Tree.nodes_nil] at h2
  have hl1 : l1 = [] := by
    cases l1 with
    | nil => rfl
    | cons _ _ => simp at h2
  have hl2 : l2 = [] := by
    cases l2 with
    | nil => rfl
    | cons _ _ => simp [hl1] at h2
  rw [hl1, hl2] at h1
  obtain ⟨c, hT⟩ := Tree.eq_leaf_of_nodes h1
  simp only at hT
  rw [hT] at hrep
  obtain ⟨st3, hrun3, -, hf, -⟩ := deleteNode_single hrep
  have h4 := hrun2 _ (Nat.le_max_left m 1)
  rw [hrun3 _ (Nat.le_max_right m 1)] at h4
  rw [← Option.some.inj h4]
  exact hf

/-- Where `reduceTree` starts and restarts: at the first node with the last node as
bound, or at the sentinel when the tree is empty. -/
theorem restart_pos {st : Mem} {s n h ub : Nat} {T : Tree} (hrep : Rep st s T)
    (hmin : minimum n st st.root s = some h) (hmax : maximum n st st.root s = some ub) :
    (T = Tree.nil ∧ h = s ∧ ub = s) ∨ (h ∈ T.addrs ∧ ∃ l, T.addrs = l ++ [ub]) := by
  cases T with
  | nil =>
    left
    have hroot := hrep.root
    simp only [Tree.ptr_nil] at hroot
    rw [hroot] at hmin hmax
    cases n with
    | zero => simp [minimum] at hmin
    | succ n =>
      simp only [minimum, maximum, hrep.sentinel_left, hrep.sentinel_right, ne_eq,
        not_true_eq_false, if_false, Option.some.injEq] at hmin hmax
      exact ⟨rfl, hmin.symm, hmax.symm⟩
  | node a c k l r =>
    right
    obtain ⟨m1, y, l1, e1, hr1⟩ :=
      minimum_first _ s hrep.tree (by simp) hrep.sentinel_not_mem
    obtain ⟨m2, z, l2, e2, hr2⟩ :=
      maximum_last _ s hrep.tree (by simp) hrep.sentinel_not_mem
    rw [← hrep.root] at hr1 hr2
    have h1 := minimum_mono (Nat.le_max_left n m1) hmin
    rw [hr1 _ (Nat.le_max_right n m1)] at h1
    have h2 := maximum_mono (Nat.le_max_left n m2) hmax
    rw [hr2 _ (Nat.le_max_right n m2)] at h2
    rw [← Option.some.inj h1, ← Option.some.inj h2]
    exact ⟨by rw [e1]; simp, l2, e2⟩

/-- The loop of `reduceTree` keeps the invariant, whenever it returns. -/
theorem inv_reduceLoop {s n : Nat} : ∀ (fuel : Nat) (st : Mem) (h ub : Nat) (T : Tree)
    {st' : Mem}, Rep st s T → T.RedBlack → (T = Tree.nil → st.father s = s) →
    ((T = Tree.nil ∧ h = s ∧ ub = s) ∨ (h ∈ T.addrs ∧ ∃ l, T.addrs = l ++ [ub])) →
    reduceLoop n fuel st h ub s = some st' → Inv st' s := by
  intro fuel
  induction fuel with
  | zero => intro st h ub T st' _ _ _ _ hrun; simp [reduceLoop] at hrun
  | succ fuel ih =>
    intro st h ub T st' hrep hrb hf hpos hrun
    by_cases hv : isVowel ((st.key h).getD 0 0) = true
    · rcases hpos with ⟨hT, hh, hu⟩ | ⟨hmem, -⟩
      · rw [hh] at hv
        rw [hT] at hrep
        have hE : EmptyVowel st s :=
          ⟨hrep.root, hrep.sentinel_left, hrep.sentinel_right, hf hT, hrep.sentinel_color, hv⟩
        rw [hh, hu, reduceLoop_emptyVowel n (fuel + 1) st s hE] at hrun
        exact absurd hrun (by simp)
      · rw [reduceLoop, if_pos hv] at hrun
        split at hrun
        · exact absurd hrun (by simp)
        · rename_i st1 hd
          obtain ⟨T1, hrep1, hrb1, hf1⟩ := inv_delete hrep hrb hmem hd
          split at hrun
          · rename_i h' ub' hmin hmax
            exact ih st1 h' ub' T1 hrep1 hrb1 hf1 (restart_pos hrep1 hmin hmax) hrun
          · exact absurd hrun (by simp)
    · rw [reduceLoop, if_neg hv] at hrun
      split_ifs at hrun with hub
      · rw [← Option.some.inj hrun]
        exact ⟨T, hrep, hrb, hf⟩
      · split at hrun
        · exact absurd hrun (by simp)
        · rename_i h' hsucc
          rcases hpos with ⟨-, hh, hu⟩ | ⟨hmem, l, hl⟩
          · exact absurd (hh.trans hu.symm) hub
          · obtain ⟨l1, l2, hdec⟩ := List.append_of_mem hmem
            obtain ⟨m, -, huniq, -⟩ := successor_addrs hrep hdec
            have e := huniq _ _ hsucc
            cases l2 with
            | nil =>
              exfalso
              rw [hdec] at hl
              have := List.append_inj_right' hl (by simp)
              simp only [List.cons.injEq, and_true] at this
              exact hub this
            | cons a t =>
              simp only [List.headD_cons] at e
              subst e
              exact ih st h' ub T hrep hrb hf
                (Or.inr ⟨by rw [hdec]; simp, l, hl⟩) hrun

theorem inv_reduceTree {st st' : Mem} {s fuel : Nat} (h : Inv st s)
    (hrun : reduceTree fuel st s = some st') : Inv st' s := by
  obtain ⟨T, hrep, hrb, hf⟩ := h
  simp only [reduceTree] at hrun
  split at hrun
  · rename_i h' ub' hmin hmax
    exact inv_reduceLoop fuel st h' ub' T hrep hrb hf (restart_pos hrep hmin hmax) hrun
  · exact absurd hrun (by simp)

/-- Every reachable memory holds a red-black tree, with the sentinel linked to itself when
the tree is empty. -/
theorem reachable_inv {m st : Mem} (hr : Reachable m st) : Inv st (emptyTree m).2 := by
  induction hr with
  | init =>
    exact ⟨Tree.nil, rep_emptyTree m, by decide, fun _ => by
      simp [emptyTree, initializeSentinel, Mem.malloc]⟩
  | insert fuel k _ hrun ih => exact inv_insert ih hrun
  | delete fuel n T _ hrep hn hrun ih =>
    obtain ⟨T0, hrep0, hrb0, -⟩ := ih
    rw [hrep0.unique hrep] at hrb0
    exact inv_delete hrep hrb0 hn hrun
  | reduce fuel _ hrun ih => exact inv_reduceTree ih hrun

/-! ## Reachable memories: the claims -/

theorem some_getD_of_isSome {α : Type} {x : Option α} (d : α) (h : x.isSome = true) :
    x = some (x.getD d) := by
  cases x with
  | none => exact absurd h (by simp)
  | some v => rfl

theorem reachable_insertAll {m : Mem} {fuel : Nat} : ∀ (ks : List (List Int)) {st st' : Mem},
    Reachable m st → insertAll fuel st ks (emptyTree m).2 = some st' → Reachable m st' := by
  intro ks
  induction ks with
  | nil =>
    intro st st' hr h
    simp only [insertAll, Option.some.injEq] at h
    rw [← h]; exact hr
  | cons k ks ih =>
    intro st st' hr h
    simp only [insertAll] at h
    split at h
    · exact absurd h (by simp)
    · rename_i st1 h1
      exact ih (Reachable.insert fuel k hr h1) h

theorem reachable_emptied : Reachable (blankMem [97]) emptied :=
  Reachable.delete 1 1 (Tree.node 1 false apple Tree.nil Tree.nil)
    (Reachable.insert 2 apple Reachable.init
      (some_getD_of_isSome (blankMem []) (by decide!)))
    rep_oneVowel (by decide) (some_getD_of_isSome (blankMem []) (by decide!))

theorem reachable_threeWords : Reachable (blankMem []) threeWords := by
  have h1 : scenarioInserted = some fiveWords := some_getD_of_isSome (blankMem []) (by decide!)
  have h2 : scenarioReduced = some threeWords := some_getD_of_isSome (blankMem []) (by decide!)
  have hr : Reachable (blankMem []) fiveWords :=
    reachable_insertAll [banana, apple, cherry, egg, fig] Reachable.init h1
  have h3 : scenarioReduced = reduceTree 8 fiveWords (emptyTree (blankMem [])).2 := by
    rw [scenarioReduced, h1, Option.some_bind]
  rw [h3] at h2
  exact Reachable.reduce 8 hr h2

/-- C15: in every memory reachable from the freshly initialised empty tree by calls of
`insertElement` and of `deleteNode` on nodes of the tree (and of `reduceTree`) that return,
if the tree is empty (`root` is the sentinel) then `minimum(root)`, `maximum(root)` and
`successor(root)` each return the sentinel, with any fuel that is not zero. -/
theorem empty_tree_queries (m st : Mem) (hr : Reachable m st)
    (he : st.root = (emptyTree m).2) (fuel : Nat) (hfuel : 1 ≤ fuel) :
    minimum fuel st st.root (emptyTree m).2 = some (emptyTree m).2 ∧
      maximum fuel st st.root (emptyTree m).2 = some (emptyTree m).2 ∧
      successor fuel st st.root (emptyTree m).2 = some (emptyTree m).2 := by
  obtain ⟨T, hrep, -, hf⟩ := reachable_inv hr
  have hT : T = Tree.nil := by
    cases T with
    | nil => rfl
    | node a c k l r =>
      exfalso
      have := hrep.root
      rw [he] at this
      simp only [Tree.ptr_node] at this
      exact hrep.sentinel_not_mem (by simp [this])
  obtain ⟨j, rfl⟩ := Nat.exists_eq_add_of_le' hfuel
  rw [he]
  simp [minimum, maximum, successor, successorLoop, hrep.sentinel_left, hrep.sentinel_right,
    hf hT]

/-- Witness of C15: the memory after inserting `apple` into the empty tree and deleting
it again. -/
theorem empty_tree_queries_witness :
    Reachable (blankMem [97]) emptied ∧ emptied.root = (emptyTree (blankMem [97])).2 ∧
      minimum 1 emptied emptied.root (emptyTree (blankMem [97])).2 =
        some (emptyTree (blankMem [97])).2 ∧
      maximum 1 emptied emptied.root (emptyTree (blankMem [97])).2 =
        some (emptyTree (blankMem [97])).2 ∧
      successor 1 emptied emptied.root (emptyTree (blankMem [97])).2 =
        some (emptyTree (blankMem [97])).2 :=
  ⟨reachable_emptied, by decide!,
    empty_tree_queries (blankMem [97]) emptied reachable_emptied (by decide!) 1 (le_refl 1)⟩

/-- C16: in every memory reachable from the freshly initialised empty tree by calls of
`insertElement`, of `deleteNode` on nodes of the tree and of `reduceTree` that return, the
sentinel is black and its `son_l` and `son_r` links point to the sentinel itself; the
memory holds a red-black tree, of which the sentinel is not a node. -/
theorem sentinel_stays_black (m st : Mem) (hr : Reachable m st) :
    st.color (emptyTree m).2 = false ∧ st.son_l (emptyTree m).2 = (emptyTree m).2 ∧
      st.son_r (emptyTree m).2 = (emptyTree m).2 ∧
      ∃ T, Rep st (emptyTree m).2 T ∧ T.RedBlack ∧ (emptyTree m).2 ∉ T.addrs := by
  obtain ⟨T, hrep, hrb, -⟩ := reachable_inv hr
  exact ⟨hrep.sentinel_color, hrep.sentinel_left, hrep.sentinel_right, T, hrep, hrb,
    hrep.sentinel_not_mem⟩

/-- Witness of C16: the memory after inserting the five words and calling `reduceTree`. -/
theorem sentinel_stays_black_witness :
    Reachable (blankMem []) threeWords ∧
      threeWords.color (emptyTree (blankMem [])).2 = false ∧
      threeWords.son_l (emptyTree (blankMem [])).2 = (emptyTree (blankMem [])).2 ∧
      threeWords.son_r (emptyTree (blankMem [])).2 = (emptyTree (blankMem [])).2 ∧
      ∃ T, Rep threeWords (emptyTree (blankMem [])).2 T ∧ T.RedBlack ∧
        (emptyTree (blankMem [])).2 ∉ T.addrs :=
  ⟨reachable_threeWords, sentinel_stays_black (blankMem []) threeWords reachable_threeWords⟩

end RBTreeModel
